import Mathlib

/-!
Verification of the code-generation scheduling core of `cargo-px`.

This development shallowly embeds the scheduling core of the repository:

* `src/codegen_plan.rs`: the augmented package graph (`AugmentedPackageGraph`),
  its construction from workspace metadata and codegen units, the cycle
  detector `find_cycles`, the cyclic-dependency error rendering, and the
  post-order scheduler `codegen_plan` (petgraph's `DfsPostOrder` is embedded
  faithfully, including its stack discipline and the neighbour iteration
  order of petgraph adjacency lists, which is newest-edge-first).
* `src/lib.rs`: the target filter of `compute_filtered_codegen_plan` and the
  missing-verifier check of `verify`.
* `src/targets.rs`: the package-spec resolution of `determine_targets`.
* `src/codegen_unit.rs`: generator/verifier binary resolution in
  `CodegenUnit::new`.

Package identities are modelled as strings (guppy `PackageId` reprs); node
indices of the petgraph `StableDiGraph` are naturals assigned in insertion
order, exactly as petgraph assigns them when no node is ever removed (the
builder never removes nodes).  External collaborators (cargo metadata, the
process runner, clap parsing, filesystem paths) are abstracted as inputs.
-/

namespace CargoPx

/-- A package identity: the guppy `PackageId` (an opaque string). -/
abbrev PkgId := String

/-- `src/codegen_unit.rs`: a `CodegenUnit`, reduced to the identities the
scheduling core inspects: the target package that needs generation, the
package that owns the generator binary, and optionally the package that owns
the verifier binary.  Binary names and extra arguments are carried by the
executor only and play no role in any claim. -/
structure CodegenUnit where
  target : PkgId
  generator : PkgId
  verifier : Option PkgId := none
deriving DecidableEq, Repr

/-- `src/codegen_plan.rs`: `EdgeMetadata`. -/
inductive EdgeMetadata where
  | dependsOn
  | isGeneratedBy (unit : CodegenUnit)
deriving DecidableEq, Repr

/-- One edge of the petgraph `StableDiGraph`, with the node indices of its
endpoints and its weight. -/
structure GraphEdge where
  src : Nat
  dst : Nat
  weight : EdgeMetadata
deriving DecidableEq, Repr

/-- `src/codegen_plan.rs`: the `AugmentedPackageGraph`.  `pkgs` lists node
payloads (package ids) in node-index order — node `i` is `pkgs[i]` — and
`edges` lists the edges in insertion order (oldest first).  petgraph
adjacency lists iterate newest-edge-first, which we recover by reversing
filtered segments of `edges`. -/
structure AugmentedPackageGraph where
  pkgs : List PkgId
  edges : List GraphEdge
deriving Repr

namespace AugmentedPackageGraph

/-- Number of nodes of the graph. -/
def numNodes (g : AugmentedPackageGraph) : Nat := g.pkgs.length

/-- The edge relation of the graph (ignoring weights). -/
def HasEdge (g : AugmentedPackageGraph) (a b : Nat) : Prop :=
  ∃ e ∈ g.edges, e.src = a ∧ e.dst = b

/-- Reachability (zero or more edges). -/
def Reach (g : AugmentedPackageGraph) : Nat → Nat → Prop :=
  Relation.ReflTransGen g.HasEdge

/-- Reachability along at least one edge. -/
def ReachPlus (g : AugmentedPackageGraph) : Nat → Nat → Prop :=
  Relation.TransGen g.HasEdge

/-- Acyclicity: no edge closes a path back to its source.  This is
equivalent to the absence of a nonempty directed cycle. -/
def Acyclic (g : AugmentedPackageGraph) : Prop :=
  ∀ a b, g.HasEdge a b → ¬ g.Reach b a

/-- Well-formedness: every edge endpoint is a node index.  The graph
builder only inserts edges between nodes it has created. -/
def WF (g : AugmentedPackageGraph) : Prop :=
  ∀ e ∈ g.edges, e.src < g.numNodes ∧ e.dst < g.numNodes

/-- Outgoing neighbour targets of `x`, in edge-insertion order (oldest
first).  petgraph's `neighbors(x)` iterates these newest-first; when
`DfsPostOrder` pushes them onto its stack the top of the stack ends up
being the oldest-edge neighbour, so insertion order is stack-pop order. -/
def outTargets (g : AugmentedPackageGraph) (x : Nat) : List Nat :=
  (g.edges.filter (fun e => e.src == x)).map (fun e => e.dst)

/-- Incoming edges of `x` in petgraph iteration order (newest first), as
used by `edges_directed(x, Incoming)` in `codegen_plan`. -/
def inEdgesNewestFirst (g : AugmentedPackageGraph) (x : Nat) : List GraphEdge :=
  (g.edges.filter (fun e => e.dst == x)).reverse

/-- `externals(Incoming)`: node indices with no incoming edge, in ascending
index order (petgraph iterates node indices in order). -/
def sourcesAsc (g : AugmentedPackageGraph) : List Nat :=
  (List.range g.numNodes).filter (fun n => !(g.edges.any (fun e => e.dst == n)))

end AugmentedPackageGraph

open AugmentedPackageGraph

/-- The state of petgraph's `DfsPostOrder`: the explicit stack (head of the
list is the top of the `Vec`), the `discovered` set and the `finished` set.
`finished` is kept as a list with the most recently finished node first, so
it also records the finish order. -/
structure DfsState where
  stack : List Nat
  discovered : List Nat
  finished : List Nat
deriving Repr

/-- The nodes `DfsPostOrder` pushes when it first discovers `x`: the
outgoing neighbours of `x` that are not in `disc` (which already contains
`x` at that point), ordered so that the head is the next node popped.
petgraph iterates neighbours newest-edge-first and pushes them in that
order, so the top of the stack is the oldest-edge neighbour; with the list
head as stack top this is exactly edge-insertion order. -/
def dfsPushes (g : AugmentedPackageGraph) (x : Nat) (disc : List Nat) : List Nat :=
  (g.outTargets x).filter (fun d => !(disc.contains d))

/-- Faithful embedding of draining petgraph's `DfsPostOrder::next` until the
stack is empty (the `while let Some(node_index) = dfs.next(..)` loop in
`codegen_plan`).  Returns the nodes in the order they are yielded
(finished), together with the final state.

Each step inspects the top of the stack `nx`:
* not yet discovered: mark discovered and push its undiscovered neighbours
  above it;
* discovered and already finished: pop silently;
* discovered and unfinished: pop, mark finished, yield. -/
def dfsDrain (g : AugmentedPackageGraph) : DfsState → List Nat × DfsState
  | ⟨[], d, f⟩ => ([], ⟨[], d, f⟩)
  | ⟨nx :: rest, d, f⟩ =>
    if nx ∈ d then
      if nx ∈ f then
        dfsDrain g ⟨rest, d, f⟩
      else
        let res := dfsDrain g ⟨rest, d, nx :: f⟩
        (nx :: res.1, res.2)
    else
      dfsDrain g ⟨dfsPushes g nx (nx :: d) ++ nx :: rest, nx :: d, f⟩
termination_by s =>
  (((s.stack ++ g.edges.map (fun e => e.dst)).toFinset \ s.discovered.toFinset).card,
   s.stack.length)
decreasing_by
  · have hle : ((rest ++ g.edges.map (fun e => e.dst)).toFinset \ d.toFinset).card ≤
        (((nx :: rest) ++ g.edges.map (fun e => e.dst)).toFinset \ d.toFinset).card := by
      apply Finset.card_le_card
      apply Finset.sdiff_subset_sdiff _ le_rfl
      intro z hz
      simp only [List.mem_toFinset, List.mem_append, List.mem_cons] at hz ⊢
      tauto
    rcases lt_or_eq_of_le hle with h | h
    · exact Prod.Lex.left _ _ h
    · rw [h]
      exact Prod.Lex.right _ (by simp)
  · have hle : ((rest ++ g.edges.map (fun e => e.dst)).toFinset \ d.toFinset).card ≤
        (((nx :: rest) ++ g.edges.map (fun e => e.dst)).toFinset \ d.toFinset).card := by
      apply Finset.card_le_card
      apply Finset.sdiff_subset_sdiff _ le_rfl
      intro z hz
      simp only [List.mem_toFinset, List.mem_append, List.mem_cons] at hz ⊢
      tauto
    rcases lt_or_eq_of_le hle with h | h
    · exact Prod.Lex.left _ _ h
    · rw [h]
      exact Prod.Lex.right _ (by simp)
  · apply Prod.Lex.left
    apply Finset.card_lt_card
    constructor
    · intro z hz
      simp only [Finset.mem_sdiff, List.mem_toFinset, List.mem_append, List.mem_cons] at hz ⊢
      rcases hz with ⟨hmem, hnd⟩
      refine ⟨?_, fun hz2 => hnd (Or.inr hz2)⟩
      rcases hmem with h | h
      · rcases h with h | h
        · have hsub : dfsPushes g nx (nx :: d) ⊆ g.edges.map (fun e => e.dst) := by
            intro y hy
            have hy2 : y ∈ g.outTargets nx := List.mem_of_mem_filter hy
            unfold AugmentedPackageGraph.outTargets at hy2
            rcases List.mem_map.mp hy2 with ⟨e, he, rfl⟩
            exact List.mem_map.mpr ⟨e, List.mem_of_mem_filter he, rfl⟩
          exact Or.inr (hsub h)
        · rcases h with h | h
          · exact Or.inl (Or.inl h)
          · exact Or.inl (Or.inr h)
      · exact Or.inr h
    · intro hcon
      have hnx : nx ∈ ((nx :: rest) ++ g.edges.map (fun e => e.dst)).toFinset \ d.toFinset := by
        simp only [Finset.mem_sdiff, List.mem_toFinset, List.mem_append, List.mem_cons]
        exact ⟨Or.inl (Or.inl trivial), by assumption⟩
      have hcc := hcon hnx
      simp only [Finset.mem_sdiff, List.mem_toFinset, List.mem_cons] at hcc
      exact hcc.2 (Or.inl trivial)

/-- `move_to`: clear the stack and push the seed, keeping `discovered` and
`finished`. -/
def dfsMoveTo (s : DfsState) (seed : Nat) : DfsState :=
  ⟨[seed], s.discovered, s.finished⟩

/-- The seed loop of `codegen_plan`: drain the DFS from each seed in turn,
sharing `discovered`/`finished` across seeds, and concatenate the yielded
(finish-ordered) nodes.  The Rust code pops seeds from the end of the
`externals` vector, so the caller passes the seed list already reversed. -/
def runSeeds (g : AugmentedPackageGraph) : List Nat → DfsState → List Nat
  | [], _ => []
  | seed :: rest, s =>
    let res := dfsDrain g (dfsMoveTo s seed)
    res.1 ++ runSeeds g rest res.2

/-- The unit tagged on an `IsGeneratedBy` edge, if any. -/
def gbOf (e : GraphEdge) : Option CodegenUnit :=
  match e.weight with
  | .isGeneratedBy u => some u
  | .dependsOn => none

/-- The codegen units appended to the plan when node `x` is yielded: the
units tagged on the incoming `IsGeneratedBy` edges of `x`, in petgraph's
incoming-edge iteration order (newest first). -/
def unitsAt (g : AugmentedPackageGraph) (x : Nat) : List CodegenUnit :=
  (g.inEdgesNewestFirst x).filterMap gbOf

/-- Concatenation of `f` over a list (the plan accumulates `unitsAt` blocks
in yield order). -/
def concatMap (f : Nat → List CodegenUnit) : List Nat → List CodegenUnit
  | [] => []
  | x :: xs => f x ++ concatMap f xs

/-- `AugmentedPackageGraph::codegen_plan`: seeds are the `Incoming`-external
nodes; they are collected in ascending index order and popped from the end,
so they are processed in descending index order; for every node yielded by
the shared post-order DFS, the units on its incoming `IsGeneratedBy` edges
are appended to the plan.

When the graph has no node at all, `sourcesAsc` is empty and the Rust code
panics on `assert!(!sources.is_empty())`; this model then returns the empty
plan (the panic is discussed where the assertion is analysed). -/
def codegen_plan (g : AugmentedPackageGraph) : List CodegenUnit :=
  concatMap (unitsAt g) (runSeeds g g.sourcesAsc.reverse ⟨[], [], []⟩)

/-- Outgoing neighbour targets of `x` in petgraph iteration order (newest
edge first), as iterated by `neighbors_directed(x, Outgoing)` in the
recursive DFS of `find_cycles`. -/
def outTargetsNewestFirst (g : AugmentedPackageGraph) (x : Nat) : List Nat :=
  (g.outTargets x).reverse

/-- One recursion frame of the (defunctionalised) recursive DFS of
`find_cycles`: the node this `dfs` call is visiting and the outgoing
neighbours it has not yet scanned (next neighbour first). -/
structure FcFrame where
  node : Nat
  rem : List Nat
deriving Repr

/-- State of the `find_cycles` traversal: the recursion stack as explicit
frames (head = innermost call), the global `visited` set, and the cycles
recorded so far (in recording order). -/
structure FcState where
  frames : List FcFrame
  visited : List Nat
  cycles : List (List Nat)
deriving Repr

/-- The `stack` vector of `find_cycles`, bottom first (as `stack.iter()`
sees it): the frame nodes from outermost to innermost. -/
def fcStackList (frames : List FcFrame) : List Nat :=
  (frames.map (fun fr => fr.node)).reverse

/-- `stack[cycle_start..]`: drop elements until the first occurrence of `y`
(searching from the bottom, as `stack.iter().position` does). -/
def sliceFrom (y : Nat) : List Nat → List Nat
  | [] => []
  | a :: as' => if a = y then a :: as' else sliceFrom y as'

/-- Drain the recursion stack of `find_cycles`'s `dfs`: this is the inner
recursive function of `find_cycles`, defunctionalised into explicit frames.
Entering `dfs(n)` corresponds to pushing the frame `⟨n, neighbours of n⟩`
after marking `n` visited; the body then scans neighbours in petgraph
order: an unvisited neighbour is entered recursively; a visited neighbour
that is on the recursion stack records the stack slice from its position as
a cycle; when all neighbours are scanned the frame returns (`stack.pop`). -/
def fcRun (g : AugmentedPackageGraph) : FcState → FcState
  | ⟨[], v, cs⟩ => ⟨[], v, cs⟩
  | ⟨⟨x, []⟩ :: rest, v, cs⟩ => fcRun g ⟨rest, v, cs⟩
  | ⟨⟨x, nb :: nbs⟩ :: rest, v, cs⟩ =>
    if nb ∈ v then
      if nb ∈ fcStackList (⟨x, nb :: nbs⟩ :: rest) then
        fcRun g ⟨⟨x, nbs⟩ :: rest, v,
                 cs ++ [sliceFrom nb (fcStackList (⟨x, nb :: nbs⟩ :: rest))]⟩
      else
        fcRun g ⟨⟨x, nbs⟩ :: rest, v, cs⟩
    else
      fcRun g ⟨⟨nb, outTargetsNewestFirst g nb⟩ :: ⟨x, nbs⟩ :: rest, nb :: v, cs⟩
termination_by s =>
  (((g.edges.map (fun e => e.dst) ++
      (s.frames.map (fun fr => fr.rem)).flatten).toFinset \ s.visited.toFinset).card,
   (s.frames.map (fun fr => fr.rem.length + 1)).sum)
decreasing_by
  · simp only [List.map_cons, List.flatten_cons, List.nil_append]
    apply Prod.Lex.right
    simp only [List.map_cons, List.sum_cons]
    omega
  · have hle : ((g.edges.map (fun e => e.dst) ++
          (List.map (fun fr => fr.rem) (⟨x, nbs⟩ :: rest)).flatten).toFinset \ v.toFinset).card ≤
        ((g.edges.map (fun e => e.dst) ++
          (List.map (fun fr => fr.rem) (⟨x, nb :: nbs⟩ :: rest)).flatten).toFinset \ v.toFinset).card := by
      apply Finset.card_le_card
      apply Finset.sdiff_subset_sdiff _ le_rfl
      intro z hz
      simp only [List.mem_toFinset, List.mem_append, List.map_cons, List.flatten_cons,
        List.mem_cons] at hz ⊢
      tauto
    rcases lt_or_eq_of_le hle with h | h
    · exact Prod.Lex.left _ _ h
    · rw [h]
      apply Prod.Lex.right
      simp only [List.map_cons, List.sum_cons, List.length_cons]
      omega
  · have hle : ((g.edges.map (fun e => e.dst) ++
          (List.map (fun fr => fr.rem) (⟨x, nbs⟩ :: rest)).flatten).toFinset \ v.toFinset).card ≤
        ((g.edges.map (fun e => e.dst) ++
          (List.map (fun fr => fr.rem) (⟨x, nb :: nbs⟩ :: rest)).flatten).toFinset \ v.toFinset).card := by
      apply Finset.card_le_card
      apply Finset.sdiff_subset_sdiff _ le_rfl
      intro z hz
      simp only [List.mem_toFinset, List.mem_append, List.map_cons, List.flatten_cons,
        List.mem_cons] at hz ⊢
      tauto
    rcases lt_or_eq_of_le hle with h | h
    · exact Prod.Lex.left _ _ h
    · rw [h]
      apply Prod.Lex.right
      simp only [List.map_cons, List.sum_cons, List.length_cons]
      omega
  · apply Prod.Lex.left
    apply Finset.card_lt_card
    constructor
    · intro z hz
      simp only [Finset.mem_sdiff, List.mem_toFinset, List.mem_append, List.map_cons,
        List.flatten_cons, List.mem_cons] at hz ⊢
      rcases hz with ⟨hmem, hnd⟩
      refine ⟨?_, fun hz2 => hnd (Or.inr hz2)⟩
      have houtsub : ∀ y, y ∈ outTargetsNewestFirst g nb → y ∈ g.edges.map (fun e => e.dst) := by
        intro y hy
        unfold outTargetsNewestFirst at hy
        rw [List.mem_reverse] at hy
        unfold AugmentedPackageGraph.outTargets at hy
        rcases List.mem_map.mp hy with ⟨e, he, rfl⟩
        exact List.mem_map.mpr ⟨e, List.mem_of_mem_filter he, rfl⟩
      rcases hmem with h | h
      · exact Or.inl h
      · rcases h with h | h | h
        · exact Or.inl (houtsub z h)
        · exact Or.inr (Or.inl (Or.inr h))
        · exact Or.inr (Or.inr h)
    · intro hcon
      have hnb : nb ∈ ((g.edges.map (fun e => e.dst) ++
          (List.map (fun fr => fr.rem) (⟨x, nb :: nbs⟩ :: rest)).flatten).toFinset \ v.toFinset) := by
        simp only [Finset.mem_sdiff, List.mem_toFinset, List.mem_append, List.map_cons,
          List.flatten_cons, List.mem_cons]
        exact ⟨Or.inr (Or.inl (Or.inl trivial)), by assumption⟩
      have hcc := hcon hnb
      simp only [Finset.mem_sdiff, List.mem_toFinset, List.mem_cons] at hcc
      exact hcc.2 (Or.inl trivial)

/-- `find_cycles`: run the DFS from every node index in ascending order,
skipping nodes already visited, and return the recorded cycles. -/
def find_cycles (g : AugmentedPackageGraph) : List (List Nat) :=
  ((List.range g.numNodes).foldl
    (fun s n =>
      if n ∈ s.visited then s
      else fcRun g ⟨[⟨n, outTargetsNewestFirst g n⟩], n :: s.visited, s.cycles⟩)
    ⟨[], [], []⟩).cycles

/-- `find_edge(a, b)` followed by `edge_weight`: the weight of the unique
edge from `a` to `b`, if any. -/
def findEdgeWeight (g : AugmentedPackageGraph) (a b : Nat) : Option EdgeMetadata :=
  (g.edges.find? (fun e => e.src == a && e.dst == b)).map (fun e => e.weight)

/-- The relationship word used by `cyclic_dependency_error`. -/
def relWord : EdgeMetadata → String
  | .dependsOn => "depends on"
  | .isGeneratedBy _ => "is generated by"

/-- The fixed header of the cyclic-dependency error message. -/
def cyclicDependencyErrorHeader : String :=
  "There is a cyclic dependency in your workspace: this is not allowed!\nThe cycle looks like this:"

/-- `cyclic_dependency_error`: render one recorded cycle.  For entry `i` the
dependent is `cycle[i-1]` (`cycle.last()` for `i = 0`) and the dependency is
`cycle[i]`; each entry is preceded by a newline (`writeln!` before
`write!`).  The Rust code `unwrap`s the node payload lookups, the edge
lookup and `cycle.last()`; a failed unwrap is a panic, modelled as `none`. -/
def cdeStep (g : AugmentedPackageGraph) (acc : Option String) (p : Nat × Nat) :
    Option String :=
  acc.bind (fun s =>
    (g.pkgs[p.1]?).bind (fun depName =>
      (g.pkgs[p.2]?).bind (fun curName =>
        (findEdgeWeight g p.1 p.2).map (fun w =>
          s ++ "\n" ++ "- `" ++ depName ++ "` " ++ relWord w ++ " `" ++ curName ++ "`"))))

def cyclic_dependency_error (g : AugmentedPackageGraph) (cycle : List Nat) : Option String :=
  match cycle.getLast? with
  | none => none
  | some lst =>
    (List.zip (lst :: cycle.dropLast) cycle).foldl (cdeStep g)
      (some cyclicDependencyErrorHeader)

/-- One direct dependency link of the cargo metadata graph: `src` depends
on `dst` (guppy `PackageLink`: `from` depends on `to`), with the dev-only
flag. -/
structure PkgLink where
  src : PkgId
  dst : PkgId
  devOnly : Bool
deriving DecidableEq, Repr

/-- The workspace metadata the scheduling core consumes from guppy: the
workspace member ids (in `workspace().member_ids()` iteration order) and
all direct dependency links of the metadata graph (in guppy link iteration
order; `direct_links_directed(Reverse)` of `p` filters this list to links
with `dst = p`). -/
structure Workspace where
  members : List PkgId
  links : List PkgLink
deriving Repr

/-- Look up a package id in the `pkg_id2node_id` map. -/
def lookupNode (m : List (PkgId × Nat)) (p : PkgId) : Option Nat :=
  (m.find? (fun q => q.1 == p)).map (fun q => q.2)

/-- Get-or-create the node for package `p` (the `pkg_id2node_id` pattern in
`AugmentedPackageGraph::new`): returns the updated graph, the updated map
and the node index. -/
def ensureNode (g : AugmentedPackageGraph) (m : List (PkgId × Nat)) (p : PkgId) :
    AugmentedPackageGraph × List (PkgId × Nat) × Nat :=
  match lookupNode m p with
  | some i => (g, m, i)
  | none => (⟨g.pkgs ++ [p], g.edges⟩, (p, g.pkgs.length) :: m, g.pkgs.length)

/-- petgraph `update_edge(a, b, w)`: replace the weight of the existing
`a → b` edge in place, or append a new edge. -/
def updateEdge (es : List GraphEdge) (a b : Nat) (w : EdgeMetadata) : List GraphEdge :=
  match es with
  | [] => [⟨a, b, w⟩]
  | e :: es' => if e.src == a && e.dst == b then ⟨a, b, w⟩ :: es' else e :: updateEdge es' a b w

/-- Process the reverse dependency links of the currently popped package
(node `nid`): for each non-dev link, ensure the dependent has a node and
`update_edge(dependent, current, DependsOn)`. -/
def processLinks (nid : Nat) :
    List PkgLink → AugmentedPackageGraph → List (PkgId × Nat) →
    AugmentedPackageGraph × List (PkgId × Nat)
  | [], g, m => (g, m)
  | l :: ls, g, m =>
    if l.devOnly then processLinks nid ls g m
    else
      let r := ensureNode g m l.src
      processLinks nid ls ⟨r.1.pkgs, updateEdge r.1.edges r.2.2 nid .dependsOn⟩ r.2.1

/-- The dependents pushed onto `to_be_visited` while processing the links
of the current package: the sources of its non-dev reverse links that are
not yet processed.  The `processed` set is only extended after the link
loop, so the push condition is constant during the loop; pushes go to the
end of the `Vec`, which is the head of our pop list, hence the reversal. -/
def linkPushes (links : List PkgLink) (proc : List PkgId) : List PkgId :=
  ((links.filter (fun l => !l.devOnly && !(proc.contains l.src))).map (fun l => l.src)).reverse

/-- The mutable state of `AugmentedPackageGraph::new`'s worklist loop. -/
structure BuilderState where
  graph : AugmentedPackageGraph
  pkg2node : List (PkgId × Nat)
  processed : List PkgId
  toVisit : List PkgId
deriving Repr

/-- The `while let Some(pkg_id) = to_be_visited.pop()` loop of
`AugmentedPackageGraph::new`: pop a package (head of `toVisit` models the
end of the `Vec`), skip it if already processed, otherwise ensure its node,
insert a `DependsOn` edge from every non-dev dependent (creating their
nodes as needed, enqueuing unprocessed ones) and mark it processed. -/
def buildLoop (ws : Workspace) : BuilderState → BuilderState
  | ⟨g, m, proc, []⟩ => ⟨g, m, proc, []⟩
  | ⟨g, m, proc, p :: tv⟩ =>
    if p ∈ proc then buildLoop ws ⟨g, m, proc, tv⟩
    else
      let r := ensureNode g m p
      let links := ws.links.filter (fun l => l.dst == p)
      let r2 := processLinks r.2.2 links r.1 r.2.1
      buildLoop ws ⟨r2.1, r2.2, p :: proc, linkPushes links proc ++ tv⟩
termination_by s =>
  (((ws.links.map (fun l => l.src) ++ s.toVisit).toFinset \ s.processed.toFinset).card,
   s.toVisit.length)
decreasing_by
  · have hle : ((ws.links.map (fun l => l.src) ++ tv).toFinset \ proc.toFinset).card ≤
        ((ws.links.map (fun l => l.src) ++ p :: tv).toFinset \ proc.toFinset).card := by
      apply Finset.card_le_card
      apply Finset.sdiff_subset_sdiff _ le_rfl
      intro z hz
      simp only [List.mem_toFinset, List.mem_append, List.mem_cons] at hz ⊢
      tauto
    rcases lt_or_eq_of_le hle with h | h
    · exact Prod.Lex.left _ _ h
    · rw [h]
      exact Prod.Lex.right _ (by simp)
  · apply Prod.Lex.left
    apply Finset.card_lt_card
    constructor
    · intro z hz
      simp only [Finset.mem_sdiff, List.mem_toFinset, List.mem_append, List.mem_cons] at hz ⊢
      rcases hz with ⟨hmem, hnd⟩
      refine ⟨?_, fun hz2 => hnd (Or.inr hz2)⟩
      rcases hmem with h | h
      · exact Or.inl h
      · rcases h with h | h
        · unfold linkPushes at h
          rw [List.mem_reverse] at h
          rcases List.mem_map.mp h with ⟨l, hl, rfl⟩
          exact Or.inl (List.mem_map.mpr
            ⟨l, List.mem_of_mem_filter (List.mem_of_mem_filter hl), rfl⟩)
        · exact Or.inr (Or.inr h)
    · intro hcon
      have hp : p ∈ ((ws.links.map (fun l => l.src) ++ p :: tv).toFinset \ proc.toFinset) := by
        simp only [Finset.mem_sdiff, List.mem_toFinset, List.mem_append, List.mem_cons]
        exact ⟨Or.inr (Or.inl trivial), by assumption⟩
      have hcc := hcon hp
      simp only [Finset.mem_sdiff, List.mem_toFinset, List.mem_cons] at hcc
      exact hcc.2 (Or.inl trivial)

/-- The first phase of `AugmentedPackageGraph::new` followed by the
`IsGeneratedBy` loop: build the reverse-closure graph from the workspace
members, then add one `GeneratedBy` edge per codegen unit (target →
generator).  The node lookups for a unit are `HashMap` index operations in
Rust, which panic when the id is absent — modelled as `none`. -/
def buildRawGraph (ws : Workspace) (us : List CodegenUnit) : Option AugmentedPackageGraph :=
  let st := buildLoop ws ⟨⟨[], []⟩, [], [], ws.members.reverse⟩
  us.foldl
    (fun acc u => acc.bind (fun g =>
      (lookupNode st.pkg2node u.generator).bind (fun gi =>
        (lookupNode st.pkg2node u.target).map (fun ti =>
          ⟨g.pkgs, updateEdge g.edges ti gi (.isGeneratedBy u)⟩))))
    (some st.graph)

/-- One step of the `IsGeneratedBy` loop (the fold body of
`buildRawGraph`), named so that the fold can be analysed by induction. -/
def gbStep (m : List (PkgId × Nat)) (acc : Option AugmentedPackageGraph)
    (u : CodegenUnit) : Option AugmentedPackageGraph :=
  acc.bind (fun g =>
    (lookupNode m u.generator).bind (fun gi =>
      (lookupNode m u.target).map (fun ti =>
        ⟨g.pkgs, updateEdge g.edges ti gi (.isGeneratedBy u)⟩)))

/-- The `IsGeneratedBy` loop of `AugmentedPackageGraph::new` as a fold. -/
def gbFold (m : List (PkgId × Nat)) (us : List CodegenUnit)
    (acc : Option AugmentedPackageGraph) : Option AugmentedPackageGraph :=
  us.foldl (gbStep m) acc

/-- `AugmentedPackageGraph::new`: build the raw graph, then gate on
`find_cycles`, rendering one error per recorded cycle.  The outer `Option`
is a panic (index unwrap) anywhere during construction or rendering. -/
def buildAugmentedGraph (ws : Workspace) (us : List CodegenUnit) :
    Option (Except (List String) AugmentedPackageGraph) :=
  (buildRawGraph ws us).bind (fun g =>
    let cs := find_cycles g
    if cs.isEmpty then some (.ok g)
    else (cs.mapM (cyclic_dependency_error g)).map .error)

/-- One step of the full (dev-inclusive) cargo metadata dependency
relation: `a` directly depends on `b`.  This is the graph guppy's
`DependsCache::depends_on` queries. -/
def stepRel (ws : Workspace) (a b : PkgId) : Prop :=
  ∃ l ∈ ws.links, l.src = a ∧ l.dst = b

/-- Direct dependencies of `a` in the full metadata graph. -/
def depStep (ws : Workspace) (a : PkgId) : List PkgId :=
  (ws.links.filter (fun l => l.src == a)).map (fun l => l.dst)

/-- Is `acc` closed under the direct-dependency relation? -/
def depsClosed (ws : Workspace) (acc : List PkgId) : Bool :=
  ws.links.all (fun l => !(acc.contains l.src) || acc.contains l.dst)

/-- The direct dependencies of members of `acc` that are not yet in
`acc`. -/
def newDsts (ws : Workspace) (acc : List PkgId) : List PkgId :=
  ((ws.links.filter (fun l => acc.contains l.src && !(acc.contains l.dst))).map
    (fun l => l.dst)).dedup

/-- Saturate `acc` under direct dependencies, with enough fuel to reach a
fixed point. -/
def iterClose (ws : Workspace) : Nat → List PkgId → List PkgId
  | 0, acc => acc
  | n + 1, acc => if depsClosed ws acc then acc else iterClose ws n (acc ++ newDsts ws acc)

/-- Model of guppy's `depends_on(a, b)`: `b` is reachable from `a` through
at least one (dev or non-dev) dependency link of the metadata graph. -/
def dependsOnB (ws : Workspace) (a b : PkgId) : Bool :=
  (iterClose ws (ws.links.length + 1) (depStep ws a)).contains b

/-- `workspace().member_by_name(spec)`. -/
def member_by_name (ws : Workspace) (spec : String) : Option PkgId :=
  ws.members.find? (fun m => m == spec)

/-- The spec-resolution loop of `determine_targets`: collect the package id
of each spec in order; as soon as one spec does not match a workspace
member, return the empty list (codegen for everything). -/
def resolveSpecs (ws : Workspace) : List String → List PkgId → List PkgId
  | [], acc => acc
  | spec :: rest, acc =>
    match member_by_name ws spec with
    | some pid => resolveSpecs ws rest (acc ++ [pid])
    | none => []

/-- `determine_targets`: with no package specs the scope is the implicit
target inferred from the working directory (that inference,
`find_implicit_target`, is pure path arithmetic unused by any claim and is
abstracted as the `implicitTarget` input, as is clap's `-p`/`--package`
extraction, which yields `specs`); otherwise resolve the specs. -/
def determine_targets (specs : List String) (implicitTarget : Option PkgId)
    (ws : Workspace) : List PkgId :=
  if specs.isEmpty then implicitTarget.toList
  else resolveSpecs ws specs []

/-- The retain predicate of `compute_filtered_codegen_plan`: some target is
the unit's package or depends on it (full metadata graph). -/
def retainUnit (ws : Workspace) (targets : List PkgId) (u : CodegenUnit) : Bool :=
  targets.any (fun t => u.target == t || dependsOnB ws t u.target)

/-- The filtering step of `compute_filtered_codegen_plan`: with a non-empty
target scope, keep only the retained units; with an empty scope keep
everything. -/
def filterUnits (ws : Workspace) (targets : List PkgId) (units : List CodegenUnit) :
    List CodegenUnit :=
  if targets.isEmpty then units else units.filter (retainUnit ws targets)

/-- `compute_filtered_codegen_plan`, fed with the already-extracted codegen
units: determine the target scope, filter the units, then build the
augmented graph from the filtered units and schedule them. -/
def compute_filtered_codegen_plan (ws : Workspace) (us : List CodegenUnit)
    (specs : List String) (implicitTarget : Option PkgId) :
    Option (Except (List String) (List CodegenUnit)) :=
  let targets := determine_targets specs implicitTarget ws
  let units := filterUnits ws targets us
  (buildAugmentedGraph ws units).map (fun r => r.map codegen_plan)

/-- The missing-verifier error message of `verify` in `src/lib.rs`. -/
def missingVerifierMsg (name : String) : String :=
  "`" ++ name ++ "` doesn't define a verifier, therefore we can't verify if it's fresh"

/-- Stand-in for the error produced when `verify_crate`'s external compile
or run step fails for a unit (its exact text is irrelevant here). -/
def processFailureMsg (name : String) : String :=
  "Failed to verify `" ++ name ++ "`"

/-- The unit loop of `verify` in `src/lib.rs`: walk the plan in order; a
unit without a verifier immediately returns the missing-verifier error;
otherwise `verify_crate` runs the external compile and run steps —
abstracted by the `outcome` oracle — and a failure aborts the loop.
Returns the target packages successfully verified, in order, together with
the error that stopped the loop, if any. -/
def verifyRun (outcome : CodegenUnit → Bool) : List CodegenUnit → List PkgId × Option String
  | [] => ([], none)
  | u :: rest =>
    match u.verifier with
    | none => ([], some (missingVerifierMsg u.target))
    | some _ =>
      if outcome u then
        let r := verifyRun outcome rest
        (u.target :: r.1, r.2)
      else ([], some (processFailureMsg u.target))

/-- A build target of a workspace member (`src/codegen_unit.rs` inspects
its kind and name). -/
structure BuildTarget where
  name : String
  isBinary : Bool
deriving DecidableEq, Repr

/-- A workspace member as seen by `CodegenUnit::new`: its package id and
its build targets. -/
structure MemberPackage where
  pid : PkgId
  buildTargets : List BuildTarget
deriving Repr

/-- Does this member define a binary target with this name? -/
def definesBinary (m : MemberPackage) (bin : String) : Bool :=
  m.buildTargets.any (fun t => t.isBinary && t.name == bin)

/-- The binary-resolution loop of `CodegenUnit::new`: scan every workspace
member except the unit's own package; the loop does not break on a match,
so the last matching member wins. -/
def findBinaryPackage (members : List MemberPackage) (selfId : PkgId) (bin : String) :
    Option PkgId :=
  members.foldl (fun acc m =>
    if m.pid == selfId then acc
    else if definesBinary m bin then some m.pid else acc) none

/-- The per-package `[package.metadata.px]` configuration: the generator
binary name and the optional verifier binary name (their extra argument
lists are executor-only and omitted). -/
structure PxConfig where
  generatorName : String
  verifierName : Option String := none
deriving Repr

/-- The missing-generator-binary configuration error of
`CodegenUnit::new`. -/
def missingGeneratorMsg (bin self : String) : String :=
  "There is no binary named `" ++ bin ++
    "` in the workspace, but it's listed as the generator name for package `" ++ self ++ "`"

/-- The missing-verifier-binary configuration error of
`CodegenUnit::new`. -/
def missingVerifierBinMsg (bin self : String) : String :=
  "There is no binary named `" ++ bin ++
    "` in the workspace, but it's listed as the verifier name for package `" ++ self ++ "`"

/-- `CodegenUnit::new`: resolve the generator binary (error if it resolves
nowhere outside the unit's own package), then the optional verifier binary
likewise. -/
def codegenUnitNew (cfg : PxConfig) (selfId : PkgId) (members : List MemberPackage) :
    Except String CodegenUnit :=
  match findBinaryPackage members selfId cfg.generatorName with
  | none => .error (missingGeneratorMsg cfg.generatorName selfId)
  | some gpid =>
    match cfg.verifierName with
    | none => .ok ⟨selfId, gpid, none⟩
    | some vbin =>
      match findBinaryPackage members selfId vbin with
      | none => .error (missingVerifierBinMsg vbin selfId)
      | some vpid => .ok ⟨selfId, gpid, some vpid⟩

/-- The units tagged on the `IsGeneratedBy` edges of the graph, in edge
order. -/
def gbUnits (g : AugmentedPackageGraph) : List CodegenUnit :=
  g.edges.filterMap gbOf

/-- A rank function witnessing acyclicity: every edge strictly decreases
the rank. -/
def RankOk (g : AugmentedPackageGraph) (rank : Nat → Nat) : Prop :=
  ∀ e ∈ g.edges, rank e.dst < rank e.src

/-- Transitive (at least one link) dependency in the full metadata graph:
what guppy's `depends_on` decides. -/
def DependsOn (ws : Workspace) (a b : PkgId) : Prop :=
  Relation.TransGen (stepRel ws) a b

/-- Correctness of a finish order (newest-finished node first): no
duplicates, and every out-neighbour of a listed node was finished strictly
earlier, i.e. appears strictly later in the list. -/
def OrdOk (g : AugmentedPackageGraph) (f : List Nat) : Prop :=
  f.Nodup ∧ ∀ pre u post, f = pre ++ u :: post → ∀ y, g.HasEdge u y → y ∈ post

/-- The nodes of the `find_cycles` recursion stack, innermost first. -/
def fcNodes (frames : List FcFrame) : List Nat :=
  frames.map (fun fr => fr.node)

/-- A node that `find_cycles` has fully explored: visited and no longer on
the recursion stack. -/
def FcDone (s : FcState) (z : Nat) : Prop :=
  z ∈ s.visited ∧ z ∉ fcNodes s.frames

/-- Invariant on the scanned neighbour prefix of every recursion frame:
for each frame (with `above` the nodes of the frames nested inside it),
its remaining list is a suffix of its full neighbour list, and every
already-scanned neighbour is either fully explored, or still open in a
nested frame, or was recorded in a cycle together with the frame's node. -/
def ScannedOk (g : AugmentedPackageGraph) (s : FcState) :
    List Nat → List FcFrame → Prop
  | _, [] => True
  | above, fr :: rest =>
      ((∃ done, outTargetsNewestFirst g fr.node = done ++ fr.rem ∧
          ∀ y ∈ done, FcDone s y ∨ y ∈ above ∨ ∃ c ∈ s.cycles, fr.node ∈ c ∧ y ∈ c) ∧
        ScannedOk g s (fr.node :: above) rest)

/-- The parent-to-child edges along the `find_cycles` recursion stack
(innermost frame first): each frame's node has an edge from the node of
the frame below it. -/
def FcChain (g : AugmentedPackageGraph) : List FcFrame → Prop
  | [] => True
  | [_] => True
  | fr :: fr2 :: rest => g.HasEdge fr2.node fr.node ∧ FcChain g (fr2 :: rest)

/-- A finish order for `find_cycles` (newest first): every out-neighbour
of a finished node either finished strictly earlier or shares some
recorded cycle with it. -/
def FcFinOk (g : AugmentedPackageGraph) (cycles : List (List Nat)) (ford : List Nat) : Prop :=
  ∀ pre u post, ford = pre ++ u :: post → ∀ y, g.HasEdge u y →
    y ∈ post ∨ ∃ c ∈ cycles, u ∈ c ∧ y ∈ c

/-- Well-formedness of a recorded cycle: nonempty, all nodes valid, with
edges between consecutive entries and from the last entry back to the
first. -/
def CycleWF (g : AugmentedPackageGraph) (c : List Nat) : Prop :=
  c ≠ [] ∧ (∀ x ∈ c, x < g.numNodes) ∧ List.Chain' g.HasEdge c ∧
  (∀ lst hd, c.getLast? = some lst → c.head? = some hd → g.HasEdge lst hd)

/-- `needle` occurs inside `s` (as a contiguous substring, stated on the
underlying character lists). -/
def ContainsStr (s needle : String) : Prop :=
  ∃ pre post : List Char, s.data = pre ++ needle.data ++ post

/-- The combined invariant of the `find_cycles` traversal: the recursion
stack is duplicate-free, visited and valid; every scanned neighbour is
accounted for; the stack is a path; every recorded cycle is well-formed;
and some finish order lists exactly the fully-explored nodes, each of its
out-neighbours having finished earlier or sharing a recorded cycle. -/
def FcInv (g : AugmentedPackageGraph) (s : FcState) : Prop :=
  (fcNodes s.frames).Nodup ∧
  (∀ z ∈ fcNodes s.frames, z ∈ s.visited ∧ z < g.numNodes) ∧
  ScannedOk g s [] s.frames ∧
  FcChain g s.frames ∧
  (∀ c ∈ s.cycles, CycleWF g c) ∧
  (∃ ford : List Nat, ford.Nodup ∧ (∀ z, z ∈ ford ↔ FcDone s z) ∧
    FcFinOk g s.cycles ford) ∧
  (∀ z ∈ s.visited, z < g.numNodes)

/-- Agreement between the `pkg_id2node_id` map and the node payloads of
the graph under construction: the map sends a package id to `i` exactly
when node `i` carries that package. -/
def MapAgrees (g : AugmentedPackageGraph) (m : List (PkgId × Nat)) : Prop :=
  ∀ p i, lookupNode m p = some i ↔ g.pkgs[i]? = some p

/-! ## Concrete instances used to exercise the theorems -/

/-- A two-package workspace: a target `t` whose generator lives in `g`,
with no dependency links. -/
def wsLin : Workspace := ⟨["t", "g"], []⟩

/-- The codegen unit of `wsLin`. -/
def uLin : CodegenUnit := ⟨"t", "g", none⟩

/-- The graph `AugmentedPackageGraph::new` builds from `wsLin` with
`[uLin]`. -/
def gLin : AugmentedPackageGraph := ⟨["g", "t"], [⟨1, 0, .isGeneratedBy uLin⟩]⟩

/-- Unit of target `t1`, generated from `g1`. -/
def u1ex : CodegenUnit := ⟨"t1", "g1", none⟩

/-- Unit of target `t2`, generated from `g2`. -/
def u2ex : CodegenUnit := ⟨"t2", "g2", none⟩

/-- The graph built from the workspace with members
`[s, g1, g2, t2, t1]`, links `t1 → g2` and `s → g1` (non-dev) and the two
units `u1ex`, `u2ex`: nodes are created in the order `t1, t2, g2, g1, s`
and the `IsGeneratedBy` edges `t1 → g1` and `t2 → g2` are appended after
the dependency edges. -/
def gc1 : AugmentedPackageGraph :=
  ⟨["t1", "t2", "g2", "g1", "s"],
   [⟨0, 2, .dependsOn⟩, ⟨4, 3, .dependsOn⟩, ⟨0, 3, .isGeneratedBy u1ex⟩,
    ⟨1, 2, .isGeneratedBy u2ex⟩]⟩

/-- A chain graph: `t1` is generated by `g1`, `g1` depends on `t2`, and
`t2` is generated by `g2`. -/
def gc2 : AugmentedPackageGraph :=
  ⟨["t1", "g1", "t2", "g2"],
   [⟨0, 1, .isGeneratedBy u1ex⟩, ⟨1, 2, .dependsOn⟩, ⟨2, 3, .isGeneratedBy u2ex⟩]⟩

/-- A workspace where package `a`'s generator lives in `b` and `b` has a
non-dev dependency on `a`. -/
def wsCyc : Workspace := ⟨["a", "b"], [⟨"b", "a", false⟩]⟩

/-- The codegen unit of `wsCyc`: `a` is generated by `b`. -/
def uCyc : CodegenUnit := ⟨"a", "b", none⟩

/-- A workspace where `a` has a non-dev dependency on `b`. -/
def wsDep : Workspace := ⟨["a", "b"], [⟨"a", "b", false⟩]⟩

/-- A unit whose target is `a` (generator package name is irrelevant to
the filter). -/
def uDepA : CodegenUnit := ⟨"a", "gen", none⟩

/-- The `A → B → C` workspace of the filter test vectors, with a fourth
package holding the generator binaries. -/
def wsABC : Workspace :=
  ⟨["a", "b", "c", "gen"], [⟨"a", "b", false⟩, ⟨"b", "c", false⟩]⟩

/-- Codegen unit of package `a` in `wsABC`. -/
def uA : CodegenUnit := ⟨"a", "gen", none⟩

/-- Codegen unit of package `b` in `wsABC`. -/
def uB : CodegenUnit := ⟨"b", "gen", none⟩

/-- Codegen unit of package `c` in `wsABC`. -/
def uC : CodegenUnit := ⟨"c", "gen", none⟩

/-! ## Basic lemmas about the graph model -/

theorem mem_outTargets {g : AugmentedPackageGraph} {x y : Nat} :
    y ∈ g.outTargets x ↔ g.HasEdge x y := by
  unfold AugmentedPackageGraph.outTargets AugmentedPackageGraph.HasEdge
  constructor
  · intro h
    rcases List.mem_map.mp h with ⟨e, he, rfl⟩
    rcases List.mem_filter.mp he with ⟨hmem, hsrc⟩
    exact ⟨e, hmem, by simpa using hsrc, rfl⟩
  · rintro ⟨e, he, hs, hd⟩
    exact List.mem_map.mpr ⟨e, List.mem_filter.mpr ⟨he, by simpa using hs⟩, hd⟩

theorem mem_dfsPushes {g : AugmentedPackageGraph} {x y : Nat} {disc : List Nat} :
    y ∈ dfsPushes g x disc ↔ g.HasEdge x y ∧ y ∉ disc := by
  unfold dfsPushes
  rw [List.mem_filter]
  constructor
  · rintro ⟨h1, h2⟩
    refine ⟨mem_outTargets.mp h1, ?_⟩
    simpa using h2
  · rintro ⟨h1, h2⟩
    refine ⟨mem_outTargets.mpr h1, ?_⟩
    simpa using h2

theorem edge_lt_of_wf {g : AugmentedPackageGraph} (hwf : g.WF) {x y : Nat}
    (h : g.HasEdge x y) : x < g.numNodes ∧ y < g.numNodes := by
  rcases h with ⟨e, he, hs, hd⟩
  rcases hwf e he with ⟨h1, h2⟩
  exact ⟨hs ▸ h1, hd ▸ h2⟩

/-- A rank function yields acyclicity. -/
theorem acyclic_of_rankOk {g : AugmentedPackageGraph} {rank : Nat → Nat}
    (hr : RankOk g rank) : g.Acyclic := by
  have hstep : ∀ a b, g.HasEdge a b → rank b < rank a := by
    intro a b hab
    rcases hab with ⟨e, he, hs, hd⟩
    have := hr e he
    rw [hs, hd] at this
    exact this
  have hreach : ∀ a b, g.Reach a b → rank b ≤ rank a := by
    intro a b h
    induction h with
    | refl => exact le_rfl
    | tail h₁ e ih => exact le_trans (le_of_lt (hstep _ _ e)) ih
  intro a b hab hba
  have h1 := hstep a b hab
  have h2 := hreach b a hba
  omega

/-- In an acyclic graph a node never reaches a strict predecessor of
itself along an edge into it. -/
theorem acyclic_no_reachPlus_self {g : AugmentedPackageGraph}
    (hacyc : g.Acyclic) (x : Nat) : ¬ g.ReachPlus x x := by
  intro h
  rcases (Relation.transGen_iff g.HasEdge x x).mp h with he | ⟨c, hc, hcx⟩
  · exact hacyc x x he (Relation.ReflTransGen.refl)
  · exact hacyc c x hcx (Relation.TransGen.to_reflTransGen hc)

/-! ## Structure of `dfsDrain` -/

/-- `dfsDrain` always drains the stack, only extends `discovered` and
`finished`, and its yield list is the reversal of what it prepends to
`finished`. -/
theorem dfsDrain_shape (g : AugmentedPackageGraph) (s : DfsState) :
    (dfsDrain g s).2.stack = [] ∧
    (dfsDrain g s).2.finished = (dfsDrain g s).1.reverse ++ s.finished ∧
    (∀ z ∈ s.discovered, z ∈ (dfsDrain g s).2.discovered) ∧
    (∀ z ∈ s.finished, z ∈ (dfsDrain g s).2.finished) := by
  induction s using dfsDrain.induct g with
  | case1 d f =>
    rw [dfsDrain]
    exact ⟨rfl, rfl, fun z h => h, fun z h => h⟩
  | case2 nx rest d f h1 h2 ih =>
    rw [dfsDrain]
    simp only [if_pos h1, if_pos h2]
    exact ih
  | case3 nx rest d f h1 h2 ih =>
    rw [dfsDrain]
    simp only [if_pos h1, if_neg h2]
    rcases ih with ⟨ia, ib, ic, id'⟩
    refine ⟨ia, ?_, ic, fun z hz => id' z (List.mem_cons_of_mem nx hz)⟩
    rw [ib]
    simp
  | case4 nx rest d f h1 ih =>
    rw [dfsDrain]
    simp only [if_neg h1]
    rcases ih with ⟨ia, ib, ic, id'⟩
    exact ⟨ia, ib, fun z hz => ic z (List.mem_cons_of_mem nx hz), id'⟩

/-- Frame rule: running the DFS on a stack `top ++ bot` first runs it on
`top` (pops and pushes never touch entries below the initial top segment)
and then continues on `bot` from the resulting sets. -/
theorem dfsDrain_frame (g : AugmentedPackageGraph) (s : DfsState) :
    ∀ bot, dfsDrain g ⟨s.stack ++ bot, s.discovered, s.finished⟩ =
      ((dfsDrain g s).1 ++
        (dfsDrain g ⟨bot, (dfsDrain g s).2.discovered, (dfsDrain g s).2.finished⟩).1,
       (dfsDrain g ⟨bot, (dfsDrain g s).2.discovered, (dfsDrain g s).2.finished⟩).2) := by
  induction s using dfsDrain.induct g with
  | case1 d f =>
    intro bot
    rw [dfsDrain]
    simp
  | case2 nx rest d f h1 h2 ih =>
    intro bot
    have hl : dfsDrain g ⟨nx :: rest, d, f⟩ = dfsDrain g ⟨rest, d, f⟩ := by
      rw [dfsDrain]
      simp only [if_pos h1, if_pos h2]
    rw [List.cons_append, dfsDrain]
    simp only [if_pos h1, if_pos h2, hl]
    exact ih bot
  | case3 nx rest d f h1 h2 ih =>
    intro bot
    have hl : dfsDrain g ⟨nx :: rest, d, f⟩ =
        ((nx :: (dfsDrain g ⟨rest, d, nx :: f⟩).1), (dfsDrain g ⟨rest, d, nx :: f⟩).2) := by
      rw [dfsDrain]
      simp only [if_pos h1, if_neg h2]
    rw [List.cons_append, dfsDrain]
    simp only [if_pos h1, if_neg h2, hl, ih bot]
    simp
  | case4 nx rest d f h1 ih =>
    intro bot
    have hl : dfsDrain g ⟨nx :: rest, d, f⟩ =
        dfsDrain g ⟨dfsPushes g nx (nx :: d) ++ nx :: rest, nx :: d, f⟩ := by
      rw [dfsDrain]
      simp only [if_neg h1]
    rw [List.cons_append, dfsDrain]
    simp only [if_neg h1, hl]
    have hassoc : dfsPushes g nx (nx :: d) ++ nx :: (rest ++ bot) =
        (dfsPushes g nx (nx :: d) ++ nx :: rest) ++ bot := by
      simp
    rw [hassoc]
    exact ih bot

theorem undiscovered_card_mono {n : Nat} {d d' : List Nat} (h : ∀ z ∈ d, z ∈ d') :
    (Finset.range n \ d'.toFinset).card ≤ (Finset.range n \ d.toFinset).card := by
  apply Finset.card_le_card
  apply Finset.sdiff_subset_sdiff le_rfl
  intro z hz
  rw [List.mem_toFinset] at hz ⊢
  exact h z hz

theorem undiscovered_card_lt {n : Nat} {d : List Nat} {x : Nat} (hx : x < n) (hxd : x ∉ d) :
    (Finset.range n \ (x :: d).toFinset).card < (Finset.range n \ d.toFinset).card := by
  apply Finset.card_lt_card
  constructor
  · apply Finset.sdiff_subset_sdiff le_rfl
    intro z hz
    rw [List.mem_toFinset] at hz ⊢
    exact List.mem_cons_of_mem x hz
  · intro hcon
    have hxmem : x ∈ Finset.range n \ d.toFinset := by
      rw [Finset.mem_sdiff, Finset.mem_range, List.mem_toFinset]
      exact ⟨hx, hxd⟩
    have := hcon hxmem
    rw [Finset.mem_sdiff, List.mem_toFinset] at this
    exact this.2 (List.mem_cons_self x d)

/-- In an `OrdOk` order, every member's out-neighbours are members. -/
theorem OrdOk.closed {g : AugmentedPackageGraph} {f : List Nat} (h : OrdOk g f)
    {u y : Nat} (hu : u ∈ f) (hy : g.HasEdge u y) : y ∈ f := by
  rcases List.append_of_mem hu with ⟨pre, post, rfl⟩
  have := h.2 pre u post rfl y hy
  exact List.mem_append.mpr (Or.inr (List.mem_cons_of_mem u this))

/-- `OrdOk` orders are closed under reachability. -/
theorem OrdOk.reach_closed {g : AugmentedPackageGraph} {f : List Nat} (h : OrdOk g f)
    {u y : Nat} (hu : u ∈ f) (hy : g.Reach u y) : y ∈ f := by
  induction hy with
  | refl => exact hu
  | tail h₁ e ih => exact h.closed ih e

/-- Extending an `OrdOk` order by a node whose out-neighbours are all
already finished. -/
theorem ordOk_cons {g : AugmentedPackageGraph} {f : List Nat} {x : Nat} (h : OrdOk g f)
    (hx : x ∉ f) (hcl : ∀ y, g.HasEdge x y → y ∈ f) : OrdOk g (x :: f) := by
  refine ⟨List.nodup_cons.mpr ⟨hx, h.1⟩, ?_⟩
  intro pre u post heq y hy
  cases pre with
  | nil =>
    simp only [List.nil_append, List.cons.injEq] at heq
    rcases heq with ⟨rfl, rfl⟩
    exact hcl y hy
  | cons a pre' =>
    simp only [List.cons_append, List.cons.injEq] at heq
    exact h.2 pre' u post heq.2 y hy

/-- The key DFS invariant: under acyclicity, draining the post-order DFS
from a single seed `x` whose pending ancestors are `P` (each reaching `x`)
preserves the discovered/finished bookkeeping and the finish order
property, and finishes `x`.  `k` bounds the number of undiscovered
nodes. -/
theorem dfsDrain_visit (g : AugmentedPackageGraph) (hwf : g.WF) (hacyc : g.Acyclic) :
    ∀ k : Nat, ∀ d f P : List Nat, ∀ x : Nat,
      (Finset.range g.numNodes \ d.toFinset).card ≤ k →
      x < g.numNodes →
      x ∉ P →
      (∀ z, z ∈ d ↔ z ∈ f ∨ z ∈ P) →
      (∀ p ∈ P, p ∉ f) →
      (∀ p ∈ P, g.Reach p x) →
      OrdOk g f →
      (∀ z, z ∈ (dfsDrain g ⟨[x], d, f⟩).2.discovered ↔
         z ∈ (dfsDrain g ⟨[x], d, f⟩).2.finished ∨ z ∈ P) ∧
      (∀ p ∈ P, p ∉ (dfsDrain g ⟨[x], d, f⟩).2.finished) ∧
      OrdOk g (dfsDrain g ⟨[x], d, f⟩).2.finished ∧
      x ∈ (dfsDrain g ⟨[x], d, f⟩).2.finished := by
  intro k
  induction k using Nat.strong_induction_on with
  | _ k IH =>
  intro d f P x hcard hx hxP hInv hPf hPreach hOrd
  by_cases hxd : x ∈ d
  · -- Already discovered: by the invariant and `x ∉ P` it is finished, and
    -- the drain is a silent pop.
    have hxf : x ∈ f := by
      rcases (hInv x).mp hxd with h | h
      · exact h
      · exact absurd h hxP
    have heq : dfsDrain g ⟨[x], d, f⟩ = ([], ⟨[], d, f⟩) := by
      rw [dfsDrain]
      simp only [if_pos hxd, if_pos hxf]
      rw [dfsDrain]
    rw [heq]
    exact ⟨hInv, hPf, hOrd, hxf⟩
  · -- Fresh node: discover it, drain its pushed neighbours one by one
    -- (inner induction), then pop and finish it.
    have hxf : x ∉ f := fun h => hxd ((hInv x).mpr (Or.inl h))
    -- Inner lemma: draining a stack of starts, each below the ancestor set
    -- `P'`, preserves the invariants and finishes every start.
    have inner : ∀ (ps : List Nat), ∀ (d₁ f₁ : List Nat),
        (Finset.range g.numNodes \ d₁.toFinset).card < k →
        (∀ q ∈ ps, q < g.numNodes ∧ q ∉ x :: P) →
        (∀ q ∈ ps, ∀ p ∈ x :: P, g.Reach p q) →
        (∀ z, z ∈ d₁ ↔ z ∈ f₁ ∨ z ∈ x :: P) →
        (∀ p ∈ x :: P, p ∉ f₁) →
        OrdOk g f₁ →
        (∀ z, z ∈ (dfsDrain g ⟨ps, d₁, f₁⟩).2.discovered ↔
           z ∈ (dfsDrain g ⟨ps, d₁, f₁⟩).2.finished ∨ z ∈ x :: P) ∧
        (∀ p ∈ x :: P, p ∉ (dfsDrain g ⟨ps, d₁, f₁⟩).2.finished) ∧
        OrdOk g (dfsDrain g ⟨ps, d₁, f₁⟩).2.finished ∧
        (∀ q ∈ ps, q ∈ (dfsDrain g ⟨ps, d₁, f₁⟩).2.finished) ∧
        (∀ z ∈ f₁, z ∈ (dfsDrain g ⟨ps, d₁, f₁⟩).2.finished) := by
      intro ps
      induction ps with
      | nil =>
        intro d₁ f₁ _ _ _ hInv₁ hPf₁ hOrd₁
        have heq : dfsDrain g ⟨([] : List Nat), d₁, f₁⟩ = ([], ⟨[], d₁, f₁⟩) := by
          rw [dfsDrain]
        rw [heq]
        exact ⟨hInv₁, hPf₁, hOrd₁, fun q hq => absurd hq (List.not_mem_nil q),
          fun z hz => hz⟩
      | cons q ps' ihps =>
        intro d₁ f₁ hlt hqs hreach hInv₁ hPf₁ hOrd₁
        have hframe := dfsDrain_frame g ⟨[q], d₁, f₁⟩ ps'
        simp only [List.cons_append, List.nil_append] at hframe
        -- head drain
        have hhead := IH ((Finset.range g.numNodes \ d₁.toFinset).card) hlt d₁ f₁
          (x :: P) q le_rfl (hqs q (List.mem_cons_self q ps')).1
          (hqs q (List.mem_cons_self q ps')).2 hInv₁ hPf₁
          (fun p hp => hreach q (List.mem_cons_self q ps') p hp) hOrd₁
        obtain ⟨hInv₂, hPf₂, hOrd₂, hqfin⟩ := hhead
        have hshape := dfsDrain_shape g ⟨[q], d₁, f₁⟩
        have hmonod : ∀ z ∈ d₁, z ∈ (dfsDrain g ⟨[q], d₁, f₁⟩).2.discovered :=
          hshape.2.2.1
        have hmonof : ∀ z ∈ f₁, z ∈ (dfsDrain g ⟨[q], d₁, f₁⟩).2.finished :=
          hshape.2.2.2
        -- tail drain
        have hlt₂ : (Finset.range g.numNodes \
            (dfsDrain g ⟨[q], d₁, f₁⟩).2.discovered.toFinset).card < k :=
          lt_of_le_of_lt (undiscovered_card_mono hmonod) hlt
        have htail := ihps (dfsDrain g ⟨[q], d₁, f₁⟩).2.discovered
          (dfsDrain g ⟨[q], d₁, f₁⟩).2.finished hlt₂
          (fun q' hq' => hqs q' (List.mem_cons_of_mem q hq'))
          (fun q' hq' => hreach q' (List.mem_cons_of_mem q hq'))
          hInv₂ hPf₂ hOrd₂
        obtain ⟨tInv, tPf, tOrd, tfin, tmono⟩ := htail
        rw [hframe]
        refine ⟨tInv, tPf, tOrd, ?_, fun z hz => tmono z (hmonof z hz)⟩
        intro q' hq'
        rcases List.mem_cons.mp hq' with rfl | hq'
        · exact tmono q' hqfin
        · exact tfin q' hq'
    -- Unfold the discovery step.
    have hunf : dfsDrain g ⟨[x], d, f⟩ =
        dfsDrain g ⟨dfsPushes g x (x :: d) ++ [x], x :: d, f⟩ := by
      rw [dfsDrain]
      simp only [if_neg hxd]
    -- Invariants for the pushed children.
    have hPd : ∀ p ∈ P, p ∈ d := fun p hp => (hInv p).mpr (Or.inr hp)
    have hlt : (Finset.range g.numNodes \ (x :: d).toFinset).card < k :=
      lt_of_lt_of_le (undiscovered_card_lt hx hxd) hcard
    have hchild := inner (dfsPushes g x (x :: d)) (x :: d) f hlt
      (by
        intro q hq
        rcases mem_dfsPushes.mp hq with ⟨hedge, hnd⟩
        refine ⟨(edge_lt_of_wf hwf hedge).2, ?_⟩
        intro hqxP
        apply hnd
        rcases List.mem_cons.mp hqxP with rfl | hqP
        · exact List.mem_cons_self q d
        · exact List.mem_cons_of_mem x (hPd q hqP))
      (by
        intro q hq p hp
        rcases mem_dfsPushes.mp hq with ⟨hedge, _⟩
        rcases List.mem_cons.mp hp with rfl | hpP
        · exact Relation.ReflTransGen.single hedge
        · exact Relation.ReflTransGen.tail (hPreach p hpP) hedge)
      (by
        intro z
        constructor
        · intro hz
          rcases List.mem_cons.mp hz with rfl | hz
          · exact Or.inr (List.mem_cons_self z P)
          · rcases (hInv z).mp hz with h | h
            · exact Or.inl h
            · exact Or.inr (List.mem_cons_of_mem x h)
        · intro hz
          rcases hz with h | h
          · exact List.mem_cons_of_mem x ((hInv z).mpr (Or.inl h))
          · rcases List.mem_cons.mp h with rfl | h
            · exact List.mem_cons_self z d
            · exact List.mem_cons_of_mem x (hPd z h))
      (by
        intro p hp
        rcases List.mem_cons.mp hp with rfl | hp
        · exact hxf
        · exact hPf p hp)
      hOrd
    obtain ⟨cInv, cPf, cOrd, cfin, cmono⟩ := hchild
    -- The final pop of `x`.
    set σ := dfsDrain g ⟨dfsPushes g x (x :: d), x :: d, f⟩ with hσ
    have hxdσ : x ∈ σ.2.discovered := by
      have := (dfsDrain_shape g ⟨dfsPushes g x (x :: d), x :: d, f⟩).2.2.1
      exact this x (List.mem_cons_self x d)
    have hxfσ : x ∉ σ.2.finished := cPf x (List.mem_cons_self x P)
    have hframe := dfsDrain_frame g ⟨dfsPushes g x (x :: d), x :: d, f⟩ [x]
    have hσstack : σ.2.stack = [] :=
      (dfsDrain_shape g ⟨dfsPushes g x (x :: d), x :: d, f⟩).1
    have hτ : dfsDrain g ⟨[x], σ.2.discovered, σ.2.finished⟩ =
        ([x], ⟨[], σ.2.discovered, x :: σ.2.finished⟩) := by
      rw [dfsDrain]
      simp only [if_pos hxdσ, if_neg hxfσ]
      rw [dfsDrain]
    have heq : dfsDrain g ⟨[x], d, f⟩ =
        (σ.1 ++ [x], ⟨[], σ.2.discovered, x :: σ.2.finished⟩) := by
      rw [hunf]
      rw [hframe, ← hσ, hτ]
    rw [heq]
    -- Finish-order extension: every out-neighbour of `x` is finished.
    have hclosed : ∀ y, g.HasEdge x y → y ∈ σ.2.finished := by
      intro y hy
      by_cases hyp : y ∈ dfsPushes g x (x :: d)
      · exact cfin y hyp
      · have hyd : y ∈ x :: d := by
          by_contra hynd
          exact hyp (mem_dfsPushes.mpr ⟨hy, hynd⟩)
        rcases List.mem_cons.mp hyd with rfl | hyd
        · exact absurd Relation.ReflTransGen.refl (hacyc _ _ hy)
        · rcases (hInv y).mp hyd with h | h
          · exact cmono y h
          · exact absurd (hPreach y h) (hacyc x y hy)
    constructor
    · intro z
      constructor
      · intro hz
        rcases (cInv z).mp hz with h | h
        · exact Or.inl (List.mem_cons_of_mem x h)
        · rcases List.mem_cons.mp h with rfl | h
          · exact Or.inl (List.mem_cons_self z σ.2.finished)
          · exact Or.inr h
      · intro hz
        rcases hz with h | h
        · rcases List.mem_cons.mp h with rfl | h
          · exact (cInv z).mpr (Or.inr (List.mem_cons_self z P))
          · exact (cInv z).mpr (Or.inl h)
        · exact (cInv z).mpr (Or.inr (List.mem_cons_of_mem x h))
    refine ⟨?_, ?_, ?_⟩
    · intro p hp
      intro hcon
      rcases List.mem_cons.mp hcon with rfl | hcon
      · exact hxP hp
      · exact cPf p (List.mem_cons_of_mem x hp) hcon
    · exact ordOk_cons cOrd hxfσ hclosed
    · exact List.mem_cons_self x σ.2.finished

/-- On a well-formed graph the DFS only ever discovers valid node
indices. -/
theorem dfsDrain_disc_bound (g : AugmentedPackageGraph) (hwf : g.WF) (s : DfsState) :
    (∀ z ∈ s.stack, z < g.numNodes) → (∀ z ∈ s.discovered, z < g.numNodes) →
    ∀ z ∈ (dfsDrain g s).2.discovered, z < g.numNodes := by
  induction s using dfsDrain.induct g with
  | case1 d f =>
    intro _ hd
    rw [dfsDrain]
    exact hd
  | case2 nx rest d f h1 h2 ih =>
    intro hs hd
    rw [dfsDrain]
    simp only [if_pos h1, if_pos h2]
    exact ih (fun z hz => hs z (List.mem_cons_of_mem nx hz)) hd
  | case3 nx rest d f h1 h2 ih =>
    intro hs hd
    rw [dfsDrain]
    simp only [if_pos h1, if_neg h2]
    exact ih (fun z hz => hs z (List.mem_cons_of_mem nx hz)) hd
  | case4 nx rest d f h1 ih =>
    intro hs hd
    rw [dfsDrain]
    simp only [if_neg h1]
    apply ih
    · intro z hz
      rcases List.mem_append.mp hz with hz | hz
      · exact (edge_lt_of_wf hwf (mem_dfsPushes.mp hz).1).2
      · exact hs z hz
    · intro z hz
      rcases List.mem_cons.mp hz with rfl | hz
      · exact hs z (List.mem_cons_self z rest)
      · exact hd z hz

theorem mem_sourcesAsc {g : AugmentedPackageGraph} {x : Nat} :
    x ∈ g.sourcesAsc ↔ x < g.numNodes ∧ ∀ e ∈ g.edges, e.dst ≠ x := by
  unfold AugmentedPackageGraph.sourcesAsc
  rw [List.mem_filter, List.mem_range]
  constructor
  · rintro ⟨h1, h2⟩
    refine ⟨h1, ?_⟩
    intro e he hcon
    simp only [Bool.not_eq_eq_eq_not, Bool.not_true, List.any_eq_false] at h2
    have := h2 e he
    simp [hcon] at this
  · rintro ⟨h1, h2⟩
    refine ⟨h1, ?_⟩
    simp only [Bool.not_eq_eq_eq_not, Bool.not_true, List.any_eq_false]
    intro e he
    simp [h2 e he]

/-- In a well-formed acyclic graph every node is reachable from a source
node. -/
theorem exists_source_reach (g : AugmentedPackageGraph) (hwf : g.WF) (hacyc : g.Acyclic) :
    ∀ x, x < g.numNodes → ∃ s ∈ g.sourcesAsc, g.Reach s x := by
  classical
  have main : ∀ k x, x < g.numNodes →
      ((Finset.range g.numNodes).filter (fun z => g.Reach z x)).card ≤ k →
      ∃ s ∈ g.sourcesAsc, g.Reach s x := by
    intro k
    induction k with
    | zero =>
      intro x hx hcard
      exfalso
      have hxmem : x ∈ (Finset.range g.numNodes).filter (fun z => g.Reach z x) := by
        rw [Finset.mem_filter, Finset.mem_range]
        exact ⟨hx, Relation.ReflTransGen.refl⟩
      have := Finset.card_pos.mpr ⟨x, hxmem⟩
      omega
    | succ k ihk =>
      intro x hx hcard
      by_cases hsrc : ∀ e ∈ g.edges, e.dst ≠ x
      · exact ⟨x, mem_sourcesAsc.mpr ⟨hx, hsrc⟩, Relation.ReflTransGen.refl⟩
      · push_neg at hsrc
        rcases hsrc with ⟨e, he, hdst⟩
        have hedge : g.HasEdge e.src x := ⟨e, he, rfl, hdst⟩
        have hw : e.src < g.numNodes := (hwf e he).1
        have hsub : (Finset.range g.numNodes).filter (fun z => g.Reach z e.src) ⊆
            (Finset.range g.numNodes).filter (fun z => g.Reach z x) := by
          intro z hz
          rw [Finset.mem_filter] at hz ⊢
          exact ⟨hz.1, Relation.ReflTransGen.tail hz.2 hedge⟩
        have hxnot : x ∉ (Finset.range g.numNodes).filter (fun z => g.Reach z e.src) := by
          rw [Finset.mem_filter]
          rintro ⟨_, hr⟩
          exact hacyc e.src x hedge hr
        have hxin : x ∈ (Finset.range g.numNodes).filter (fun z => g.Reach z x) := by
          rw [Finset.mem_filter, Finset.mem_range]
          exact ⟨hx, Relation.ReflTransGen.refl⟩
        have hlt : ((Finset.range g.numNodes).filter (fun z => g.Reach z e.src)).card <
            ((Finset.range g.numNodes).filter (fun z => g.Reach z x)).card := by
          apply Finset.card_lt_card
          exact ⟨hsub, fun hcon => hxnot (hcon hxin)⟩
        rcases ihk e.src hw (by omega) with ⟨s, hs, hr⟩
        exact ⟨s, hs, Relation.ReflTransGen.tail hr hedge⟩
  intro x hx
  exact main ((Finset.range g.numNodes).filter (fun z => g.Reach z x)).card x hx le_rfl

/-- The seed loop preserves the DFS invariants and finishes every seed.
The "virtual" final finish order is the reverse of the concatenated
yields, prepended to the initial one. -/
theorem runSeeds_spec (g : AugmentedPackageGraph) (hwf : g.WF) (hacyc : g.Acyclic) :
    ∀ seeds : List Nat, ∀ s : DfsState,
      (∀ q ∈ seeds, q < g.numNodes) →
      (∀ z, z ∈ s.discovered ↔ z ∈ s.finished) →
      (∀ z ∈ s.discovered, z < g.numNodes) →
      OrdOk g s.finished →
      OrdOk g ((runSeeds g seeds s).reverse ++ s.finished) ∧
      (∀ q ∈ seeds, q ∈ (runSeeds g seeds s).reverse ++ s.finished) ∧
      (∀ z ∈ (runSeeds g seeds s).reverse ++ s.finished, z < g.numNodes) := by
  intro seeds
  induction seeds with
  | nil =>
    intro s _ hdf hdb hOrd
    rw [runSeeds]
    simp only [List.reverse_nil, List.nil_append]
    exact ⟨hOrd, fun q hq => absurd hq (List.not_mem_nil q),
      fun z hz => hdb z ((hdf z).mpr hz)⟩
  | cons seed rest ih =>
    intro s hq hdf hdb hOrd
    rw [runSeeds]
    have hseedstate : dfsMoveTo s seed = ⟨[seed], s.discovered, s.finished⟩ := rfl
    rw [hseedstate]
    set res := dfsDrain g (⟨[seed], s.discovered, s.finished⟩ : DfsState) with hres
    have hvisit := dfsDrain_visit g hwf hacyc
      ((Finset.range g.numNodes \ s.discovered.toFinset).card)
      s.discovered s.finished [] seed le_rfl (hq seed (List.mem_cons_self seed rest))
      (List.not_mem_nil seed)
      (by intro z; rw [hdf z]; simp)
      (by intro p hp; exact absurd hp (List.not_mem_nil p))
      (by intro p hp; exact absurd hp (List.not_mem_nil p))
      hOrd
    have hshape := dfsDrain_shape g (⟨[seed], s.discovered, s.finished⟩ : DfsState)
    obtain ⟨vInv, _, vOrd, vseed⟩ := hvisit
    have hfin : res.2.finished = res.1.reverse ++ s.finished := hshape.2.1
    have hdisc : ∀ z ∈ res.2.discovered, z < g.numNodes := by
      apply dfsDrain_disc_bound g hwf
      · intro z hz
        rcases List.mem_cons.mp hz with rfl | hz
        · exact hq z (List.mem_cons_self z rest)
        · exact absurd hz (List.not_mem_nil z)
      · exact hdb
    have hInv2 : ∀ z, z ∈ res.2.discovered ↔ z ∈ res.2.finished := by
      intro z
      rw [vInv z]
      simp
    have ihr := ih res.2 (fun q' hq' => hq q' (List.mem_cons_of_mem seed hq'))
      hInv2 hdisc vOrd
    obtain ⟨iOrd, iseed, ibound⟩ := ihr
    have hrw : (res.1 ++ runSeeds g rest res.2).reverse ++ s.finished =
        (runSeeds g rest res.2).reverse ++ res.2.finished := by
      rw [List.reverse_append, hfin]
      simp
    rw [hrw]
    refine ⟨iOrd, ?_, ibound⟩
    intro q' hq'
    rcases List.mem_cons.mp hq' with rfl | hq'
    · have : q' ∈ res.2.finished := vseed
      exact List.mem_append.mpr (Or.inr this)
    · exact iseed q' hq'

/-- The full scheduler run: the yields of the seed loop over the external
nodes, reversed, form an `OrdOk` finish order that contains exactly the
nodes of a well-formed acyclic graph. -/
theorem scheduler_finish_facts (g : AugmentedPackageGraph) (hwf : g.WF)
    (hacyc : g.Acyclic) :
    OrdOk g (runSeeds g g.sourcesAsc.reverse ⟨[], [], []⟩).reverse ∧
    (∀ z, z ∈ (runSeeds g g.sourcesAsc.reverse ⟨[], [], []⟩).reverse ↔
      z < g.numNodes) := by
  have hseeds : ∀ q ∈ g.sourcesAsc.reverse, q < g.numNodes := by
    intro q hq
    rw [List.mem_reverse] at hq
    exact (mem_sourcesAsc.mp hq).1
  have hmain := runSeeds_spec g hwf hacyc g.sourcesAsc.reverse ⟨[], [], []⟩ hseeds
    (by intro z; simp) (by intro z hz; exact absurd hz (List.not_mem_nil z))
    ⟨List.nodup_nil, by intro pre u post h; exact absurd h (by simp)⟩
  obtain ⟨hOrd, hseed, hbound⟩ := hmain
  simp only [List.append_nil] at hOrd hseed hbound
  refine ⟨hOrd, ?_⟩
  intro z
  constructor
  · exact hbound z
  · intro hz
    rcases exists_source_reach g hwf hacyc z hz with ⟨src, hsrc, hreach⟩
    have : src ∈ (runSeeds g g.sourcesAsc.reverse ⟨[], [], []⟩).reverse :=
      hseed src (List.mem_reverse.mpr hsrc)
    exact hOrd.reach_closed this hreach

/-! ## Plan assembly lemmas -/

theorem concatMap_append (f : Nat → List CodegenUnit) (l₁ l₂ : List Nat) :
    concatMap f (l₁ ++ l₂) = concatMap f l₁ ++ concatMap f l₂ := by
  induction l₁ with
  | nil => rfl
  | cons x xs ih =>
    show f x ++ concatMap f (xs ++ l₂) = (f x ++ concatMap f xs) ++ concatMap f l₂
    rw [ih, List.append_assoc]

theorem mem_concatMap {f : Nat → List CodegenUnit} {l : List Nat} {x : Nat}
    {u : CodegenUnit} (hx : x ∈ l) (hu : u ∈ f x) : u ∈ concatMap f l := by
  induction l with
  | nil => exact absurd hx (List.not_mem_nil x)
  | cons a as ih =>
    rcases List.mem_cons.mp hx with rfl | hx
    · exact List.mem_append.mpr (Or.inl hu)
    · exact List.mem_append.mpr (Or.inr (ih hx))

theorem count_concatMap (f : Nat → List CodegenUnit) (u : CodegenUnit) (l : List Nat) :
    (concatMap f l).count u = (l.map (fun x => (f x).count u)).sum := by
  induction l with
  | nil => rfl
  | cons a as ih =>
    simp only [concatMap, List.count_append, List.map_cons, List.sum_cons, ih]

/-- Along a nonempty path, the target is finished strictly earlier than the
source. -/
theorem OrdOk.reachPlus_mem_post {g : AugmentedPackageGraph} {f : List Nat}
    (h : OrdOk g f) {u v : Nat} (hr : g.ReachPlus u v) :
    ∀ pre post, f = pre ++ u :: post → v ∈ post := by
  induction hr using Relation.TransGen.head_induction_on with
  | base hedge =>
    intro pre post heq
    exact h.2 pre _ post heq _ hedge
  | ih hedge _ ihp =>
    intro pre post heq
    rename_i a c _
    have hc : c ∈ post := h.2 pre a post heq c hedge
    rcases List.append_of_mem hc with ⟨α, β, rfl⟩
    have : f = (pre ++ a :: α) ++ c :: β := by rw [heq]; simp
    have hv := ihp (pre ++ a :: α) β this
    exact List.mem_append.mpr (Or.inr (List.mem_cons_of_mem c hv))

theorem mem_unitsAt {g : AugmentedPackageGraph} {e : GraphEdge} {u : CodegenUnit}
    (he : e ∈ g.edges) (hw : e.weight = .isGeneratedBy u) : u ∈ unitsAt g e.dst := by
  unfold unitsAt AugmentedPackageGraph.inEdgesNewestFirst
  apply List.mem_filterMap.mpr
  refine ⟨e, ?_, ?_⟩
  · rw [List.mem_reverse]
    exact List.mem_filter.mpr ⟨he, by simp⟩
  · unfold gbOf
    rw [hw]

theorem mem_gbUnits {g : AugmentedPackageGraph} {e : GraphEdge} {u : CodegenUnit}
    (he : e ∈ g.edges) (hw : e.weight = .isGeneratedBy u) : u ∈ gbUnits g := by
  unfold gbUnits
  apply List.mem_filterMap.mpr
  exact ⟨e, he, by unfold gbOf; rw [hw]⟩

/-- Counting units block-by-block over a duplicate-free node cover equals
counting them over the edge list. -/
theorem sum_count_units (u : CodegenUnit) :
    ∀ (es : List GraphEdge) (l : List Nat), l.Nodup → (∀ e ∈ es, e.dst ∈ l) →
    (l.map (fun x => ((es.filter (fun e => e.dst == x)).filterMap gbOf).count u)).sum =
    (es.filterMap gbOf).count u := by
  intro es
  induction es with
  | nil =>
    intro l _ _
    simp
  | cons e es' ih =>
    intro l hnd hdst
    have hδ : ∀ x : Nat,
        (((e :: es').filter (fun e2 => e2.dst == x)).filterMap gbOf).count u =
        ((es'.filter (fun e2 => e2.dst == x)).filterMap gbOf).count u +
          (if e.dst = x then (if gbOf e = some u then 1 else 0) else 0) := by
      intro x
      by_cases hx : e.dst = x
      · rw [List.filter_cons_of_pos (by simp [hx])]
        rw [if_pos hx]
        cases hg : gbOf e with
        | none => simp [List.filterMap_cons, hg]
        | some u' =>
          simp only [List.filterMap_cons, hg]
          by_cases huu : u' = u
          · subst huu
            rw [List.count_cons_self]
            simp
          · rw [List.count_cons_of_ne (fun hcon => huu hcon.symm)]
            simp [huu]
      · rw [List.filter_cons_of_neg (by simp [hx])]
        rw [if_neg hx]
        simp
    have hsum : ∀ (l' : List Nat), l'.Nodup → e.dst ∈ l' →
        (l'.map (fun x => (((e :: es').filter (fun e2 => e2.dst == x)).filterMap gbOf).count u)).sum =
        (l'.map (fun x => ((es'.filter (fun e2 => e2.dst == x)).filterMap gbOf).count u)).sum +
          (if gbOf e = some u then 1 else 0) := by
      intro l'
      induction l' with
      | nil => intro _ h; exact absurd h (List.not_mem_nil _)
      | cons a as iha =>
        intro hnd' hmem
        rcases List.mem_cons.mp hmem with heq | hmem'
        · -- head is `e.dst`; the tail contains it no more
          have hnotin : e.dst ∉ as := by
            rw [heq]
            exact (List.nodup_cons.mp hnd').1
          have htail : (as.map (fun x =>
              (((e :: es').filter (fun e2 => e2.dst == x)).filterMap gbOf).count u)) =
              (as.map (fun x => ((es'.filter (fun e2 => e2.dst == x)).filterMap gbOf).count u)) := by
            apply List.map_congr_left
            intro x hxmem
            rw [hδ x, if_neg (fun hcon => hnotin (by rw [hcon]; exact hxmem)), Nat.add_zero]
          simp only [List.map_cons, List.sum_cons, htail, hδ a]
          rw [if_pos heq]
          omega
        · have hane : e.dst ≠ a := by
            intro hcon
            rw [hcon] at hmem'
            exact (List.nodup_cons.mp hnd').1 hmem'
          simp only [List.map_cons, List.sum_cons, hδ a]
          rw [if_neg hane, Nat.add_zero, iha (List.nodup_cons.mp hnd').2 hmem']
          omega
    rw [hsum l hnd (hdst e (List.mem_cons_self e es'))]
    rw [ih l hnd (fun e2 h2 => hdst e2 (List.mem_cons_of_mem e h2))]
    cases hg : gbOf e with
    | none => simp [List.filterMap_cons, hg]
    | some u' =>
      simp only [List.filterMap_cons, hg]
      by_cases huu : u' = u
      · subst huu
        rw [List.count_cons_self]
        simp
      · rw [List.count_cons_of_ne (fun hcon => huu hcon.symm)]
        simp [huu]

/-- Per-node unit count in terms of the edge list. -/
theorem count_unitsAt (g : AugmentedPackageGraph) (u : CodegenUnit) (x : Nat) :
    (unitsAt g x).count u = ((g.edges.filter (fun e => e.dst == x)).filterMap gbOf).count u := by
  unfold unitsAt AugmentedPackageGraph.inEdgesNewestFirst
  rw [List.filterMap_reverse, List.count_reverse]

/-- The scheduler's plan is a permutation of the units on the
`IsGeneratedBy` edges: every unit is scheduled exactly as often as it is
tagged. -/
theorem codegen_plan_perm (g : AugmentedPackageGraph) (hwf : g.WF) (hacyc : g.Acyclic) :
    (codegen_plan g).Perm (gbUnits g) := by
  obtain ⟨hOrd, hmem⟩ := scheduler_finish_facts g hwf hacyc
  rw [List.perm_iff_count]
  intro u
  unfold codegen_plan
  rw [count_concatMap]
  have hys : (runSeeds g g.sourcesAsc.reverse ⟨[], [], []⟩).Nodup := by
    have := hOrd.1
    rwa [List.nodup_reverse] at this
  have hysmem : ∀ z, z ∈ runSeeds g g.sourcesAsc.reverse ⟨[], [], []⟩ ↔ z < g.numNodes := by
    intro z
    rw [← List.mem_reverse]
    exact hmem z
  have hcover : ∀ e ∈ g.edges, e.dst ∈ runSeeds g g.sourcesAsc.reverse ⟨[], [], []⟩ := by
    intro e he
    exact (hysmem e.dst).mpr (hwf e he).2
  have := sum_count_units u g.edges (runSeeds g g.sourcesAsc.reverse ⟨[], [], []⟩) hys hcover
  unfold gbUnits
  rw [← this]
  congr 1
  apply List.map_congr_left
  intro x _
  exact count_unitsAt g u x

/-- Scheduling order: if the node `e1.dst` (the generator node of the unit
`u1`) reaches the node `e2.dst` (the generator node of `u2`) along at least
one edge, then `u2` is scheduled strictly before `u1`. -/
theorem codegen_plan_order (g : AugmentedPackageGraph) (hwf : g.WF) (hacyc : g.Acyclic)
    (hnd : (gbUnits g).Nodup) {e1 e2 : GraphEdge} {u1 u2 : CodegenUnit}
    (he1 : e1 ∈ g.edges) (hw1 : e1.weight = .isGeneratedBy u1)
    (he2 : e2 ∈ g.edges) (hw2 : e2.weight = .isGeneratedBy u2)
    (hreach : g.ReachPlus e1.dst e2.dst) :
    u1 ∈ codegen_plan g ∧ u2 ∈ codegen_plan g ∧
    (codegen_plan g).indexOf u2 < (codegen_plan g).indexOf u1 := by
  obtain ⟨hOrd, hmem⟩ := scheduler_finish_facts g hwf hacyc
  have hX1 : e1.dst ∈ (runSeeds g g.sourcesAsc.reverse ⟨[], [], []⟩).reverse :=
    (hmem e1.dst).mpr (hwf e1 he1).2
  rcases List.append_of_mem hX1 with ⟨pre, post, hsplit⟩
  have hX2 : e2.dst ∈ post := hOrd.reachPlus_mem_post hreach pre post hsplit
  have hys : runSeeds g g.sourcesAsc.reverse ⟨[], [], []⟩ =
      (post.reverse ++ [e1.dst]) ++ pre.reverse := by
    have h0 : runSeeds g g.sourcesAsc.reverse ⟨[], [], []⟩ =
        (runSeeds g g.sourcesAsc.reverse ⟨[], [], []⟩).reverse.reverse := by
      rw [List.reverse_reverse]
    rw [h0, hsplit]
    simp
  have hplan : codegen_plan g =
      (concatMap (unitsAt g) post.reverse ++
        (unitsAt g e1.dst ++ concatMap (unitsAt g) pre.reverse)) := by
    unfold codegen_plan
    rw [hys, concatMap_append, concatMap_append]
    have : concatMap (unitsAt g) [e1.dst] = unitsAt g e1.dst := by
      unfold concatMap concatMap
      simp
    rw [this, List.append_assoc]
  have hu2A : u2 ∈ concatMap (unitsAt g) post.reverse :=
    mem_concatMap (List.mem_reverse.mpr hX2) (mem_unitsAt he2 hw2)
  have hu1B : u1 ∈ unitsAt g e1.dst ++ concatMap (unitsAt g) pre.reverse :=
    List.mem_append.mpr (Or.inl (mem_unitsAt he1 hw1))
  have hplnd : (codegen_plan g).Nodup :=
    ((codegen_plan_perm g hwf hacyc).nodup_iff).mpr hnd
  rw [hplan] at hplnd ⊢
  have hdisj := List.disjoint_of_nodup_append hplnd
  have hu1nA : u1 ∉ concatMap (unitsAt g) post.reverse :=
    fun hcon => hdisj hcon hu1B
  constructor
  · exact List.mem_append.mpr (Or.inr hu1B)
  constructor
  · exact List.mem_append.mpr (Or.inl hu2A)
  · rw [List.indexOf_append_of_mem hu2A, List.indexOf_append_of_not_mem hu1nA]
    have h2 := List.indexOf_lt_length.mpr hu2A
    omega

/-! ## `find_cycles` machine lemmas -/

theorem mem_fcStackList {frames : List FcFrame} {y : Nat} :
    y ∈ fcStackList frames ↔ y ∈ fcNodes frames := by
  unfold fcStackList fcNodes
  rw [List.mem_reverse]

theorem sliceFrom_suffix (y : Nat) (l : List Nat) : ∃ p, l = p ++ sliceFrom y l := by
  induction l with
  | nil => exact ⟨[], rfl⟩
  | cons a as ih =>
    by_cases h : a = y
    · refine ⟨[], ?_⟩
      rw [sliceFrom, if_pos h]
      rfl
    · rcases ih with ⟨p, hp⟩
      refine ⟨a :: p, ?_⟩
      rw [sliceFrom, if_neg h, List.cons_append, ← hp]

theorem sliceFrom_head {y : Nat} {l : List Nat} (h : y ∈ l) :
    ∃ t, sliceFrom y l = y :: t := by
  induction l with
  | nil => exact absurd h (List.not_mem_nil y)
  | cons a as ih =>
    by_cases ha : a = y
    · subst ha
      exact ⟨as, by rw [sliceFrom, if_pos rfl]⟩
    · rcases List.mem_cons.mp h with rfl | h
      · exact absurd rfl ha
      · rcases ih h with ⟨t, ht⟩
        exact ⟨t, by rw [sliceFrom, if_neg ha, ht]⟩

theorem getLast?_of_suffix {l p s : List Nat} (h : l = p ++ s) (hs : s ≠ []) :
    l.getLast? = s.getLast? := by
  subst h
  exact List.getLast?_append_of_ne_nil _ hs

theorem fcChain_tail {g : AugmentedPackageGraph} {fr : FcFrame} {rest : List FcFrame}
    (h : FcChain g (fr :: rest)) : FcChain g rest := by
  cases rest with
  | nil => trivial
  | cons fr2 rest2 => exact h.2

theorem fcChain_congr_head {g : AugmentedPackageGraph} {x : Nat} {r1 r2 : List Nat}
    {rest : List FcFrame} (h : FcChain g (⟨x, r1⟩ :: rest)) :
    FcChain g (⟨x, r2⟩ :: rest) := by
  cases rest with
  | nil => trivial
  | cons fr2 rest2 => exact h

theorem fcChain_push {g : AugmentedPackageGraph} {x nb : Nat} {r1 r2 : List Nat}
    {rest : List FcFrame} (h : FcChain g (⟨x, r1⟩ :: rest))
    (hedge : g.HasEdge x nb) : FcChain g (⟨nb, r2⟩ :: ⟨x, r1⟩ :: rest) :=
  ⟨hedge, h⟩

/-- Everything on the recursion stack reaches the innermost node. -/
theorem fcChain_reach {g : AugmentedPackageGraph} :
    ∀ {fr : FcFrame} {rest : List FcFrame}, FcChain g (fr :: rest) →
    ∀ y ∈ fcNodes (fr :: rest), g.Reach y fr.node := by
  intro fr rest
  induction rest generalizing fr with
  | nil =>
    intro _ y hy
    rcases List.mem_cons.mp hy with rfl | hy
    · exact Relation.ReflTransGen.refl
    · exact absurd hy (List.not_mem_nil y)
  | cons fr2 rest2 ih =>
    intro hch y hy
    rcases List.mem_cons.mp hy with rfl | hy
    · exact Relation.ReflTransGen.refl
    · exact Relation.ReflTransGen.tail (ih hch.2 y hy) hch.1

/-- The recursion stack read bottom-first is a path. -/
theorem fcChain_chain' {g : AugmentedPackageGraph} :
    ∀ {frames : List FcFrame}, FcChain g frames →
    List.Chain' g.HasEdge (fcStackList frames) := by
  intro frames
  induction frames with
  | nil => intro _; exact List.chain'_nil
  | cons fr rest ih =>
    intro hch
    unfold fcStackList
    rw [List.map_cons, List.reverse_cons]
    apply List.Chain'.append
    · exact ih (fcChain_tail hch)
    · exact List.chain'_singleton fr.node
    · intro a ha b hb
      rw [List.head?_cons, Option.mem_some_iff] at hb
      subst hb
      cases rest with
      | nil =>
        exfalso
        simp [fcStackList] at ha
      | cons fr2 rest2 =>
        have hlast : ((List.map (fun fr => fr.node) (fr2 :: rest2)).reverse).getLast? =
            some fr2.node := by
          rw [List.getLast?_reverse]
          simp
        rw [hlast, Option.mem_some_iff] at ha
        subst ha
        exact hch.1

/-- Weakening/monotonicity of the scanned-neighbour invariant. -/
theorem ScannedOk.mono {g : AugmentedPackageGraph} {s s' : FcState} :
    ∀ {frames : List FcFrame} {above above' : List Nat},
    (∀ y, FcDone s y → FcDone s' y) →
    (∀ c ∈ s.cycles, c ∈ s'.cycles) →
    (∀ y ∈ above, y ∈ above' ∨ FcDone s' y) →
    ScannedOk g s above frames → ScannedOk g s' above' frames := by
  intro frames
  induction frames with
  | nil => intro _ _ _ _ _ _; trivial
  | cons fr rest ih =>
    intro above above' hdone hcyc habove hs
    obtain ⟨⟨done, hdeq, hdok⟩, hrest⟩ := hs
    constructor
    · refine ⟨done, hdeq, ?_⟩
      intro y hy
      rcases hdok y hy with h | h | ⟨c, hc, h1, h2⟩
      · exact Or.inl (hdone y h)
      · rcases habove y h with h' | h'
        · exact Or.inr (Or.inl h')
        · exact Or.inl h'
      · exact Or.inr (Or.inr ⟨c, hcyc c hc, h1, h2⟩)
    · apply ih hdone hcyc _ hrest
      intro y hy
      rcases List.mem_cons.mp hy with rfl | hy
      · exact Or.inl (List.mem_cons_self _ above')
      · rcases habove y hy with h' | h'
        · exact Or.inl (List.mem_cons_of_mem fr.node h')
        · exact Or.inr h'

theorem FcFinOk.mono_cycles {g : AugmentedPackageGraph} {cs cs' : List (List Nat)}
    {ford : List Nat} (hsub : ∀ c ∈ cs, c ∈ cs') (h : FcFinOk g cs ford) :
    FcFinOk g cs' ford := by
  intro pre u post heq y hy
  rcases h pre u post heq y hy with h1 | ⟨c, hc, h1, h2⟩
  · exact Or.inl h1
  · exact Or.inr ⟨c, hsub c hc, h1, h2⟩

theorem fcRun_frames_nil (g : AugmentedPackageGraph) (s : FcState) :
    (fcRun g s).frames = [] := by
  induction s using fcRun.induct g with
  | case1 v cs => rw [fcRun]
  | case2 x rest v cs ih => rw [fcRun]; exact ih
  | case3 x nb nbs rest v cs h1 h2 ih => rw [fcRun]; simp only [if_pos h1, if_pos h2]; exact ih
  | case4 x nb nbs rest v cs h1 h2 ih => rw [fcRun]; simp only [if_pos h1, if_neg h2]; exact ih
  | case5 x nb nbs rest v cs h1 ih => rw [fcRun]; simp only [if_neg h1]; exact ih

/-- Under acyclicity no cycle is ever recorded: the record branch would
need an edge from the innermost node back into the recursion stack, which
the stack path forbids. -/
theorem fcRun_acyclic (g : AugmentedPackageGraph) (hacyc : g.Acyclic) (s : FcState) :
    FcChain g s.frames →
    (∀ fr ∈ s.frames, ∀ y ∈ fr.rem, g.HasEdge fr.node y) →
    (fcRun g s).cycles = s.cycles := by
  induction s using fcRun.induct g with
  | case1 v cs => intro _ _; rw [fcRun]
  | case2 x rest v cs ih =>
    intro hch hsub
    rw [fcRun]
    exact ih (fcChain_tail hch) (fun fr hfr => hsub fr (List.mem_cons_of_mem _ hfr))
  | case3 x nb nbs rest v cs h1 h2 ih =>
    intro hch hsub
    exfalso
    have hedge : g.HasEdge x nb :=
      hsub ⟨x, nb :: nbs⟩ (List.mem_cons_self _ _) nb (List.mem_cons_self nb nbs)
    have hreach : g.Reach nb x := by
      have := fcChain_reach hch nb (mem_fcStackList.mp h2)
      exact this
    exact acyclic_no_reachPlus_self hacyc x (Relation.TransGen.head' hedge hreach)
  | case4 x nb nbs rest v cs h1 h2 ih =>
    intro hch hsub
    rw [fcRun]
    simp only [if_pos h1, if_neg h2]
    apply ih (fcChain_congr_head hch)
    intro fr hfr y hy
    rcases List.mem_cons.mp hfr with rfl | hfr
    · exact hsub ⟨x, nb :: nbs⟩ (List.mem_cons_self _ _) y (List.mem_cons_of_mem nb hy)
    · exact hsub fr (List.mem_cons_of_mem _ hfr) y hy
  | case5 x nb nbs rest v cs h1 ih =>
    intro hch hsub
    rw [fcRun]
    simp only [if_neg h1]
    have hedge : g.HasEdge x nb :=
      hsub ⟨x, nb :: nbs⟩ (List.mem_cons_self _ _) nb (List.mem_cons_self nb nbs)
    apply ih (fcChain_push (fcChain_congr_head hch) hedge)
    intro fr hfr y hy
    rcases List.mem_cons.mp hfr with rfl | hfr
    · unfold outTargetsNewestFirst at hy
      rw [List.mem_reverse] at hy
      exact mem_outTargets.mp hy
    · rcases List.mem_cons.mp hfr with rfl | hfr
      · exact hsub ⟨x, nb :: nbs⟩ (List.mem_cons_self _ _) y (List.mem_cons_of_mem nb hy)
      · exact hsub fr (List.mem_cons_of_mem _ hfr) y hy

/-- C3's detector half: on an acyclic graph `find_cycles` records
nothing. -/
theorem find_cycles_eq_nil (g : AugmentedPackageGraph) (hacyc : g.Acyclic) :
    find_cycles g = [] := by
  unfold find_cycles
  have main : ∀ (l : List Nat) (s : FcState), s.cycles = [] →
      ((l.foldl (fun s n =>
        if n ∈ s.visited then s
        else fcRun g ⟨[⟨n, outTargetsNewestFirst g n⟩], n :: s.visited, s.cycles⟩) s).cycles) = [] := by
    intro l
    induction l with
    | nil => intro s hs; exact hs
    | cons n ns ih =>
      intro s hs
      rw [List.foldl_cons]
      by_cases hn : n ∈ s.visited
      · rw [if_pos hn]
        exact ih s hs
      · rw [if_neg hn]
        apply ih
        rw [fcRun_acyclic g hacyc _ ?_ ?_]
        · exact hs
        · show FcChain g [⟨n, outTargetsNewestFirst g n⟩]
          trivial
        · intro fr hfr y hy
          rcases List.mem_cons.mp hfr with rfl | hfr
          · unfold outTargetsNewestFirst at hy
            rw [List.mem_reverse] at hy
            exact mem_outTargets.mp hy
          · exact absurd hfr (List.not_mem_nil fr)
  exact main (List.range g.numNodes) ⟨[], [], []⟩ rfl

theorem mem_outTargetsNewestFirst {g : AugmentedPackageGraph} {x y : Nat} :
    y ∈ outTargetsNewestFirst g x ↔ g.HasEdge x y := by
  unfold outTargetsNewestFirst
  rw [List.mem_reverse]
  exact mem_outTargets

theorem mem_of_getLast?_eq {l : List Nat} {a : Nat} (h : l.getLast? = some a) : a ∈ l := by
  have hx : a ∈ l.getLast? := Option.mem_def.mpr h
  rcases List.mem_getLast?_eq_getLast hx with ⟨hne, heq⟩
  rw [heq]
  exact List.getLast_mem hne

theorem fcFinOk_cons {g : AugmentedPackageGraph} {cs : List (List Nat)} {ford : List Nat}
    {x : Nat} (h : FcFinOk g cs ford)
    (hcl : ∀ y, g.HasEdge x y → y ∈ ford ∨ ∃ c ∈ cs, x ∈ c ∧ y ∈ c) :
    FcFinOk g cs (x :: ford) := by
  intro pre u post heq y hy
  cases pre with
  | nil =>
    simp only [List.nil_append, List.cons.injEq] at heq
    rcases heq with ⟨rfl, rfl⟩
    exact hcl y hy
  | cons a pre' =>
    simp only [List.cons_append, List.cons.injEq] at heq
    exact h pre' u post heq.2 y hy

/-- Preservation of the `find_cycles` invariant by the traversal. -/
theorem fcRun_inv (g : AugmentedPackageGraph) (hwf : g.WF) (s : FcState) :
    FcInv g s →
    FcInv g (fcRun g s) ∧
    (∀ c ∈ s.cycles, c ∈ (fcRun g s).cycles) ∧
    (∀ z ∈ s.visited, z ∈ (fcRun g s).visited) := by
  induction s using fcRun.induct g with
  | case1 v cs =>
    intro hinv
    rw [fcRun]
    exact ⟨hinv, fun c hc => hc, fun z hz => hz⟩
  | case2 x rest v cs ih =>
    -- A frame with nothing left to scan pops: `x` is fully explored.
    intro hinv
    obtain ⟨hnd, hval, hscan, hch, hcwf, ⟨ford, fnd, fiff, fordok⟩, hvb⟩ := hinv
    have hndx : x ∉ fcNodes rest ∧ (fcNodes rest).Nodup := List.nodup_cons.mp hnd
    have hdonex : FcDone (⟨rest, v, cs⟩ : FcState) x :=
      ⟨(hval x (List.mem_cons_self _ _)).1, hndx.1⟩
    have hdone : ∀ y, FcDone (⟨⟨x, []⟩ :: rest, v, cs⟩ : FcState) y →
        FcDone (⟨rest, v, cs⟩ : FcState) y := by
      rintro y ⟨h1, h2⟩
      exact ⟨h1, fun hc => h2 (List.mem_cons_of_mem _ hc)⟩
    have hinv2 : FcInv g ⟨rest, v, cs⟩ := by
      refine ⟨hndx.2, fun z hz => hval z (List.mem_cons_of_mem _ hz), ?_, fcChain_tail hch,
        hcwf, ?_, hvb⟩
      · exact ScannedOk.mono hdone (fun c hc => hc)
          (by
            intro y hy
            rcases List.mem_cons.mp hy with rfl | hy
            · exact Or.inr hdonex
            · exact absurd hy (List.not_mem_nil y))
          hscan.2
      · refine ⟨x :: ford, ?_, ?_, ?_⟩
        · refine List.nodup_cons.mpr ⟨?_, fnd⟩
          intro hc
          exact ((fiff x).mp hc).2 (List.mem_cons_self _ _)
        · intro z
          constructor
          · intro hz
            rcases List.mem_cons.mp hz with rfl | hz
            · exact hdonex
            · exact hdone z ((fiff z).mp hz)
          · rintro ⟨h1, h2⟩
            by_cases hzx : z = x
            · exact hzx ▸ List.mem_cons_self _ _
            · refine List.mem_cons_of_mem _ ((fiff z).mpr ⟨h1, ?_⟩)
              intro hc
              rcases List.mem_cons.mp hc with h | h
              · exact hzx h
              · exact h2 h
        · apply fcFinOk_cons fordok
          intro y hy
          obtain ⟨done, hdeq, hdok⟩ := hscan.1
          have hyin : y ∈ done := by
            have : y ∈ outTargetsNewestFirst g x := mem_outTargetsNewestFirst.mpr hy
            rw [hdeq, List.append_nil] at this
            exact this
          rcases hdok y hyin with h | h | h
          · exact Or.inl ((fiff y).mpr h)
          · exact absurd h (List.not_mem_nil y)
          · exact Or.inr h
    rcases ih hinv2 with ⟨ih1, ih2, ih3⟩
    rw [fcRun]
    exact ⟨ih1, ih2, ih3⟩
  | case3 x nb nbs rest v cs h1 h2 ih =>
    -- Scanned neighbour already on the stack: record the slice as a cycle.
    intro hinv
    obtain ⟨hnd, hval, hscan, hch, hcwf, ⟨ford, fnd, fiff, fordok⟩, hvb⟩ := hinv
    obtain ⟨done, hdeq, hdok⟩ := hscan.1
    have hedge : g.HasEdge x nb := by
      apply mem_outTargetsNewestFirst.mp
      rw [hdeq]
      exact List.mem_append.mpr (Or.inr (List.mem_cons_self _ _))
    rcases sliceFrom_suffix nb (fcStackList (⟨x, nb :: nbs⟩ :: rest)) with ⟨p, hp⟩
    rcases sliceFrom_head h2 with ⟨t, ht⟩
    have hnbs : nb ∈ sliceFrom nb (fcStackList (⟨x, nb :: nbs⟩ :: rest)) := by
      rw [ht]
      exact List.mem_cons_self _ _
    have hlastx : (fcStackList (⟨x, nb :: nbs⟩ :: rest)).getLast? = some x := by
      unfold fcStackList
      rw [List.getLast?_reverse]
      simp
    have hslast : (sliceFrom nb (fcStackList (⟨x, nb :: nbs⟩ :: rest))).getLast? = some x := by
      rw [← getLast?_of_suffix hp (by rw [ht]; simp), hlastx]
    have hxs : x ∈ sliceFrom nb (fcStackList (⟨x, nb :: nbs⟩ :: rest)) :=
      mem_of_getLast?_eq hslast
    have hsub : ∀ z ∈ sliceFrom nb (fcStackList (⟨x, nb :: nbs⟩ :: rest)),
        z ∈ fcNodes (⟨x, nb :: nbs⟩ :: rest) := by
      intro z hz
      apply mem_fcStackList.mp
      rw [hp]
      exact List.mem_append.mpr (Or.inr hz)
    have hswf : CycleWF g (sliceFrom nb (fcStackList (⟨x, nb :: nbs⟩ :: rest))) := by
      refine ⟨by rw [ht]; simp, ?_, ?_, ?_⟩
      · intro z hz
        exact (hval z (hsub z hz)).2
      · have hcc := fcChain_chain' hch
        rw [hp] at hcc
        exact (List.chain'_append.mp hcc).2.1
      · intro lst hd hl hh
        rw [hslast] at hl
        rw [ht] at hh
        simp only [List.head?_cons, Option.some.injEq] at hl hh
        rw [← hl, ← hh]
        exact hedge
    have hdeq2 : FcDone (⟨⟨x, nb :: nbs⟩ :: rest, v, cs⟩ : FcState) =
        FcDone (⟨⟨x, nbs⟩ :: rest, v,
          cs ++ [sliceFrom nb (fcStackList (⟨x, nb :: nbs⟩ :: rest))]⟩ : FcState) := rfl
    have hcycsub : ∀ c ∈ cs,
        c ∈ cs ++ [sliceFrom nb (fcStackList (⟨x, nb :: nbs⟩ :: rest))] :=
      fun c hc => List.mem_append.mpr (Or.inl hc)
    have hinv2 : FcInv g ⟨⟨x, nbs⟩ :: rest, v,
        cs ++ [sliceFrom nb (fcStackList (⟨x, nb :: nbs⟩ :: rest))]⟩ := by
      refine ⟨hnd, hval, ?_, fcChain_congr_head hch, ?_, ?_, hvb⟩
      · constructor
        · refine ⟨done ++ [nb], by rw [hdeq]; simp, ?_⟩
          intro y hy
          rcases List.mem_append.mp hy with hy | hy
          · rcases hdok y hy with h | h | ⟨c, hc, hc1, hc2⟩
            · exact Or.inl (hdeq2 ▸ h)
            · exact absurd h (List.not_mem_nil y)
            · exact Or.inr (Or.inr ⟨c, hcycsub c hc, hc1, hc2⟩)
          · rw [List.mem_singleton] at hy
            rw [hy]
            exact Or.inr (Or.inr ⟨sliceFrom nb (fcStackList (⟨x, nb :: nbs⟩ :: rest)),
              List.mem_append.mpr (Or.inr (List.mem_singleton.mpr rfl)), hxs, hnbs⟩)
        · exact ScannedOk.mono (fun y hy => hdeq2 ▸ hy) hcycsub (fun y hy => Or.inl hy) hscan.2
      · intro c hc
        rcases List.mem_append.mp hc with hc | hc
        · exact hcwf c hc
        · rw [List.mem_singleton] at hc
          exact hc ▸ hswf
      · exact ⟨ford, fnd, fun z => (fiff z).trans (by rw [hdeq2]),
          fordok.mono_cycles hcycsub⟩
    rcases ih hinv2 with ⟨ih1, ih2, ih3⟩
    rw [fcRun]
    simp only [if_pos h1, if_pos h2]
    exact ⟨ih1, fun c hc => ih2 c (hcycsub c hc), ih3⟩
  | case4 x nb nbs rest v cs h1 h2 ih =>
    -- Scanned neighbour visited but off the stack: fully explored.
    intro hinv
    obtain ⟨hnd, hval, hscan, hch, hcwf, ⟨ford, fnd, fiff, fordok⟩, hvb⟩ := hinv
    obtain ⟨done, hdeq, hdok⟩ := hscan.1
    have hdeq2 : FcDone (⟨⟨x, nb :: nbs⟩ :: rest, v, cs⟩ : FcState) =
        FcDone (⟨⟨x, nbs⟩ :: rest, v, cs⟩ : FcState) := rfl
    have hnbdone : FcDone (⟨⟨x, nbs⟩ :: rest, v, cs⟩ : FcState) nb := by
      refine ⟨h1, ?_⟩
      intro hc
      exact h2 (mem_fcStackList.mpr hc)
    have hinv2 : FcInv g ⟨⟨x, nbs⟩ :: rest, v, cs⟩ := by
      refine ⟨hnd, hval, ?_, fcChain_congr_head hch, hcwf,
        ⟨ford, fnd, fun z => (fiff z).trans (by rw [hdeq2]), fordok⟩, hvb⟩
      constructor
      · refine ⟨done ++ [nb], by rw [hdeq]; simp, ?_⟩
        intro y hy
        rcases List.mem_append.mp hy with hy | hy
        · rcases hdok y hy with h | h | h
          · exact Or.inl (hdeq2 ▸ h)
          · exact absurd h (List.not_mem_nil y)
          · exact Or.inr (Or.inr h)
        · rw [List.mem_singleton] at hy
          subst hy
          exact Or.inl hnbdone
      · exact ScannedOk.mono (fun y hy => hdeq2 ▸ hy) (fun c hc => hc)
          (fun y hy => Or.inl hy) hscan.2
    rcases ih hinv2 with ⟨ih1, ih2, ih3⟩
    rw [fcRun]
    simp only [if_pos h1, if_neg h2]
    exact ⟨ih1, ih2, ih3⟩
  | case5 x nb nbs rest v cs h1 ih =>
    -- Unvisited neighbour: open a frame for it.
    intro hinv
    obtain ⟨hnd, hval, hscan, hch, hcwf, ⟨ford, fnd, fiff, fordok⟩, hvb⟩ := hinv
    obtain ⟨done, hdeq, hdok⟩ := hscan.1
    have hedge : g.HasEdge x nb := by
      apply mem_outTargetsNewestFirst.mp
      rw [hdeq]
      exact List.mem_append.mpr (Or.inr (List.mem_cons_self _ _))
    have hnbval : nb < g.numNodes := (edge_lt_of_wf hwf hedge).2
    have hnbnotnode : nb ∉ fcNodes (⟨x, nb :: nbs⟩ :: rest) := by
      intro hc
      exact h1 (hval nb hc).1
    have hdone : ∀ y, FcDone (⟨⟨x, nb :: nbs⟩ :: rest, v, cs⟩ : FcState) y →
        FcDone (⟨⟨nb, outTargetsNewestFirst g nb⟩ :: ⟨x, nbs⟩ :: rest, nb :: v, cs⟩ : FcState) y := by
      rintro y ⟨hy1, hy2⟩
      refine ⟨List.mem_cons_of_mem _ hy1, ?_⟩
      intro hc
      rcases List.mem_cons.mp hc with rfl | hc
      · exact h1 hy1
      · exact hy2 hc
    have hdoneback : ∀ y,
        FcDone (⟨⟨nb, outTargetsNewestFirst g nb⟩ :: ⟨x, nbs⟩ :: rest, nb :: v, cs⟩ : FcState) y →
        FcDone (⟨⟨x, nb :: nbs⟩ :: rest, v, cs⟩ : FcState) y := by
      rintro y ⟨hy1, hy2⟩
      have hynb : y ≠ nb := by
        intro hc
        exact hy2 (hc ▸ List.mem_cons_self _ _)
      rcases List.mem_cons.mp hy1 with rfl | hy1
      · exact absurd rfl hynb
      · refine ⟨hy1, ?_⟩
        intro hc
        exact hy2 (List.mem_cons_of_mem _ hc)
    have hinv2 : FcInv g ⟨⟨nb, outTargetsNewestFirst g nb⟩ :: ⟨x, nbs⟩ :: rest, nb :: v, cs⟩ := by
      refine ⟨?_, ?_, ?_, fcChain_push (fcChain_congr_head hch) hedge, hcwf, ?_, ?_⟩
      · exact List.nodup_cons.mpr ⟨hnbnotnode, hnd⟩
      · intro z hz
        rcases List.mem_cons.mp hz with rfl | hz
        · exact ⟨List.mem_cons_self _ _, hnbval⟩
        · rcases hval z hz with ⟨hz1, hz2⟩
          exact ⟨List.mem_cons_of_mem _ hz1, hz2⟩
      · constructor
        · exact ⟨[], by simp, fun y hy => absurd hy (List.not_mem_nil y)⟩
        · constructor
          · refine ⟨done ++ [nb], by rw [hdeq]; simp, ?_⟩
            intro y hy
            rcases List.mem_append.mp hy with hy | hy
            · rcases hdok y hy with h | h | h
              · exact Or.inl (hdone y h)
              · exact absurd h (List.not_mem_nil y)
              · exact Or.inr (Or.inr h)
            · rw [List.mem_singleton] at hy
              subst hy
              exact Or.inr (Or.inl (List.mem_cons_self _ _))
          · apply ScannedOk.mono hdone (fun c hc => hc) _ hscan.2
            intro y hy
            rcases List.mem_cons.mp hy with rfl | hy
            · exact Or.inl (List.mem_cons_self _ _)
            · exact absurd hy (List.not_mem_nil y)
      · refine ⟨ford, fnd, ?_, fordok⟩
        intro z
        rw [fiff z]
        exact ⟨fun h => hdone z h, fun h => hdoneback z h⟩
      · intro z hz
        rcases List.mem_cons.mp hz with rfl | hz
        · exact hnbval
        · exact hvb z hz
    rcases ih hinv2 with ⟨ih1, ih2, ih3⟩
    rw [fcRun]
    simp only [if_neg h1]
    exact ⟨ih1, ih2, fun z hz => ih3 z (List.mem_cons_of_mem _ hz)⟩

/-- In a duplicate-free list, an element cannot appear strictly after `a`
and strictly before `a` at the same time. -/
theorem nodup_split_asymm {ford p1 q1 p2 q2 : List Nat} {a b : Nat} (hnd : ford.Nodup)
    (h1 : ford = p1 ++ a :: q1) (hb : b ∈ q1) (h2 : ford = p2 ++ b :: q2) (ha : a ∈ q2) :
    False := by
  have hidx : ∀ (p q : List Nat) (u y : Nat), ford = p ++ u :: q → y ∈ q →
      ford.indexOf u < ford.indexOf y := by
    intro p q u y heq hy
    have hndpq : (p ++ u :: q).Nodup := heq ▸ hnd
    have hdisj := List.disjoint_of_nodup_append hndpq
    have hunotp : u ∉ p := fun hc => hdisj hc (List.mem_cons_self u q)
    have hynotp : y ∉ p := fun hc => hdisj hc (List.mem_cons_of_mem u hy)
    have hyne : u ≠ y := by
      intro hc
      have := (List.nodup_append.mp hndpq).2.1
      exact (List.nodup_cons.mp this).1 (hc ▸ hy)
    rw [heq, List.indexOf_append_of_not_mem hunotp, List.indexOf_append_of_not_mem hynotp]
    rw [List.indexOf_cons_self, List.indexOf_cons_ne _ hyne]
    omega
  have hlt1 := hidx p1 q1 a b h1 hb
  have hlt2 := hidx p2 q2 b a h2 ha
  omega

/-- Running the outer loop of `find_cycles` from a clean state maintains
the invariant and visits every listed node. -/
theorem find_cycles_fold_inv (g : AugmentedPackageGraph) (hwf : g.WF) :
    ∀ (l : List Nat) (s : FcState), (∀ n ∈ l, n < g.numNodes) → FcInv g s →
      s.frames = [] →
      FcInv g (l.foldl (fun s n =>
          if n ∈ s.visited then s
          else fcRun g ⟨[⟨n, outTargetsNewestFirst g n⟩], n :: s.visited, s.cycles⟩) s) ∧
      (∀ z ∈ s.visited, z ∈ (l.foldl (fun s n =>
          if n ∈ s.visited then s
          else fcRun g ⟨[⟨n, outTargetsNewestFirst g n⟩], n :: s.visited, s.cycles⟩) s).visited) ∧
      (∀ n ∈ l, n ∈ (l.foldl (fun s n =>
          if n ∈ s.visited then s
          else fcRun g ⟨[⟨n, outTargetsNewestFirst g n⟩], n :: s.visited, s.cycles⟩) s).visited) ∧
      (l.foldl (fun s n =>
          if n ∈ s.visited then s
          else fcRun g ⟨[⟨n, outTargetsNewestFirst g n⟩], n :: s.visited, s.cycles⟩) s).frames = [] := by
  intro l
  induction l with
  | nil =>
    intro s _ hinv hfr
    exact ⟨hinv, fun z hz => hz, fun n hn => absurd hn (List.not_mem_nil n), hfr⟩
  | cons n ns ih =>
    intro s hl hinv hfr
    rw [List.foldl_cons]
    by_cases hn : n ∈ s.visited
    · rw [if_pos hn]
      rcases ih s (fun m hm => hl m (List.mem_cons_of_mem n hm)) hinv hfr
        with ⟨i1, i2, i3, i4⟩
      exact ⟨i1, i2, fun m hm => (List.mem_cons.mp hm).elim (fun h => h ▸ i2 n hn) (i3 m), i4⟩
    · rw [if_neg hn]
      obtain ⟨hnd, hval, hscan, hch, hcwf, ⟨ford, fnd, fiff, fordok⟩, hvb⟩ := hinv
      have hseed : FcInv g ⟨[⟨n, outTargetsNewestFirst g n⟩], n :: s.visited, s.cycles⟩ := by
        refine ⟨?_, ?_, ?_, trivial, hcwf, ?_, ?_⟩
        · simp [fcNodes]
        · intro z hz
          have : z = n := by
            simpa [fcNodes] using hz
          subst this
          exact ⟨List.mem_cons_self _ _, hl z (List.mem_cons_self _ _)⟩
        · exact ⟨⟨[], by simp, fun y hy => absurd hy (List.not_mem_nil y)⟩, trivial⟩
        · refine ⟨ford, fnd, ?_, fordok⟩
          intro z
          rw [fiff z]
          unfold FcDone
          rw [hfr]
          constructor
          · rintro ⟨hz1, _⟩
            refine ⟨List.mem_cons_of_mem n hz1, ?_⟩
            intro hc
            have : z = n := by
              simpa [fcNodes] using hc
            exact hn (this ▸ hz1)
          · rintro ⟨hz1, hz2⟩
            have hzn : z ≠ n := by
              intro hc
              exact hz2 (by simp [fcNodes, hc])
            rcases List.mem_cons.mp hz1 with h | h
            · exact absurd h hzn
            · exact ⟨h, fun hc => absurd hc (List.not_mem_nil z)⟩
        · intro z hz
          rcases List.mem_cons.mp hz with rfl | hz
          · exact hl z (List.mem_cons_self _ _)
          · exact hvb z hz
      rcases fcRun_inv g hwf _ hseed with ⟨r1, _, r3⟩
      rcases ih _ (fun m hm => hl m (List.mem_cons_of_mem n hm)) r1
        (fcRun_frames_nil g _) with ⟨i1, i2, i3, i4⟩
      refine ⟨i1, ?_, ?_, i4⟩
      · intro z hz
        exact i2 z (r3 z (List.mem_cons_of_mem n hz))
      · intro m hm
        rcases List.mem_cons.mp hm with rfl | hm
        · exact i2 m (r3 m (List.mem_cons_self _ _))
        · exact i3 m hm

/-- Global facts about a completed `find_cycles` run: every recorded cycle
is well-formed and some duplicate-free order of all nodes satisfies the
finish property relative to the recorded cycles. -/
theorem find_cycles_facts (g : AugmentedPackageGraph) (hwf : g.WF) :
    (∀ c ∈ find_cycles g, CycleWF g c) ∧
    ∃ ford : List Nat, ford.Nodup ∧ (∀ z, z ∈ ford ↔ z < g.numNodes) ∧
      FcFinOk g (find_cycles g) ford := by
  have hinit : FcInv g ⟨[], [], []⟩ := by
    refine ⟨List.nodup_nil, ?_, trivial, trivial, ?_, ?_, ?_⟩
    · intro z hz
      exact absurd hz (by simp [fcNodes])
    · intro c hc
      exact absurd hc (List.not_mem_nil c)
    · refine ⟨[], List.nodup_nil, ?_, ?_⟩
      · intro z
        unfold FcDone
        simp
      · intro pre u post heq
        exact absurd heq (by simp)
    · intro z hz
      exact absurd hz (List.not_mem_nil z)
  have hrange : ∀ n ∈ List.range g.numNodes, n < g.numNodes := by
    intro n hn
    exact List.mem_range.mp hn
  rcases find_cycles_fold_inv g hwf (List.range g.numNodes) ⟨[], [], []⟩ hrange hinit rfl
    with ⟨⟨_, _, _, _, hcwf, ⟨ford, fnd, fiff, fordok⟩, hvb⟩, _, hall, hfr⟩
  constructor
  · intro c hc
    exact hcwf c hc
  · refine ⟨ford, fnd, ?_, fordok⟩
    intro z
    rw [fiff z]
    unfold FcDone
    rw [hfr]
    constructor
    · rintro ⟨hz1, _⟩
      exact hvb z hz1
    · intro hz
      exact ⟨hall z (List.mem_range.mpr hz), fun hc => absurd hc (by simp [fcNodes])⟩

/-- If the graph contains a two-cycle between `a` and `b`, `find_cycles`
records some cycle containing both. -/
theorem find_cycles_two_cycle (g : AugmentedPackageGraph) (hwf : g.WF) {a b : Nat}
    (hab : g.HasEdge a b) (hba : g.HasEdge b a) :
    ∃ c ∈ find_cycles g, a ∈ c ∧ b ∈ c := by
  obtain ⟨_, ford, fnd, fiff, fordok⟩ := find_cycles_facts g hwf
  have ha : a ∈ ford := (fiff a).mpr (edge_lt_of_wf hwf hab).1
  have hb : b ∈ ford := (fiff b).mpr (edge_lt_of_wf hwf hba).1
  rcases List.append_of_mem ha with ⟨p1, q1, he1⟩
  rcases fordok p1 a q1 he1 b hab with hb1 | ⟨c, hc, h1a, h1b⟩
  · rcases List.append_of_mem hb with ⟨p2, q2, he2⟩
    rcases fordok p2 b q2 he2 a hba with ha2 | ⟨c, hc, h2b, h2a⟩
    · exact absurd (nodup_split_asymm fnd he1 hb1 he2 ha2) (fun h => h)
    · exact ⟨c, hc, h2a, h2b⟩
  · exact ⟨c, hc, h1a, h1b⟩

/-! ## Graph builder lemmas -/

theorem count_single (u u' : CodegenUnit) : ([u].count u') = if u = u' then 1 else 0 := by
  by_cases h : u = u'
  · subst h
    rw [List.count_cons_self]
    simp
  · rw [List.count_cons_of_ne (fun hc => h hc.symm)]
    simp [h]

theorem lookupNode_cons {q : PkgId} {j : Nat} {m : List (PkgId × Nat)} {p : PkgId} :
    lookupNode ((q, j) :: m) p = if q = p then some j else lookupNode m p := by
  unfold lookupNode
  rw [List.find?_cons]
  by_cases h : q = p
  · have hb : ((q, j).1 == p) = true := beq_iff_eq.mpr h
    rw [hb, if_pos h]
    rfl
  · have hb : ((q, j).1 == p) = false := beq_eq_false_iff_ne.mpr h
    rw [hb, if_neg h]

theorem mapAgrees_inj {g : AugmentedPackageGraph} {m : List (PkgId × Nat)}
    (hag : MapAgrees g m) {p q : PkgId} {i : Nat}
    (hp : g.pkgs[i]? = some p) (hq : g.pkgs[i]? = some q) : p = q := by
  rw [hp] at hq
  exact (Option.some.injEq _ _).mp hq

theorem ensureNode_spec (g : AugmentedPackageGraph) (m : List (PkgId × Nat)) (p : PkgId)
    (hag : MapAgrees g m) :
    MapAgrees (ensureNode g m p).1 (ensureNode g m p).2.1 ∧
    lookupNode (ensureNode g m p).2.1 p = some (ensureNode g m p).2.2 ∧
    (ensureNode g m p).1.edges = g.edges ∧
    (∀ q i, lookupNode m q = some i → lookupNode (ensureNode g m p).2.1 q = some i) ∧
    (∀ (i : Nat) (x : PkgId), g.pkgs[i]? = some x → (ensureNode g m p).1.pkgs[i]? = some x) ∧
    (ensureNode g m p).2.2 < (ensureNode g m p).1.pkgs.length ∧
    g.pkgs.length ≤ (ensureNode g m p).1.pkgs.length := by
  unfold ensureNode
  cases h : lookupNode m p with
  | some i =>
    have hlt : i < g.pkgs.length := by
      rcases List.getElem?_eq_some.mp ((hag p i).mp h) with ⟨hlt, _⟩
      exact hlt
    exact ⟨hag, h, rfl, fun q j hq => hq, fun i x hx => hx, hlt, le_rfl⟩
  | none =>
    have hgets : ∀ (i : Nat) (x : PkgId), g.pkgs[i]? = some x → (g.pkgs ++ [p])[i]? = some x := by
      intro i x hx
      rcases List.getElem?_eq_some.mp hx with ⟨hlt, _⟩
      rw [List.getElem?_append_left hlt]
      exact hx
    have hlenp : (g.pkgs ++ [p])[g.pkgs.length]? = some p := List.getElem?_concat_length _ _
    refine ⟨?_, ?_, rfl, ?_, hgets, by simp, by simp⟩
    · intro q i
      rw [lookupNode_cons]
      by_cases hq : p = q
      · subst hq
        constructor
        · intro hj
          rw [if_pos rfl] at hj
          rw [← (Option.some.injEq _ _).mp hj]
          exact hlenp
        · intro hget
          rw [if_pos rfl]
          by_cases hi : i < g.pkgs.length
          · exfalso
            rw [List.getElem?_append_left hi] at hget
            have := (hag p i).mpr hget
            rw [h] at this
            exact Option.noConfusion this
          · by_cases hieq : i = g.pkgs.length
            · rw [hieq]
            · exfalso
              have hge : (g.pkgs ++ [p]).length ≤ i := by
                simp only [List.length_append, List.length_singleton]
                omega
              rw [List.getElem?_eq_none hge] at hget
              exact Option.noConfusion hget
      · rw [if_neg hq]
        rw [hag q i]
        constructor
        · intro hget
          rcases List.getElem?_eq_some.mp hget with ⟨hlt, _⟩
          rw [List.getElem?_append_left hlt]
          exact hget
        · intro hget
          by_cases hi : i < g.pkgs.length
          · rw [List.getElem?_append_left hi] at hget
            exact hget
          · exfalso
            by_cases hieq : i = g.pkgs.length
            · rw [hieq] at hget
              rw [hlenp] at hget
              exact hq ((Option.some.injEq _ _).mp hget)
            · have hge : (g.pkgs ++ [p]).length ≤ i := by
                simp only [List.length_append, List.length_singleton]
                omega
              rw [List.getElem?_eq_none hge] at hget
              exact Option.noConfusion hget
    · rw [lookupNode_cons, if_pos rfl]
    · intro q i hq
      rw [lookupNode_cons]
      by_cases hpq : p = q
      · exfalso
        subst hpq
        rw [h] at hq
        exact Option.noConfusion hq
      · rw [if_neg hpq]
        exact hq

theorem self_mem_updateEdge (es : List GraphEdge) (a b : Nat) (w : EdgeMetadata) :
    (⟨a, b, w⟩ : GraphEdge) ∈ updateEdge es a b w := by
  induction es with
  | nil => exact List.mem_cons_self _ _
  | cons e es' ih =>
    rw [updateEdge]
    by_cases h : e.src == a && e.dst == b
    · rw [if_pos h]
      exact List.mem_cons_self _ _
    · rw [if_neg h]
      exact List.mem_cons_of_mem _ ih

theorem mem_updateEdge {es : List GraphEdge} {a b : Nat} {w : EdgeMetadata} {e : GraphEdge}
    (he : e ∈ updateEdge es a b w) : e = ⟨a, b, w⟩ ∨ e ∈ es := by
  induction es with
  | nil =>
    rcases List.mem_cons.mp he with h | h
    · exact Or.inl h
    · exact absurd h (List.not_mem_nil e)
  | cons e2 es' ih =>
    rw [updateEdge] at he
    by_cases h : e2.src == a && e2.dst == b
    · rw [if_pos h] at he
      rcases List.mem_cons.mp he with h' | h'
      · exact Or.inl h'
      · exact Or.inr (List.mem_cons_of_mem _ h')
    · rw [if_neg h] at he
      rcases List.mem_cons.mp he with h' | h'
      · exact Or.inr (h' ▸ List.mem_cons_self _ _)
      · rcases ih h' with h'' | h''
        · exact Or.inl h''
        · exact Or.inr (List.mem_cons_of_mem _ h'')

theorem updateEdge_pair_mono {es : List GraphEdge} {a b x y : Nat} {w : EdgeMetadata}
    (h : ∃ e ∈ es, e.src = x ∧ e.dst = y) :
    ∃ e ∈ updateEdge es a b w, e.src = x ∧ e.dst = y := by
  induction es with
  | nil =>
    rcases h with ⟨e, he, _⟩
    exact absurd he (List.not_mem_nil e)
  | cons e2 es' ih =>
    rw [updateEdge]
    by_cases hm : e2.src == a && e2.dst == b
    · rw [if_pos hm]
      rcases h with ⟨e, he, hx, hy⟩
      rcases List.mem_cons.mp he with rfl | he
      · rw [Bool.and_eq_true, beq_iff_eq, beq_iff_eq] at hm
        refine ⟨⟨a, b, w⟩, List.mem_cons_self _ _, ?_, ?_⟩
        · rw [← hx, hm.1]
        · rw [← hy, hm.2]
      · exact ⟨e, List.mem_cons_of_mem _ he, hx, hy⟩
    · rw [if_neg hm]
      rcases h with ⟨e, he, hx, hy⟩
      rcases List.mem_cons.mp he with rfl | he
      · exact ⟨e, List.mem_cons_self _ _, hx, hy⟩
      · rcases ih ⟨e, he, hx, hy⟩ with ⟨e', he', hx', hy'⟩
        exact ⟨e', List.mem_cons_of_mem _ he', hx', hy'⟩

theorem count_filterMap_gbOf_updateEdge {es : List GraphEdge} {a b : Nat} {u : CodegenUnit}
    (hprov : ∀ e ∈ es, e.src = a → e.dst = b → e.weight = .dependsOn) (u' : CodegenUnit) :
    ((updateEdge es a b (.isGeneratedBy u)).filterMap gbOf).count u' =
    ((es.filterMap gbOf).count u') + (if u = u' then 1 else 0) := by
  induction es with
  | nil =>
    show ([⟨a, b, EdgeMetadata.isGeneratedBy u⟩].filterMap gbOf).count u' = _
    have h1 : ([⟨a, b, EdgeMetadata.isGeneratedBy u⟩].filterMap gbOf) = [u] := rfl
    rw [h1, count_single]
    simp
  | cons e2 es' ih =>
    rw [updateEdge]
    by_cases hm : e2.src == a && e2.dst == b
    · rw [if_pos hm]
      rw [Bool.and_eq_true, beq_iff_eq, beq_iff_eq] at hm
      have hdep : e2.weight = .dependsOn :=
        hprov e2 (List.mem_cons_self _ _) hm.1 hm.2
      simp only [List.filterMap_cons]
      have h1 : gbOf ⟨a, b, EdgeMetadata.isGeneratedBy u⟩ = some u := rfl
      have h2 : gbOf e2 = none := by unfold gbOf; rw [hdep]
      rw [h1, h2]
      by_cases h : u = u'
      · subst h
        rw [List.count_cons_self]
        simp
      · rw [List.count_cons_of_ne (fun hc => h hc.symm)]
        simp [h]
    · rw [if_neg hm]
      simp only [List.filterMap_cons]
      cases hg : gbOf e2 with
      | none =>
        exact ih (fun e he => hprov e (List.mem_cons_of_mem _ he))
      | some u2 =>
        have ihr := ih (fun e he => hprov e (List.mem_cons_of_mem _ he))
        by_cases h2 : u2 = u'
        · subst h2
          rw [List.count_cons_self, List.count_cons_self, ihr]
          omega
        · rw [List.count_cons_of_ne (fun hc => h2 hc.symm),
            List.count_cons_of_ne (fun hc => h2 hc.symm), ihr]

/-- Processing the reverse links of the popped package preserves the
builder invariants, keeps existing edges (as pairs), and inserts a
`DependsOn` edge from every non-dev dependent to the popped node. -/
theorem processLinks_spec (nid : Nat) :
    ∀ (ls : List PkgLink) (g : AugmentedPackageGraph) (m : List (PkgId × Nat)),
      MapAgrees g m → g.WF → (∀ e ∈ g.edges, e.weight = .dependsOn) →
      nid < g.pkgs.length →
      MapAgrees (processLinks nid ls g m).1 (processLinks nid ls g m).2 ∧
      (processLinks nid ls g m).1.WF ∧
      (∀ e ∈ (processLinks nid ls g m).1.edges, e.weight = .dependsOn) ∧
      (∀ q i, lookupNode m q = some i → lookupNode (processLinks nid ls g m).2 q = some i) ∧
      (∀ (i : Nat) (x : PkgId), g.pkgs[i]? = some x →
        (processLinks nid ls g m).1.pkgs[i]? = some x) ∧
      g.pkgs.length ≤ (processLinks nid ls g m).1.pkgs.length ∧
      (∀ x y, (∃ e ∈ g.edges, e.src = x ∧ e.dst = y) →
        ∃ e ∈ (processLinks nid ls g m).1.edges, e.src = x ∧ e.dst = y) ∧
      (∀ l ∈ ls, ¬l.devOnly → ∃ i, lookupNode (processLinks nid ls g m).2 l.src = some i ∧
        ∃ e ∈ (processLinks nid ls g m).1.edges, e.src = i ∧ e.dst = nid) := by
  intro ls
  induction ls with
  | nil =>
    intro g m hag hwf hdep hnid
    exact ⟨hag, hwf, hdep, fun q i hq => hq, fun i x hx => hx, le_rfl,
      fun x y h => h, fun l hl => absurd hl (List.not_mem_nil l)⟩
  | cons l ls' ih =>
    intro g m hag hwf hdep hnid
    by_cases hdev : l.devOnly
    · rw [processLinks]
      rw [if_pos hdev]
      rcases ih g m hag hwf hdep hnid with ⟨i1, i2, i3, i4, i5, i6, i7, i8⟩
      refine ⟨i1, i2, i3, i4, i5, i6, i7, ?_⟩
      intro l2 hl2 hdev2
      rcases List.mem_cons.mp hl2 with rfl | hl2
      · exact absurd hdev hdev2
      · exact i8 l2 hl2 hdev2
    · rw [processLinks]
      rw [if_neg hdev]
      rcases ensureNode_spec g m l.src hag with ⟨e1, e2, e3, e4, e5, e6, e7⟩
      have hg2ag : MapAgrees
          ⟨(ensureNode g m l.src).1.pkgs,
            updateEdge (ensureNode g m l.src).1.edges (ensureNode g m l.src).2.2 nid .dependsOn⟩
          (ensureNode g m l.src).2.1 := e1
      have hg2wf : AugmentedPackageGraph.WF
          ⟨(ensureNode g m l.src).1.pkgs,
            updateEdge (ensureNode g m l.src).1.edges (ensureNode g m l.src).2.2 nid .dependsOn⟩ := by
        intro e he
        rcases mem_updateEdge he with rfl | he
        · exact ⟨e6, lt_of_lt_of_le hnid e7⟩
        · rw [e3] at he
          rcases hwf e he with ⟨h1, h2⟩
          exact ⟨lt_of_lt_of_le h1 e7, lt_of_lt_of_le h2 e7⟩
      have hg2dep : ∀ e ∈ updateEdge (ensureNode g m l.src).1.edges
          (ensureNode g m l.src).2.2 nid .dependsOn, e.weight = .dependsOn := by
        intro e he
        rcases mem_updateEdge he with rfl | he
        · rfl
        · rw [e3] at he
          exact hdep e he
      have hnid2 : nid < (ensureNode g m l.src).1.pkgs.length := lt_of_lt_of_le hnid e7
      rcases ih _ _ hg2ag hg2wf hg2dep hnid2 with ⟨i1, i2, i3, i4, i5, i6, i7, i8⟩
      refine ⟨i1, i2, i3, ?_, ?_, le_trans e7 i6, ?_, ?_⟩
      · intro q i hq
        exact i4 q i (e4 q i hq)
      · intro i x hx
        exact i5 i x (e5 i x hx)
      · intro x y hxy
        apply i7
        apply updateEdge_pair_mono
        rw [e3]
        exact hxy
      · intro l2 hl2 hdev2
        rcases List.mem_cons.mp hl2 with rfl | hl2
        · refine ⟨(ensureNode g m l2.src).2.2, i4 _ _ e2, ?_⟩
          apply i7
          exact ⟨_, self_mem_updateEdge _ _ _ _, rfl, rfl⟩
        · exact i8 l2 hl2 hdev2

/-- The worklist loop of the graph builder: invariants are preserved, the
map and node payloads only grow, every enqueued package ends up processed,
and every non-dev link into a processed package has its `DependsOn` edge
in the graph. -/
theorem buildLoop_spec (ws : Workspace) :
    ∀ st : BuilderState,
      MapAgrees st.graph st.pkg2node → st.graph.WF →
      (∀ e ∈ st.graph.edges, e.weight = .dependsOn) →
      (∀ p ∈ st.processed, ∃ i, lookupNode st.pkg2node p = some i) →
      (∀ l ∈ ws.links, ¬l.devOnly → l.dst ∈ st.processed →
        ∃ i j, lookupNode st.pkg2node l.src = some i ∧ lookupNode st.pkg2node l.dst = some j ∧
          ∃ e ∈ st.graph.edges, e.src = i ∧ e.dst = j) →
      MapAgrees (buildLoop ws st).graph (buildLoop ws st).pkg2node ∧
      (buildLoop ws st).graph.WF ∧
      (∀ e ∈ (buildLoop ws st).graph.edges, e.weight = .dependsOn) ∧
      (∀ q i, lookupNode st.pkg2node q = some i →
        lookupNode (buildLoop ws st).pkg2node q = some i) ∧
      (∀ p ∈ st.processed, p ∈ (buildLoop ws st).processed) ∧
      (∀ p ∈ st.toVisit, p ∈ (buildLoop ws st).processed) ∧
      (∀ p ∈ (buildLoop ws st).processed, ∃ i, lookupNode (buildLoop ws st).pkg2node p = some i) ∧
      (∀ l ∈ ws.links, ¬l.devOnly → l.dst ∈ (buildLoop ws st).processed →
        ∃ i j, lookupNode (buildLoop ws st).pkg2node l.src = some i ∧
          lookupNode (buildLoop ws st).pkg2node l.dst = some j ∧
          ∃ e ∈ (buildLoop ws st).graph.edges, e.src = i ∧ e.dst = j) := by
  intro st
  induction st using buildLoop.induct ws with
  | case1 g m proc =>
    intro hag hwf hdep hproc hlinks
    rw [buildLoop]
    exact ⟨hag, hwf, hdep, fun q i hq => hq, fun p hp => hp,
      fun p hp => absurd hp (List.not_mem_nil p), hproc, hlinks⟩
  | case2 g m proc p tv hp ih =>
    intro hag hwf hdep hproc hlinks
    rw [buildLoop]
    rw [if_pos hp]
    rcases ih hag hwf hdep hproc hlinks with ⟨i1, i2, i3, i4, i5, i6, i7, i8⟩
    refine ⟨i1, i2, i3, i4, i5, ?_, i7, i8⟩
    intro q hq
    rcases List.mem_cons.mp hq with rfl | hq
    · exact i5 q hp
    · exact i6 q hq
  | case3 g m proc p tv hp r links r2 ih =>
    intro hag hwf hdep hproc hlinks
    rw [buildLoop]
    rw [if_neg hp]
    rcases ensureNode_spec g m p hag with ⟨e1, e2, e3, e4, e5, e6, e7⟩
    have hdep1 : ∀ e ∈ (ensureNode g m p).1.edges, e.weight = .dependsOn := by
      intro e he
      rw [e3] at he
      exact hdep e he
    have hwf1 : (ensureNode g m p).1.WF := by
      intro e he
      rw [e3] at he
      rcases hwf e he with ⟨h1, h2⟩
      exact ⟨lt_of_lt_of_le h1 e7, lt_of_lt_of_le h2 e7⟩
    rcases processLinks_spec (ensureNode g m p).2.2 (ws.links.filter (fun l => l.dst == p))
      (ensureNode g m p).1 (ensureNode g m p).2.1 e1 hwf1 hdep1 e6
      with ⟨p1, p2, p3, p4, p5, p6, p7, p8⟩
    have hlook : ∀ q i, lookupNode m q = some i →
        lookupNode (processLinks (ensureNode g m p).2.2
          (ws.links.filter (fun l => l.dst == p)) (ensureNode g m p).1
          (ensureNode g m p).2.1).2 q = some i :=
      fun q i hq => p4 q i (e4 q i hq)
    have hplook : lookupNode (processLinks (ensureNode g m p).2.2
        (ws.links.filter (fun l => l.dst == p)) (ensureNode g m p).1
        (ensureNode g m p).2.1).2 p = some (ensureNode g m p).2.2 :=
      p4 p _ e2
    have hproc2 : ∀ q ∈ p :: proc,
        ∃ i, lookupNode (processLinks (ensureNode g m p).2.2
          (ws.links.filter (fun l => l.dst == p)) (ensureNode g m p).1
          (ensureNode g m p).2.1).2 q = some i := by
      intro q hq
      rcases List.mem_cons.mp hq with rfl | hq
      · exact ⟨_, hplook⟩
      · rcases hproc q hq with ⟨i, hi⟩
        exact ⟨i, hlook q i hi⟩
    have hlinks2 : ∀ l ∈ ws.links, ¬l.devOnly → l.dst ∈ p :: proc →
        ∃ i j, lookupNode (processLinks (ensureNode g m p).2.2
            (ws.links.filter (fun l => l.dst == p)) (ensureNode g m p).1
            (ensureNode g m p).2.1).2 l.src = some i ∧
          lookupNode (processLinks (ensureNode g m p).2.2
            (ws.links.filter (fun l => l.dst == p)) (ensureNode g m p).1
            (ensureNode g m p).2.1).2 l.dst = some j ∧
          ∃ e ∈ (processLinks (ensureNode g m p).2.2
            (ws.links.filter (fun l => l.dst == p)) (ensureNode g m p).1
            (ensureNode g m p).2.1).1.edges, e.src = i ∧ e.dst = j := by
      intro l hl hdev hdst
      rcases List.mem_cons.mp hdst with heq | hdst
      · have hlf : l ∈ ws.links.filter (fun l2 => l2.dst == p) := by
          apply List.mem_filter.mpr
          exact ⟨hl, by simp [heq]⟩
        rcases p8 l hlf hdev with ⟨i, hi, hedge⟩
        refine ⟨i, _, hi, ?_, hedge⟩
        rw [heq]
        exact hplook
      · rcases hlinks l hl hdev hdst with ⟨i, j, hi, hj, hedge⟩
        have hedge2 : ∃ e ∈ (ensureNode g m p).1.edges, e.src = i ∧ e.dst = j := by
          rw [e3]
          exact hedge
        exact ⟨i, j, hlook _ _ hi, hlook _ _ hj, p7 _ _ hedge2⟩
    rcases ih p1 p2 p3 hproc2 hlinks2 with ⟨i1, i2, i3, i4, i5, i6, i7, i8⟩
    refine ⟨i1, i2, i3, ?_, ?_, ?_, i7, i8⟩
    · intro q i hq
      exact i4 q i (hlook q i hq)
    · intro q hq
      exact i5 q (List.mem_cons_of_mem p hq)
    · intro q hq
      rcases List.mem_cons.mp hq with rfl | hq
      · exact i5 q (List.mem_cons_self q proc)
      · exact i6 q (List.mem_append.mpr (Or.inr hq))

theorem updateEdge_keep_of_src_ne {es : List GraphEdge} {a b : Nat} {w : EdgeMetadata}
    {e : GraphEdge} (he : e ∈ es) (hs : e.src ≠ a) : e ∈ updateEdge es a b w := by
  induction es with
  | nil => exact absurd he (List.not_mem_nil e)
  | cons e2 es2 ih =>
    rw [updateEdge]
    by_cases hm : e2.src == a && e2.dst == b
    · rw [if_pos hm]
      rw [Bool.and_eq_true, beq_iff_eq, beq_iff_eq] at hm
      rcases List.mem_cons.mp he with rfl | he
      · exact absurd hm.1 hs
      · exact List.mem_cons_of_mem _ he
    · rw [if_neg hm]
      rcases List.mem_cons.mp he with rfl | he
      · exact List.mem_cons_self _ _
      · exact List.mem_cons_of_mem _ (ih he)

theorem gbFold_none (m : List (PkgId × Nat)) (us : List CodegenUnit) :
    gbFold m us none = none := by
  induction us with
  | nil => rfl
  | cons u us2 ih =>
    unfold gbFold at ih ⊢
    rw [List.foldl_cons]
    exact ih

/-- Invariants of the `IsGeneratedBy` fold: node payloads are untouched,
each unit contributes exactly one `IsGeneratedBy` edge (given pairwise
distinct targets), edge endpoint pairs are preserved, and every final edge
is an original edge or one of the added `IsGeneratedBy` edges. -/
theorem gbFold_spec (m : List (PkgId × Nat)) :
    ∀ (us : List CodegenUnit) (g gf : AugmentedPackageGraph),
      MapAgrees g m →
      (us.map (fun u => u.target)).Nodup →
      (∀ u ∈ us, ∀ ti, lookupNode m u.target = some ti →
        ∀ e ∈ g.edges, e.src = ti → e.weight = .dependsOn) →
      gbFold m us (some g) = some gf →
      gf.pkgs = g.pkgs ∧
      (∀ u2, (gbUnits gf).count u2 = (gbUnits g).count u2 + us.count u2) ∧
      (∀ x y, (∃ e ∈ g.edges, e.src = x ∧ e.dst = y) →
        ∃ e ∈ gf.edges, e.src = x ∧ e.dst = y) ∧
      (∀ u ∈ us, ∃ ti gi, lookupNode m u.target = some ti ∧
        lookupNode m u.generator = some gi ∧
        (⟨ti, gi, .isGeneratedBy u⟩ : GraphEdge) ∈ gf.edges) ∧
      (∀ e ∈ gf.edges, e ∈ g.edges ∨ ∃ u ∈ us, ∃ ti gi,
        lookupNode m u.target = some ti ∧ lookupNode m u.generator = some gi ∧
        e = ⟨ti, gi, .isGeneratedBy u⟩) ∧
      (∀ e ∈ g.edges, (∀ u ∈ us, ∀ ti, lookupNode m u.target = some ti → e.src ≠ ti) →
        e ∈ gf.edges) := by
  intro us
  induction us with
  | nil =>
    intro g gf hag hnd hset hrun
    have hgf : g = gf := by
      have : some g = some gf := hrun
      exact (Option.some.injEq _ _).mp this
    subst hgf
    refine ⟨rfl, ?_, fun x y h => h, ?_, fun e he => Or.inl he, fun e he _ => he⟩
    · intro u2
      simp [List.count_nil]
    · intro u hu
      exact absurd hu (List.not_mem_nil u)
  | cons u us2 ih =>
    intro g gf hag hnd hset hrun
    rw [List.map_cons, List.nodup_cons] at hnd
    unfold gbFold at hrun
    rw [List.foldl_cons] at hrun
    cases hgen : lookupNode m u.generator with
    | none =>
      have hstep : gbStep m (some g) u = none := by
        unfold gbStep
        rw [Option.some_bind, hgen]
        rfl
      rw [hstep] at hrun
      have : gbFold m us2 none = none := gbFold_none m us2
      unfold gbFold at this
      rw [this] at hrun
      exact absurd hrun (by simp)
    | some gi =>
      cases htar : lookupNode m u.target with
      | none =>
        have hstep : gbStep m (some g) u = none := by
          unfold gbStep
          rw [Option.some_bind, hgen, Option.some_bind, htar]
          rfl
        rw [hstep] at hrun
        have : gbFold m us2 none = none := gbFold_none m us2
        unfold gbFold at this
        rw [this] at hrun
        exact absurd hrun (by simp)
      | some ti =>
        have hstep : gbStep m (some g) u =
            some ⟨g.pkgs, updateEdge g.edges ti gi (.isGeneratedBy u)⟩ := by
          unfold gbStep
          rw [Option.some_bind, hgen, Option.some_bind, htar]
          rfl
        rw [hstep] at hrun
        have hinj : ∀ u2 ∈ us2, ∀ ti2, lookupNode m u2.target = some ti2 → ti ≠ ti2 := by
          intro u2 hu2 ti2 htar2 hcon
          subst hcon
          have h1 : g.pkgs[ti]? = some u.target := (hag u.target ti).mp htar
          have h2 : g.pkgs[ti]? = some u2.target := (hag u2.target ti).mp htar2
          rw [h1] at h2
          have : u.target = u2.target := (Option.some.injEq _ _).mp h2
          exact hnd.1 (this ▸ List.mem_map.mpr ⟨u2, hu2, rfl⟩)
        have hset1 : ∀ u2 ∈ us2, ∀ ti2, lookupNode m u2.target = some ti2 →
            ∀ e ∈ (updateEdge g.edges ti gi (.isGeneratedBy u)), e.src = ti2 →
              e.weight = .dependsOn := by
          intro u2 hu2 ti2 htar2 e he hsrc
          rcases mem_updateEdge he with rfl | he
          · exact absurd hsrc (hinj u2 hu2 ti2 htar2)
          · exact hset u2 (List.mem_cons_of_mem _ hu2) ti2 htar2 e he hsrc
        rcases ih ⟨g.pkgs, updateEdge g.edges ti gi (.isGeneratedBy u)⟩ gf hag hnd.2
          hset1 hrun with ⟨i1, i2, i3, i4, i5, i6⟩
        have hprov : ∀ e ∈ g.edges, e.src = ti → e.dst = gi → e.weight = .dependsOn :=
          fun e he hs _ => hset u (List.mem_cons_self _ _) ti htar e he hs
        refine ⟨i1, ?_, ?_, ?_, ?_, ?_⟩
        · intro u2
          have hc1 : (gbUnits ⟨g.pkgs, updateEdge g.edges ti gi (.isGeneratedBy u)⟩).count u2 =
              (gbUnits g).count u2 + (if u = u2 then 1 else 0) :=
            count_filterMap_gbOf_updateEdge hprov u2
          rw [i2 u2, hc1]
          by_cases h : u = u2
          · subst h
            rw [List.count_cons_self, if_pos rfl]
            omega
          · rw [List.count_cons_of_ne (fun hc => h hc.symm), if_neg h]
            omega
        · intro x y hxy
          exact i3 x y (updateEdge_pair_mono hxy)
        · intro u2 hu2
          rcases List.mem_cons.mp hu2 with rfl | hu2
          · refine ⟨ti, gi, htar, hgen, ?_⟩
            apply i6 _ (self_mem_updateEdge _ _ _ _)
            intro u3 hu3 ti3 htar3
            exact hinj u3 hu3 ti3 htar3
          · rcases i4 u2 hu2 with ⟨ti2, gi2, h1, h2, h3⟩
            exact ⟨ti2, gi2, h1, h2, h3⟩
        · intro e he
          rcases i5 e he with he1 | ⟨u2, hu2, ti2, gi2, h1, h2, h3⟩
          · rcases mem_updateEdge he1 with rfl | he1
            · exact Or.inr ⟨u, List.mem_cons_self _ _, ti, gi, htar, hgen, rfl⟩
            · exact Or.inl he1
          · exact Or.inr ⟨u2, List.mem_cons_of_mem _ hu2, ti2, gi2, h1, h2, h3⟩
        · intro e he hcond
          have hsrc : e.src ≠ ti := fun hc =>
            hcond u (List.mem_cons_self _ _) ti htar hc
          apply i6 _ (updateEdge_keep_of_src_ne he hsrc)
          intro u2 hu2 ti2 htar2
          exact hcond u2 (List.mem_cons_of_mem _ hu2) ti2 htar2

theorem buildRawGraph_eq (ws : Workspace) (us : List CodegenUnit) :
    buildRawGraph ws us =
      gbFold (buildLoop ws ⟨⟨[], []⟩, [], [], ws.members.reverse⟩).pkg2node us
        (some (buildLoop ws ⟨⟨[], []⟩, [], [], ws.members.reverse⟩).graph) := rfl

/-- Soundness of `AugmentedPackageGraph::new`'s graph construction (before
the cycle gate): the built graph is well-formed, its `IsGeneratedBy` edges
carry exactly the input units, each unit yields an edge from its target
node to its generator node, every non-dev link into a workspace member
yields an edge from the dependent, and node payloads are unique. -/
theorem buildRawGraph_spec (ws : Workspace) (us : List CodegenUnit)
    (hnd : (us.map (fun u => u.target)).Nodup) (g : AugmentedPackageGraph)
    (hbr : buildRawGraph ws us = some g) :
    g.WF ∧
    (∀ u2, (gbUnits g).count u2 = us.count u2) ∧
    (∀ u ∈ us, ∃ ti gi, g.pkgs[ti]? = some u.target ∧ g.pkgs[gi]? = some u.generator ∧
      (⟨ti, gi, .isGeneratedBy u⟩ : GraphEdge) ∈ g.edges) ∧
    (∀ l ∈ ws.links, ¬l.devOnly → l.dst ∈ ws.members →
      ∃ i j, g.pkgs[i]? = some l.src ∧ g.pkgs[j]? = some l.dst ∧
        ∃ e ∈ g.edges, e.src = i ∧ e.dst = j) ∧
    (∀ (p : PkgId) (i j : Nat), g.pkgs[i]? = some p → g.pkgs[j]? = some p → i = j) := by
  have hag0 : MapAgrees (⟨[], []⟩ : AugmentedPackageGraph) [] := by
    intro p i
    constructor
    · intro h
      exact absurd h (by simp [lookupNode])
    · intro h
      exact absurd h (by simp)
  have hwf0 : (⟨[], []⟩ : AugmentedPackageGraph).WF := by
    intro e he
    exact absurd he (List.not_mem_nil e)
  rcases buildLoop_spec ws ⟨⟨[], []⟩, [], [], ws.members.reverse⟩ hag0 hwf0
    (by intro e he; exact absurd he (List.not_mem_nil e))
    (by intro p hp; exact absurd hp (List.not_mem_nil p))
    (by intro l hl hdev hdst; exact absurd hdst (List.not_mem_nil l.dst))
    with ⟨b1, b2, b3, b4, b5, b6, b7, b8⟩
  have hrun := hbr
  rw [buildRawGraph_eq] at hrun
  rcases gbFold_spec (buildLoop ws ⟨⟨[], []⟩, [], [], ws.members.reverse⟩).pkg2node us
    (buildLoop ws ⟨⟨[], []⟩, [], [], ws.members.reverse⟩).graph g b1 hnd
    (by intro u hu ti hti e he hsrc; exact b3 e he) hrun
    with ⟨f1, f2, f3, f4, f5, f6⟩
  have hlen : g.pkgs.length =
      (buildLoop ws ⟨⟨[], []⟩, [], [], ws.members.reverse⟩).graph.pkgs.length := by
    rw [f1]
  have hlook2elem : ∀ p i,
      lookupNode (buildLoop ws ⟨⟨[], []⟩, [], [], ws.members.reverse⟩).pkg2node p = some i →
      g.pkgs[i]? = some p := by
    intro p i hp
    rw [f1]
    exact (b1 p i).mp hp
  have helem2look : ∀ p i, g.pkgs[i]? = some p →
      lookupNode (buildLoop ws ⟨⟨[], []⟩, [], [], ws.members.reverse⟩).pkg2node p = some i := by
    intro p i hp
    rw [f1] at hp
    exact (b1 p i).mpr hp
  refine ⟨?_, ?_, ?_, ?_, ?_⟩
  · intro e he
    rcases f5 e he with he1 | ⟨u, hu, ti, gi, h1, h2, rfl⟩
    · rcases b2 e he1 with ⟨hs, hd⟩
      unfold AugmentedPackageGraph.numNodes
      rw [hlen]
      exact ⟨hs, hd⟩
    · have h1e := hlook2elem _ _ h1
      have h2e := hlook2elem _ _ h2
      rcases List.getElem?_eq_some.mp h1e with ⟨hlt1, _⟩
      rcases List.getElem?_eq_some.mp h2e with ⟨hlt2, _⟩
      exact ⟨hlt1, hlt2⟩
  · intro u2
    have hnil : gbUnits (buildLoop ws ⟨⟨[], []⟩, [], [], ws.members.reverse⟩).graph = [] := by
      unfold gbUnits
      rw [List.filterMap_eq_nil_iff]
      intro e he
      unfold gbOf
      rw [b3 e he]
    rw [f2 u2, hnil]
    simp
  · intro u hu
    rcases f4 u hu with ⟨ti, gi, h1, h2, h3⟩
    exact ⟨ti, gi, hlook2elem _ _ h1, hlook2elem _ _ h2, h3⟩
  · intro l hl hdev hdst
    have hproc : l.dst ∈ (buildLoop ws ⟨⟨[], []⟩, [], [], ws.members.reverse⟩).processed :=
      b6 l.dst (List.mem_reverse.mpr hdst)
    rcases b8 l hl hdev hproc with ⟨i, j, hi, hj, hedge⟩
    exact ⟨i, j, hlook2elem _ _ hi, hlook2elem _ _ hj, f3 i j hedge⟩
  · intro p i j hi hj
    have h1 := helem2look p i hi
    have h2 := helem2look p j hj
    rw [h1] at h2
    exact (Option.some.injEq _ _).mp h2

/-- A graph accepted by `AugmentedPackageGraph::new` came out of the raw
construction with an empty cycle list. -/
theorem buildAugmentedGraph_ok (ws : Workspace) (us : List CodegenUnit)
    (g : AugmentedPackageGraph) (h : buildAugmentedGraph ws us = some (.ok g)) :
    buildRawGraph ws us = some g ∧ find_cycles g = [] := by
  unfold buildAugmentedGraph at h
  cases hbr : buildRawGraph ws us with
  | none =>
    rw [hbr] at h
    exact absurd h (by simp)
  | some g0 =>
    rw [hbr, Option.some_bind] at h
    by_cases hcs : (find_cycles g0).isEmpty
    · rw [if_pos hcs] at h
      have hg : g0 = g :=
        Except.ok.inj ((Option.some.injEq _ _).mp h)
      subst hg
      exact ⟨rfl, List.isEmpty_iff.mp hcs⟩
    · rw [if_neg hcs] at h
      exfalso
      cases hm : (find_cycles g0).mapM (cyclic_dependency_error g0) with
      | none =>
        rw [hm] at h
        exact absurd h (by simp)
      | some msgs =>
        rw [hm] at h
        have h2 : some (Except.error msgs) = some (Except.ok g) := h
        exact Except.noConfusion ((Option.some.injEq _ _).mp h2)

/-- An empty cycle report implies acyclicity: the ghost finish order of the
traversal is a reverse topological order when no cycle was recorded. -/
theorem acyclic_of_find_cycles_nil (g : AugmentedPackageGraph) (hwf : g.WF)
    (hnil : find_cycles g = []) : g.Acyclic := by
  obtain ⟨_, ford, fnd, fiff, fordok⟩ := find_cycles_facts g hwf
  rw [hnil] at fordok
  have hrk : RankOk g (fun n => ford.length - ford.indexOf n) := by
    intro e he
    rcases hwf e he with ⟨hs, hd⟩
    have hsrcm : e.src ∈ ford := (fiff e.src).mpr hs
    rcases List.append_of_mem hsrcm with ⟨p, q, hsplit⟩
    have hdstm : e.dst ∈ q := by
      rcases fordok p e.src q hsplit e.dst ⟨e, he, rfl, rfl⟩ with h | ⟨c, hc, _⟩
      · exact h
      · exact absurd hc (List.not_mem_nil c)
    have hndsplit := hsplit ▸ fnd
    have hsrcnp : e.src ∉ p := by
      intro hcon
      rcases List.nodup_append.mp hndsplit with ⟨_, _, hdisj⟩
      exact hdisj hcon (List.mem_cons_self _ _)
    have hdstnp : e.dst ∉ p := by
      intro hcon
      rcases List.nodup_append.mp hndsplit with ⟨_, _, hdisj⟩
      exact hdisj hcon (List.mem_cons_of_mem _ hdstm)
    have hdstne : e.src ≠ e.dst := by
      intro hcon
      rcases List.nodup_append.mp hndsplit with ⟨_, hq, _⟩
      rcases List.nodup_cons.mp hq with ⟨hnq, _⟩
      exact hnq (hcon ▸ hdstm)
    have hidxs : List.indexOf e.src ford = p.length := by
      rw [hsplit, List.indexOf_append_of_not_mem hsrcnp, List.indexOf_cons_self]
      simp
    have hidxd : List.indexOf e.dst ford = p.length + 1 + List.indexOf e.dst q := by
      rw [hsplit, List.indexOf_append_of_not_mem hdstnp, List.indexOf_cons_ne _ hdstne]
      omega
    have hidxdlt : List.indexOf e.dst q < q.length := List.indexOf_lt_length.mpr hdstm
    have hlen : ford.length = p.length + 1 + q.length := by
      rw [hsplit]
      simp [List.length_append]
      omega
    show ford.length - List.indexOf e.dst ford < ford.length - List.indexOf e.src ford
    rw [hidxs, hidxd, hlen]
    omega
  exact acyclic_of_rankOk hrk

theorem containsStr_extend {s s2 n : String} (h : ContainsStr s n)
    {r : List Char} (h2 : s2.data = s.data ++ r) : ContainsStr s2 n := by
  rcases h with ⟨pre, post, hp⟩
  refine ⟨pre, post ++ r, ?_⟩
  rw [h2, hp]
  simp

theorem chunk_contains_cur (a dep rel cur : String) :
    ContainsStr (a ++ "\n" ++ "- `" ++ dep ++ "` " ++ rel ++ " `" ++ cur ++ "`")
      ("`" ++ cur ++ "`") := by
  refine ⟨(a ++ "\n" ++ "- `" ++ dep ++ "` " ++ rel).data ++ [' '], [], ?_⟩
  simp [String.data_append]

/-- The rendering fold of `cyclic_dependency_error` succeeds when every pair
has resolvable payloads and a connecting edge, only appends to the
accumulator, and mentions every dependency name in backticks. -/
theorem cde_fold (g : AugmentedPackageGraph) :
    ∀ (ps : List (Nat × Nat)) (s0 : String),
      (∀ p ∈ ps, (g.pkgs[p.1]?).isSome ∧ (g.pkgs[p.2]?).isSome ∧
        (findEdgeWeight g p.1 p.2).isSome) →
      ∃ msg, ps.foldl (cdeStep g) (some s0) = some msg ∧
        (∃ r : List Char, msg.data = s0.data ++ r) ∧
        (∀ p ∈ ps, ∀ name, g.pkgs[p.2]? = some name →
          ContainsStr msg ("`" ++ name ++ "`")) := by
  intro ps
  induction ps with
  | nil =>
    intro s0 hps
    exact ⟨s0, rfl, ⟨[], by simp⟩, fun p hp => absurd hp (List.not_mem_nil p)⟩
  | cons p ps2 ih =>
    intro s0 hps
    rcases hps p (List.mem_cons_self _ _) with ⟨h1, h2, h3⟩
    rcases Option.isSome_iff_exists.mp h1 with ⟨dep, hdep⟩
    rcases Option.isSome_iff_exists.mp h2 with ⟨cur, hcur⟩
    rcases Option.isSome_iff_exists.mp h3 with ⟨w, hw⟩
    have hstep : cdeStep g (some s0) p =
        some (s0 ++ "\n" ++ "- `" ++ dep ++ "` " ++ relWord w ++ " `" ++ cur ++ "`") := by
      unfold cdeStep
      rw [Option.some_bind, hdep, Option.some_bind, hcur, Option.some_bind, hw]
      rfl
    rw [List.foldl_cons, hstep]
    rcases ih (s0 ++ "\n" ++ "- `" ++ dep ++ "` " ++ relWord w ++ " `" ++ cur ++ "`")
      (fun q hq => hps q (List.mem_cons_of_mem _ hq)) with ⟨msg, hrun, ⟨r, hr⟩, hcontains⟩
    refine ⟨msg, hrun, ?_, ?_⟩
    · refine ⟨("\n" ++ "- `" ++ dep ++ "` " ++ relWord w ++ " `" ++ cur ++ "`").data ++ r, ?_⟩
      rw [hr]
      simp [String.data_append]
    · intro q hq name hname
      rcases List.mem_cons.mp hq with rfl | hq
      · have hcn : cur = name := by
          rw [hcur] at hname
          exact (Option.some.injEq _ _).mp hname
        subst hcn
        exact containsStr_extend (chunk_contains_cur s0 dep (relWord w) cur) hr
      · exact hcontains q hq name hname

/-- Rendering a well-formed cycle never panics and the message names every
node of the cycle in backticks. -/
theorem cde_spec (g : AugmentedPackageGraph) (cyc : List Nat) (hcwf : CycleWF g cyc) :
    ∃ msg, cyclic_dependency_error g cyc = some msg ∧
      ∀ x ∈ cyc, ∀ name, g.pkgs[x]? = some name →
        ContainsStr msg ("`" ++ name ++ "`") := by
  obtain ⟨hne, hvalid, hchain, hlast⟩ := hcwf
  have hlenpos : 0 < cyc.length := List.length_pos.mpr hne
  have haslen : (cyc.getLast hne :: cyc.dropLast).length = cyc.length := by
    rw [List.length_cons, List.length_dropLast]
    omega
  have hpair : ∀ p ∈ List.zip (cyc.getLast hne :: cyc.dropLast) cyc,
      g.HasEdge p.1 p.2 ∧ p.1 ∈ cyc ∧ p.2 ∈ cyc := by
    intro p hp
    rcases List.get_of_mem hp with ⟨⟨i, hi⟩, hget⟩
    rw [List.length_zip, haslen, min_self] at hi
    have hgz : (List.zip (cyc.getLast hne :: cyc.dropLast) cyc)[i] = p := hget
    rw [List.getElem_zip] at hgz
    have hp1 : (cyc.getLast hne :: cyc.dropLast)[i] = p.1 := by rw [← hgz]
    have hp2 : cyc[i] = p.2 := by rw [← hgz]
    have hmem2 : p.2 ∈ cyc := hp2 ▸ List.getElem_mem _
    match i, hi with
    | 0, hi =>
      rw [List.getElem_cons_zero] at hp1
      have hedge : g.HasEdge (cyc.getLast hne) cyc[0] := by
        apply hlast
        · exact List.getLast?_eq_getLast cyc hne
        · rw [List.head?_eq_getElem?]
          exact List.getElem?_eq_getElem hlenpos
      rw [hp1, hp2] at hedge
      exact ⟨hedge, hp1 ▸ List.getLast_mem hne, hmem2⟩
    | j + 1, hi =>
      have hj : j < cyc.dropLast.length := by
        rw [List.length_dropLast]
        omega
      rw [List.getElem_cons_succ, List.getElem_dropLast] at hp1
      have hedge : g.HasEdge cyc[j] cyc[j + 1] := by
        have := List.chain'_iff_get.mp hchain j (by omega)
        exact this
      rw [hp1, hp2] at hedge
      exact ⟨hedge, hp1 ▸ List.getElem_mem _, hmem2⟩
  have hconds : ∀ p ∈ List.zip (cyc.getLast hne :: cyc.dropLast) cyc,
      (g.pkgs[p.1]?).isSome ∧ (g.pkgs[p.2]?).isSome ∧
        (findEdgeWeight g p.1 p.2).isSome := by
    intro p hp
    rcases hpair p hp with ⟨hedge, hm1, hm2⟩
    refine ⟨?_, ?_, ?_⟩
    · rw [List.getElem?_eq_getElem (hvalid p.1 hm1)]
      rfl
    · rw [List.getElem?_eq_getElem (hvalid p.2 hm2)]
      rfl
    · unfold findEdgeWeight
      rcases hedge with ⟨e, he, hs, hd⟩
      have hfind : (List.find? (fun e2 => e2.src == p.1 && e2.dst == p.2) g.edges).isSome := by
        rw [List.find?_isSome]
        refine ⟨e, he, ?_⟩
        rw [Bool.and_eq_true, beq_iff_eq, beq_iff_eq]
        exact ⟨hs, hd⟩
      rcases Option.isSome_iff_exists.mp hfind with ⟨e2, he2⟩
      rw [he2]
      rfl
  rcases cde_fold g (List.zip (cyc.getLast hne :: cyc.dropLast) cyc)
    cyclicDependencyErrorHeader hconds with ⟨msg, hrun, _, hcontains⟩
  refine ⟨msg, ?_, ?_⟩
  · unfold cyclic_dependency_error
    rw [List.getLast?_eq_getLast cyc hne]
    exact hrun
  · intro x hx name hname
    have hxsnd : x ∈ List.map Prod.snd (List.zip (cyc.getLast hne :: cyc.dropLast) cyc) := by
      rw [List.map_snd_zip _ _ (by omega)]
      exact hx
    rcases List.mem_map.mp hxsnd with ⟨p, hp, hpx⟩
    apply hcontains p hp
    rw [hpx]
    exact hname

theorem contains_eq_true_iff {l : List PkgId} {a : PkgId} :
    l.contains a = true ↔ a ∈ l := by
  simp

theorem contains_eq_false_iff {l : List PkgId} {a : PkgId} :
    l.contains a = false ↔ a ∉ l := by
  simp

theorem iterClose_sub (ws : Workspace) :
    ∀ (n : Nat) (acc : List PkgId), ∀ x ∈ acc, x ∈ iterClose ws n acc := by
  intro n
  induction n with
  | zero =>
    intro acc x hx
    exact hx
  | succ n ih =>
    intro acc x hx
    rw [iterClose]
    by_cases h : depsClosed ws acc
    · rw [if_pos h]
      exact hx
    · rw [if_neg h]
      exact ih _ x (List.mem_append.mpr (Or.inl hx))

theorem iterClose_sound (ws : Workspace) (P : PkgId → Prop)
    (hstep : ∀ l ∈ ws.links, P l.src → P l.dst) :
    ∀ (n : Nat) (acc : List PkgId), (∀ x ∈ acc, P x) →
      ∀ x ∈ iterClose ws n acc, P x := by
  intro n
  induction n with
  | zero =>
    intro acc hacc x hx
    exact hacc x hx
  | succ n ih =>
    intro acc hacc x hx
    rw [iterClose] at hx
    by_cases h : depsClosed ws acc
    · rw [if_pos h] at hx
      exact hacc x hx
    · rw [if_neg h] at hx
      refine ih _ ?_ x hx
      intro y hy
      rcases List.mem_append.mp hy with hy | hy
      · exact hacc y hy
      · unfold newDsts at hy
        rw [List.mem_dedup] at hy
        rcases List.mem_map.mp hy with ⟨l, hl, rfl⟩
        have hcond := List.of_mem_filter hl
        rw [Bool.and_eq_true] at hcond
        have hsrc : l.src ∈ acc := contains_eq_true_iff.mp hcond.1
        exact hstep l (List.mem_of_mem_filter hl) (hacc l.src hsrc)

theorem iterClose_closed (ws : Workspace) :
    ∀ (n : Nat) (acc : List PkgId),
      (((ws.links.map (fun l => l.dst)).toFinset \ acc.toFinset).card < n) →
      depsClosed ws (iterClose ws n acc) = true := by
  intro n
  induction n with
  | zero =>
    intro acc hcard
    omega
  | succ n ih =>
    intro acc hcard
    rw [iterClose]
    by_cases h : depsClosed ws acc
    · rw [if_pos h]
      exact h
    · rw [if_neg h]
      apply ih
      have hex : ∃ l ∈ ws.links, acc.contains l.src = true ∧ acc.contains l.dst = false := by
        by_contra hcon
        apply h
        unfold depsClosed
        rw [List.all_eq_true]
        intro l hl
        rw [Bool.or_eq_true]
        cases hs : acc.contains l.src with
        | false => exact Or.inl rfl
        | true =>
          cases hd : acc.contains l.dst with
          | false => exact (hcon ⟨l, hl, hs, hd⟩).elim
          | true => exact Or.inr rfl
      rcases hex with ⟨l, hl, hsrc, hdst⟩
      have hdnew : l.dst ∈ newDsts ws acc := by
        unfold newDsts
        rw [List.mem_dedup]
        apply List.mem_map.mpr
        refine ⟨l, ?_, rfl⟩
        apply List.mem_filter.mpr
        refine ⟨hl, ?_⟩
        rw [Bool.and_eq_true, hsrc, hdst]
        exact ⟨rfl, rfl⟩
      have hlt : (((ws.links.map (fun l => l.dst)).toFinset \
            (acc ++ newDsts ws acc).toFinset).card <
          ((ws.links.map (fun l => l.dst)).toFinset \ acc.toFinset).card) := by
        apply Finset.card_lt_card
        constructor
        · apply Finset.sdiff_subset_sdiff le_rfl
          intro z hz
          rw [List.mem_toFinset] at hz ⊢
          exact List.mem_append.mpr (Or.inl hz)
        · intro hcon
          have hd1 : l.dst ∈ ((ws.links.map (fun l => l.dst)).toFinset \ acc.toFinset) := by
            rw [Finset.mem_sdiff, List.mem_toFinset, List.mem_toFinset]
            exact ⟨List.mem_map.mpr ⟨l, hl, rfl⟩, contains_eq_false_iff.mp hdst⟩
          have hd2 := hcon hd1
          rw [Finset.mem_sdiff, List.mem_toFinset, List.mem_toFinset] at hd2
          exact hd2.2 (List.mem_append.mpr (Or.inr hdnew))
      omega

theorem depsClosed_spec {ws : Workspace} {acc : List PkgId}
    (h : depsClosed ws acc = true) :
    ∀ l ∈ ws.links, l.src ∈ acc → l.dst ∈ acc := by
  intro l hl hsrc
  unfold depsClosed at h
  rw [List.all_eq_true] at h
  have := h l hl
  rw [Bool.or_eq_true] at this
  rcases this with h2 | h2
  · rw [Bool.not_eq_eq_eq_not, Bool.not_true] at h2
    exact absurd hsrc (contains_eq_false_iff.mp h2)
  · exact contains_eq_true_iff.mp h2

theorem mem_depStep {ws : Workspace} {a x : PkgId} :
    x ∈ depStep ws a ↔ stepRel ws a x := by
  unfold depStep stepRel
  constructor
  · intro h
    rcases List.mem_map.mp h with ⟨l, hl, rfl⟩
    have hsrc := List.of_mem_filter hl
    rw [beq_iff_eq] at hsrc
    exact ⟨l, List.mem_of_mem_filter hl, hsrc, rfl⟩
  · rintro ⟨l, hl, hsrc, rfl⟩
    apply List.mem_map.mpr
    refine ⟨l, ?_, rfl⟩
    apply List.mem_filter.mpr
    exact ⟨hl, beq_iff_eq.mpr hsrc⟩

/-- The iterative closure of `dependsOnB` decides guppy's transitive
`depends_on` relation over the full metadata link graph. -/
theorem dependsOnB_iff (ws : Workspace) (a b : PkgId) :
    dependsOnB ws a b = true ↔ DependsOn ws a b := by
  constructor
  · intro h
    unfold dependsOnB at h
    have hb : b ∈ iterClose ws (ws.links.length + 1) (depStep ws a) :=
      contains_eq_true_iff.mp h
    refine iterClose_sound ws (fun x => DependsOn ws a x) ?_ _ _ ?_ b hb
    · intro l hl hP
      exact hP.tail ⟨l, hl, rfl, rfl⟩
    · intro x hx
      exact Relation.TransGen.single (mem_depStep.mp hx)
  · intro h
    have hclosed : depsClosed ws (iterClose ws (ws.links.length + 1) (depStep ws a)) = true := by
      apply iterClose_closed
      have h1 : ((ws.links.map (fun l => l.dst)).toFinset \
          (depStep ws a).toFinset).card ≤ (ws.links.map (fun l => l.dst)).toFinset.card :=
        Finset.card_le_card (Finset.sdiff_subset)
      have h2 : (ws.links.map (fun l => l.dst)).toFinset.card ≤
          (ws.links.map (fun l => l.dst)).length := List.toFinset_card_le _
      rw [List.length_map] at h2
      omega
    have hmem : b ∈ iterClose ws (ws.links.length + 1) (depStep ws a) := by
      induction h with
      | single hstep =>
        exact iterClose_sub ws _ _ _ (mem_depStep.mpr hstep)
      | tail hab hbc ih =>
        rcases hbc with ⟨l, hl, hsrc, hdst⟩
        rw [← hdst]
        exact depsClosed_spec hclosed l hl (hsrc ▸ ih)
    unfold dependsOnB
    exact contains_eq_true_iff.mpr hmem

theorem mapM_some_of_forall (f : List Nat → Option String) :
    ∀ cs : List (List Nat), (∀ cyc ∈ cs, ∃ s, f cyc = some s) →
      ∃ msgs, cs.mapM f = some msgs ∧
        ∀ cyc ∈ cs, ∀ s, f cyc = some s → s ∈ msgs := by
  intro cs
  induction cs with
  | nil =>
    intro h
    refine ⟨[], by rw [List.mapM_nil]; rfl, ?_⟩
    intro cyc hc
    exact absurd hc (List.not_mem_nil cyc)
  | cons cyc cs2 ih =>
    intro h
    rcases h cyc (List.mem_cons_self _ _) with ⟨s, hs⟩
    rcases ih (fun c2 hc2 => h c2 (List.mem_cons_of_mem _ hc2)) with ⟨msgs, hm, hmem⟩
    refine ⟨s :: msgs, ?_, ?_⟩
    · rw [List.mapM_cons, hs]
      have hm2 : List.mapM.loop f cs2 [] = some msgs := hm
      show (List.mapM.loop f cs2 []).bind (fun r => some (s :: r)) = some (s :: msgs)
      rw [hm2]
      rfl
    · intro c2 hc2 s2 hs2
      rcases List.mem_cons.mp hc2 with rfl | hc2
      · rw [hs] at hs2
        have heq : s = s2 := (Option.some.injEq _ _).mp hs2
        exact heq ▸ List.mem_cons_self _ _
      · exact List.mem_cons_of_mem _ (hmem c2 hc2 s2 hs2)

theorem gbFold_isSome (m : List (PkgId × Nat)) :
    ∀ (us : List CodegenUnit) (g : AugmentedPackageGraph),
      (∀ u ∈ us, (lookupNode m u.generator).isSome ∧ (lookupNode m u.target).isSome) →
      ∃ gf, gbFold m us (some g) = some gf := by
  intro us
  induction us with
  | nil =>
    intro g h
    exact ⟨g, rfl⟩
  | cons u us2 ih =>
    intro g h
    rcases h u (List.mem_cons_self _ _) with ⟨h1, h2⟩
    rcases Option.isSome_iff_exists.mp h1 with ⟨gi, hgi⟩
    rcases Option.isSome_iff_exists.mp h2 with ⟨ti, hti⟩
    have hstep : gbStep m (some g) u =
        some ⟨g.pkgs, updateEdge g.edges ti gi (.isGeneratedBy u)⟩ := by
      unfold gbStep
      rw [Option.some_bind, hgi, Option.some_bind, hti]
      rfl
    unfold gbFold
    rw [List.foldl_cons, hstep]
    exact ih _ (fun u2 hu2 => h u2 (List.mem_cons_of_mem _ hu2))

/-- The graph construction of `AugmentedPackageGraph::new` does not panic
when every codegen unit's target and generator are workspace members. -/
theorem buildRawGraph_isSome (ws : Workspace) (us : List CodegenUnit)
    (h : ∀ u ∈ us, u.target ∈ ws.members ∧ u.generator ∈ ws.members) :
    ∃ g, buildRawGraph ws us = some g := by
  have hag0 : MapAgrees (⟨[], []⟩ : AugmentedPackageGraph) [] := by
    intro p i
    constructor
    · intro hp
      exact absurd hp (by simp [lookupNode])
    · intro hp
      exact absurd hp (by simp)
  have hwf0 : (⟨[], []⟩ : AugmentedPackageGraph).WF := by
    intro e he
    exact absurd he (List.not_mem_nil e)
  rcases buildLoop_spec ws ⟨⟨[], []⟩, [], [], ws.members.reverse⟩ hag0 hwf0
    (by intro e he; exact absurd he (List.not_mem_nil e))
    (by intro p hp; exact absurd hp (List.not_mem_nil p))
    (by intro l hl hdev hdst; exact absurd hdst (List.not_mem_nil l.dst))
    with ⟨b1, b2, b3, b4, b5, b6, b7, b8⟩
  rw [buildRawGraph_eq]
  apply gbFold_isSome
  intro u hu
  rcases h u hu with ⟨ht, hg⟩
  rcases b7 u.generator (b6 u.generator (List.mem_reverse.mpr hg)) with ⟨gi, hgi⟩
  rcases b7 u.target (b6 u.target (List.mem_reverse.mpr ht)) with ⟨ti, hti⟩
  exact ⟨Option.isSome_iff_exists.mpr ⟨gi, hgi⟩, Option.isSome_iff_exists.mpr ⟨ti, hti⟩⟩

theorem resolveSpecs_fail (ws : Workspace) :
    ∀ (specs : List String) (acc : List PkgId) (spec : String),
      spec ∈ specs → member_by_name ws spec = none →
      resolveSpecs ws specs acc = [] := by
  intro specs
  induction specs with
  | nil =>
    intro acc spec hs
    exact absurd hs (List.not_mem_nil spec)
  | cons s2 rest ih =>
    intro acc spec hs hnone
    unfold resolveSpecs
    cases hm : member_by_name ws s2 with
    | none => rfl
    | some pid =>
      rcases List.mem_cons.mp hs with rfl | hs
      · rw [hm] at hnone
        exact absurd hnone (by simp)
      · exact ih _ spec hs hnone

/-- The unit loop of `verify`: after a prefix of verifier-carrying units
whose external steps succeed, a unit with no verifier stops the loop with
the missing-verifier error, and nothing after it is verified. -/
theorem verifyRun_missing (outcome : CodegenUnit → Bool) :
    ∀ (pre : List CodegenUnit) (u : CodegenUnit) (post : List CodegenUnit),
      u.verifier = none →
      (∀ v ∈ pre, v.verifier ≠ none ∧ outcome v = true) →
      verifyRun outcome (pre ++ u :: post) =
        (pre.map (fun v => v.target), some (missingVerifierMsg u.target)) := by
  intro pre
  induction pre with
  | nil =>
    intro u post hu hpre
    rw [List.nil_append]
    simp [verifyRun, hu]
  | cons v pre2 ih =>
    intro u post hu hpre
    rcases hpre v (List.mem_cons_self _ _) with ⟨hv, ho⟩
    rcases Option.ne_none_iff_exists.mp hv with ⟨w, hw⟩
    rw [List.cons_append]
    simp [verifyRun, ← hw, ho, ih u post hu (fun q hq => hpre q (List.mem_cons_of_mem _ hq))]

theorem findBinaryPackage_foldl_spec (selfId : PkgId) (bin : String) :
    ∀ (members : List MemberPackage) (acc : Option PkgId),
      (∀ p, List.foldl (fun acc m =>
          if m.pid == selfId then acc
          else if definesBinary m bin then some m.pid else acc) acc members = some p →
        (∃ mp ∈ members, mp.pid = p ∧ ¬(mp.pid == selfId) = true ∧
          definesBinary mp bin = true) ∨ acc = some p) ∧
      ((∀ mp ∈ members, definesBinary mp bin = true → mp.pid = selfId) →
        List.foldl (fun acc m =>
          if m.pid == selfId then acc
          else if definesBinary m bin then some m.pid else acc) acc members = acc) := by
  intro members
  induction members with
  | nil =>
    intro acc
    exact ⟨fun p hp => Or.inr hp, fun h => rfl⟩
  | cons mp members2 ih =>
    intro acc
    constructor
    · intro p hp
      rw [List.foldl_cons] at hp
      by_cases hself : mp.pid == selfId
      · rw [if_pos hself] at hp
        rcases (ih acc).1 p hp with ⟨mp2, hm2, h1, h2, h3⟩ | hacc
        · exact Or.inl ⟨mp2, List.mem_cons_of_mem _ hm2, h1, h2, h3⟩
        · exact Or.inr hacc
      · rw [if_neg hself] at hp
        by_cases hdef : definesBinary mp bin
        · rw [if_pos hdef] at hp
          rcases (ih (some mp.pid)).1 p hp with ⟨mp2, hm2, h1, h2, h3⟩ | hacc
          · exact Or.inl ⟨mp2, List.mem_cons_of_mem _ hm2, h1, h2, h3⟩
          · have hpe : mp.pid = p := (Option.some.injEq _ _).mp hacc
            exact Or.inl ⟨mp, List.mem_cons_self _ _, hpe, hself, hdef⟩
        · rw [if_neg hdef] at hp
          rcases (ih acc).1 p hp with ⟨mp2, hm2, h1, h2, h3⟩ | hacc
          · exact Or.inl ⟨mp2, List.mem_cons_of_mem _ hm2, h1, h2, h3⟩
          · exact Or.inr hacc
    · intro hall
      rw [List.foldl_cons]
      by_cases hself : mp.pid == selfId
      · rw [if_pos hself]
        exact (ih acc).2 (fun q hq => hall q (List.mem_cons_of_mem _ hq))
      · rw [if_neg hself]
        by_cases hdef : definesBinary mp bin
        · exact absurd (beq_iff_eq.mpr (hall mp (List.mem_cons_self _ _) hdef)) hself
        · rw [if_neg hdef]
          exact (ih acc).2 (fun q hq => hall q (List.mem_cons_of_mem _ hq))

theorem findBinaryPackage_ne_self {members : List MemberPackage} {selfId : PkgId}
    {bin : String} {p : PkgId} (h : findBinaryPackage members selfId bin = some p) :
    p ≠ selfId := by
  unfold findBinaryPackage at h
  rcases (findBinaryPackage_foldl_spec selfId bin members none).1 p h with
    ⟨mp, _, h1, h2, _⟩ | hacc
  · intro hcon
    apply h2
    rw [beq_iff_eq]
    rw [h1, hcon]
  · exact absurd hacc (by simp)

theorem findBinaryPackage_none {members : List MemberPackage} {selfId : PkgId}
    {bin : String} (h : ∀ mp ∈ members, definesBinary mp bin = true → mp.pid = selfId) :
    findBinaryPackage members selfId bin = none := by
  unfold findBinaryPackage
  exact (findBinaryPackage_foldl_spec selfId bin members none).2 h

/-! ## Concrete evaluations -/

theorem buildRawGraph_lin : buildRawGraph wsLin [uLin] = some gLin := by
  rw [buildRawGraph_eq]
  simp +decide [buildLoop, ensureNode, lookupNode, processLinks, linkPushes, gbFold, gbStep,
    updateEdge, wsLin, uLin, gLin]

theorem find_cycles_lin : find_cycles gLin = [] := by
  simp +decide [find_cycles, fcRun, gLin, outTargetsNewestFirst, AugmentedPackageGraph.outTargets,
    fcStackList, sliceFrom, AugmentedPackageGraph.numNodes, List.range_succ, List.range_zero]

theorem buildAugmentedGraph_lin : buildAugmentedGraph wsLin [uLin] = some (.ok gLin) := by
  unfold buildAugmentedGraph
  rw [buildRawGraph_lin, Option.some_bind, find_cycles_lin]
  rfl

theorem codegen_plan_gc1 : codegen_plan gc1 = [u1ex, u2ex] := by
  simp +decide [codegen_plan, runSeeds, dfsMoveTo, dfsDrain, dfsPushes, unitsAt, concatMap,
    AugmentedPackageGraph.inEdgesNewestFirst, AugmentedPackageGraph.sourcesAsc,
    AugmentedPackageGraph.outTargets, AugmentedPackageGraph.numNodes, gbOf, gc1, u1ex, u2ex,
    List.range_succ, List.range_zero]

theorem acyclic_gc1 : gc1.Acyclic := by
  have hrk : RankOk gc1 (fun n => if n = 2 ∨ n = 3 then 1 else 2) := by
    unfold RankOk gc1
    decide
  exact acyclic_of_rankOk hrk

theorem acyclic_gc2 : gc2.Acyclic := by
  have hrk : RankOk gc2 (fun n => 3 - n) := by
    unfold RankOk gc2
    decide
  exact acyclic_of_rankOk hrk

theorem acyclic_gLin : gLin.Acyclic := by
  have hrk : RankOk gLin (fun n => n) := by
    unfold RankOk gLin
    decide
  exact acyclic_of_rankOk hrk

/-! ## Claim theorems -/

/-- C1 (amended): for every acyclic augmented dependency graph and every
pair of codegen units U1, U2 in the plan returned by the scheduler, if
U1's generator package transitively depends on (via DependsOn or
GeneratedBy edges) U2's generator package, then U2 appears before U1 in
the plan.  (The frozen claim said "U1's target package"; the
counterexample below refutes that version.) -/
theorem c1_order_amended (g : AugmentedPackageGraph) (hwf : g.WF) (hacyc : g.Acyclic)
    (hnd : (gbUnits g).Nodup) (e1 e2 : GraphEdge) (u1 u2 : CodegenUnit)
    (he1 : e1 ∈ g.edges) (hw1 : e1.weight = .isGeneratedBy u1)
    (he2 : e2 ∈ g.edges) (hw2 : e2.weight = .isGeneratedBy u2)
    (hreach : g.ReachPlus e1.dst e2.dst) :
    u1 ∈ codegen_plan g ∧ u2 ∈ codegen_plan g ∧
    (codegen_plan g).indexOf u2 < (codegen_plan g).indexOf u1 :=
  codegen_plan_order g hwf hacyc hnd he1 hw1 he2 hw2 hreach

/-- C1 (counterexample to the frozen wording): in the acyclic graph `gc1`
the unit `u1ex`'s target package (node 0) directly depends on `u2ex`'s
generator package (node 2), yet the scheduler emits `u1ex` before
`u2ex`. -/
theorem c1_order_counterexample :
    gc1.WF ∧ gc1.Acyclic ∧ (gbUnits gc1).Nodup ∧
    (⟨0, 3, .isGeneratedBy u1ex⟩ : GraphEdge) ∈ gc1.edges ∧
    (⟨1, 2, .isGeneratedBy u2ex⟩ : GraphEdge) ∈ gc1.edges ∧
    gc1.pkgs[0]? = some u1ex.target ∧ gc1.pkgs[2]? = some u2ex.generator ∧
    gc1.ReachPlus 0 2 ∧
    ¬ (codegen_plan gc1).indexOf u2ex < (codegen_plan gc1).indexOf u1ex := by
  refine ⟨?_, acyclic_gc1, by decide, by decide, by decide, by decide, by decide, ?_, ?_⟩
  · show ∀ e ∈ gc1.edges, e.src < gc1.numNodes ∧ e.dst < gc1.numNodes
    decide
  · exact Relation.TransGen.single ⟨⟨0, 2, .dependsOn⟩, by decide, rfl, rfl⟩
  · rw [codegen_plan_gc1]
    decide

/-- C1 witness: in the chain graph `gc2` the generator `g1` of `u1ex`
depends on `t2`, which is generated by `g2`, the generator of `u2ex`; the
amended order invariant schedules `u2ex` first. -/
theorem c1_order_witness :
    u1ex ∈ codegen_plan gc2 ∧ u2ex ∈ codegen_plan gc2 ∧
    (codegen_plan gc2).indexOf u2ex < (codegen_plan gc2).indexOf u1ex := by
  refine c1_order_amended gc2 ?_ acyclic_gc2 (by decide)
    ⟨0, 1, .isGeneratedBy u1ex⟩ ⟨2, 3, .isGeneratedBy u2ex⟩ u1ex u2ex
    (by decide) rfl (by decide) rfl ?_
  · show ∀ e ∈ gc2.edges, e.src < gc2.numNodes ∧ e.dst < gc2.numNodes
    decide
  · exact Relation.TransGen.tail
      (Relation.TransGen.single ⟨⟨1, 2, .dependsOn⟩, by decide, rfl, rfl⟩)
      ⟨⟨2, 3, .isGeneratedBy u2ex⟩, by decide, rfl, rfl⟩

/-- C2: for every acyclic augmented dependency graph, the plan is ordered
such that for every unit U1 whose generator package reaches (via DependsOn
or GeneratedBy edges, directly or transitively) a package that is the
target of another unit U2, U2 precedes U1 in the sequence. -/
theorem c2_plan_order (g : AugmentedPackageGraph) (hwf : g.WF) (hacyc : g.Acyclic)
    (hnd : (gbUnits g).Nodup) (e1 e2 : GraphEdge) (u1 u2 : CodegenUnit)
    (he1 : e1 ∈ g.edges) (hw1 : e1.weight = .isGeneratedBy u1)
    (he2 : e2 ∈ g.edges) (hw2 : e2.weight = .isGeneratedBy u2)
    (hreach : g.ReachPlus e1.dst e2.src) :
    u1 ∈ codegen_plan g ∧ u2 ∈ codegen_plan g ∧
    (codegen_plan g).indexOf u2 < (codegen_plan g).indexOf u1 := by
  have hreach2 : g.ReachPlus e1.dst e2.dst := hreach.tail ⟨e2, he2, rfl, rfl⟩
  exact codegen_plan_order g hwf hacyc hnd he1 hw1 he2 hw2 hreach2

/-- C2 witness: in `gc2` the generator `g1` of `u1ex` directly depends on
`t2`, the target of `u2ex`, so `u2ex` is scheduled first. -/
theorem c2_plan_order_witness :
    u1ex ∈ codegen_plan gc2 ∧ u2ex ∈ codegen_plan gc2 ∧
    (codegen_plan gc2).indexOf u2ex < (codegen_plan gc2).indexOf u1ex := by
  refine c2_plan_order gc2 ?_ acyclic_gc2 (by decide)
    ⟨0, 1, .isGeneratedBy u1ex⟩ ⟨2, 3, .isGeneratedBy u2ex⟩ u1ex u2ex
    (by decide) rfl (by decide) rfl ?_
  · show ∀ e ∈ gc2.edges, e.src < gc2.numNodes ∧ e.dst < gc2.numNodes
    decide
  · exact Relation.TransGen.single ⟨⟨1, 2, .dependsOn⟩, by decide, rfl, rfl⟩

/-- C3 (amended): for every dependency graph built (without a lookup
panic) from a workspace with at least one package, if the augmented graph
is acyclic then the cycle detector returns an empty cycle list, the source
set asserted non-empty by the scheduler is indeed non-empty (so the
scheduler does not panic), and the plan contains exactly one entry per
input codegen unit (a permutation of the input units: no unit appears
twice and none is missing).  (The frozen claim omitted the
at-least-one-node premise; the counterexample below is the empty
workspace, whose graph is built and acyclic but where
`assert!(!sources.is_empty())` fails, so the Rust scheduler panics and
returns no plan at all.) -/
theorem c3_acyclic_plan (ws : Workspace) (us : List CodegenUnit)
    (hnd : (us.map (fun u => u.target)).Nodup) (g : AugmentedPackageGraph)
    (hbr : buildRawGraph ws us = some g) (hacyc : g.Acyclic)
    (hne : g.pkgs ≠ []) :
    find_cycles g = [] ∧ g.sourcesAsc ≠ [] ∧ (codegen_plan g).Perm us := by
  rcases buildRawGraph_spec ws us hnd g hbr with ⟨hwf, hcnt, _, _, _⟩
  have h0 : 0 < g.numNodes := List.length_pos.mpr hne
  rcases exists_source_reach g hwf hacyc 0 h0 with ⟨s, hs, _⟩
  refine ⟨find_cycles_eq_nil g hacyc, List.ne_nil_of_mem hs, ?_⟩
  have hperm1 := codegen_plan_perm g hwf hacyc
  have hperm2 : (gbUnits g).Perm us := List.perm_iff_count.mpr (fun u2 => hcnt u2)
  exact hperm1.trans hperm2

/-- C3 (counterexample to the frozen wording): the empty workspace builds
the empty graph, which is acyclic and on which the cycle detector reports
no cycle, yet the source set the scheduler asserts to be non-empty is
empty — the Rust `codegen_plan` hits `assert!(!sources.is_empty())` and
panics instead of returning a plan. -/
theorem c3_acyclic_plan_counterexample :
    buildRawGraph ⟨[], []⟩ [] = some ⟨[], []⟩ ∧
    (⟨[], []⟩ : AugmentedPackageGraph).Acyclic ∧
    find_cycles (⟨[], []⟩ : AugmentedPackageGraph) = [] ∧
    (⟨[], []⟩ : AugmentedPackageGraph).sourcesAsc = [] := by
  refine ⟨?_, ?_, rfl, rfl⟩
  · rw [buildRawGraph_eq]
    simp +decide [buildLoop, gbFold]
  · rintro a b ⟨e, he, _, _⟩
    exact absurd he (List.not_mem_nil e)

/-- C3 witness: the two-package workspace `wsLin` yields the acyclic
non-empty graph `gLin`; the detector reports no cycle, a source node
exists, and the plan is a permutation of the single input unit. -/
theorem c3_acyclic_plan_witness :
    find_cycles gLin = [] ∧ gLin.sourcesAsc ≠ [] ∧ (codegen_plan gLin).Perm [uLin] :=
  c3_acyclic_plan wsLin [uLin] (by decide) gLin buildRawGraph_lin acyclic_gLin
    (by decide)

/-- C4: for every workspace in which package A's codegen unit names a
generator living in package B, and B has a non-dev dependency on A, graph
construction fails with a cyclic-dependency error whose rendered message
names both A and B; no plan is produced. -/
theorem c4_cycle_rejection (ws : Workspace) (us : List CodegenUnit)
    (hnd : (us.map (fun u => u.target)).Nodup)
    (hmem : ∀ u2 ∈ us, u2.target ∈ ws.members ∧ u2.generator ∈ ws.members)
    (A B : PkgId) (u : CodegenUnit) (hu : u ∈ us)
    (hut : u.target = A) (hug : u.generator = B)
    (l : PkgLink) (hl : l ∈ ws.links) (hls : l.src = B) (hld : l.dst = A)
    (hdev : ¬l.devOnly) (hAm : A ∈ ws.members) :
    ∃ msgs, buildAugmentedGraph ws us = some (.error msgs) ∧
      ∃ msg ∈ msgs, ContainsStr msg ("`" ++ A ++ "`") ∧
        ContainsStr msg ("`" ++ B ++ "`") := by
  rcases buildRawGraph_isSome ws us hmem with ⟨g, hbr⟩
  rcases buildRawGraph_spec ws us hnd g hbr with ⟨hwf, hcnt, hunits, hlinks, hinj⟩
  rcases hunits u hu with ⟨ti, gi, hti, hgi, hge⟩
  rcases hlinks l hl hdev (hld ▸ hAm) with ⟨i, j, hi, hj, hedge⟩
  have hAe : g.pkgs[ti]? = some A := hut ▸ hti
  have hBe : g.pkgs[gi]? = some B := hug ▸ hgi
  have hAe2 : g.pkgs[j]? = some A := hld ▸ hj
  have hBe2 : g.pkgs[i]? = some B := hls ▸ hi
  have htj : ti = j := hinj A ti j hAe hAe2
  have hgi2 : gi = i := hinj B gi i hBe hBe2
  have h1 : g.HasEdge ti gi := ⟨_, hge, rfl, rfl⟩
  have h2 : g.HasEdge gi ti := by
    rw [hgi2, htj]
    exact hedge
  rcases find_cycles_two_cycle g hwf h1 h2 with ⟨cyc, hcyc, hticyc, hgicyc⟩
  obtain ⟨hcwf, _⟩ := find_cycles_facts g hwf
  have hcsne : find_cycles g ≠ [] := by
    intro hc
    rw [hc] at hcyc
    exact absurd hcyc (List.not_mem_nil cyc)
  have hall : ∀ c2 ∈ find_cycles g, ∃ s, cyclic_dependency_error g c2 = some s := by
    intro c2 hc2
    rcases cde_spec g c2 (hcwf c2 hc2) with ⟨msg, hmsg, _⟩
    exact ⟨msg, hmsg⟩
  rcases mapM_some_of_forall (cyclic_dependency_error g) (find_cycles g) hall
    with ⟨msgs, hmapm, hin⟩
  rcases cde_spec g cyc (hcwf cyc hcyc) with ⟨msg, hmsg, hnames⟩
  refine ⟨msgs, ?_, msg, hin cyc hcyc msg hmsg,
    hnames ti hticyc A hAe, hnames gi hgicyc B hBe⟩
  unfold buildAugmentedGraph
  rw [hbr, Option.some_bind]
  rw [if_neg (fun hc => hcsne (List.isEmpty_iff.mp hc))]
  rw [hmapm]
  rfl

/-- C4 witness: in `wsCyc`, package `a` is generated by `b` while `b`
non-dev depends on `a`; construction is rejected with a message naming
both. -/
theorem c4_cycle_rejection_witness :
    ∃ msgs, buildAugmentedGraph wsCyc [uCyc] = some (.error msgs) ∧
      ∃ msg ∈ msgs, ContainsStr msg ("`" ++ "a" ++ "`") ∧
        ContainsStr msg ("`" ++ "b" ++ "`") :=
  c4_cycle_rejection wsCyc [uCyc] (by decide) (by decide) "a" "b"
    uCyc (by decide) rfl rfl ⟨"b", "a", false⟩ (by decide) rfl rfl
    (by decide) (by decide)

/-- C5 (amended): for every non-empty resolved scope and every codegen
unit, the filter retains the unit if and only if its target package is a
scope member or some scope member depends on the unit's target package
(membership tested over the full metadata dependency graph).  (The frozen
claim had the depends-on direction reversed; the counterexample below
refutes it.) -/
theorem c5_filter_amended (ws : Workspace) (targets : List PkgId)
    (units : List CodegenUnit) (hne : targets ≠ []) (u : CodegenUnit) :
    u ∈ filterUnits ws targets units ↔
      u ∈ units ∧ ∃ t ∈ targets, u.target = t ∨ DependsOn ws t u.target := by
  unfold filterUnits
  rw [if_neg (fun hc => hne (List.isEmpty_iff.mp hc))]
  rw [List.mem_filter]
  apply and_congr_right
  intro _
  unfold retainUnit
  rw [List.any_eq_true]
  constructor
  · rintro ⟨t, ht, hcond⟩
    rw [Bool.or_eq_true] at hcond
    rcases hcond with hcond | hcond
    · exact ⟨t, ht, Or.inl (beq_iff_eq.mp hcond)⟩
    · exact ⟨t, ht, Or.inr ((dependsOnB_iff ws t u.target).mp hcond)⟩
  · rintro ⟨t, ht, hcond⟩
    refine ⟨t, ht, ?_⟩
    rw [Bool.or_eq_true]
    rcases hcond with hcond | hcond
    · exact Or.inl (beq_iff_eq.mpr hcond)
    · exact Or.inr ((dependsOnB_iff ws t u.target).mpr hcond)

/-- C5 (counterexample to the frozen wording): with scope `[b]` in
`wsDep`, the unit of `a` satisfies "its target package depends on a scope
member" (`a` depends on `b`), yet the filter drops it — the code tests
whether the scope member depends on the unit's target, not the other way
round. -/
theorem c5_filter_counterexample :
    DependsOn wsDep "a" "b" ∧ "b" ∈ (["b"] : List PkgId) ∧
    uDepA.target = "a" ∧
    uDepA ∉ filterUnits wsDep ["b"] [uDepA] := by
  refine ⟨Relation.TransGen.single ⟨⟨"a", "b", false⟩, by decide, rfl, rfl⟩,
    List.mem_cons_self _ _, rfl, ?_⟩
  intro hcon
  have hempty : filterUnits wsDep ["b"] [uDepA] = [] := by decide
  rw [hempty] at hcon
  exact absurd hcon (List.not_mem_nil uDepA)

/-- C5 witness: the amended retention condition instantiated for the unit
of `a` under scope `[a]` in the `A → B → C` workspace. -/
theorem c5_filter_witness :
    uB ∈ filterUnits wsABC ["a"] [uA, uB, uC] ↔
      uB ∈ [uA, uB, uC] ∧
        ∃ t ∈ (["a"] : List PkgId), uB.target = t ∨ DependsOn wsABC t uB.target :=
  c5_filter_amended wsABC ["a"] [uA, uB, uC] (by decide) uB

/-- C6: in the `A → B → C` workspace where each of the three packages has
a codegen unit, filtering with explicit scope `[a]` retains all three
units, and filtering with explicit scope `[c]` retains only `c`'s
unit. -/
theorem c6_filter_vectors :
    filterUnits wsABC (determine_targets ["a"] none wsABC) [uA, uB, uC] = [uA, uB, uC] ∧
    filterUnits wsABC (determine_targets ["c"] none wsABC) [uA, uB, uC] = [uC] := by
  constructor
  · decide
  · decide

/-- C7: in verification mode, when the filtered ordered plan is a prefix
of verifier-carrying units whose external steps succeed followed by a unit
with no verifier, the run stops at that unit with an error naming its
target package (no silent skip), and no unit after it is verified. -/
theorem c7_verify_missing_verifier (outcome : CodegenUnit → Bool)
    (pre : List CodegenUnit) (u : CodegenUnit) (post : List CodegenUnit)
    (hu : u.verifier = none)
    (hpre : ∀ v ∈ pre, v.verifier ≠ none ∧ outcome v = true) :
    verifyRun outcome (pre ++ u :: post) =
      (pre.map (fun v => v.target), some (missingVerifierMsg u.target)) ∧
    ContainsStr (missingVerifierMsg u.target) ("`" ++ u.target ++ "`") := by
  refine ⟨verifyRun_missing outcome pre u post hu hpre, ?_⟩
  refine ⟨[], (" doesn't define a verifier, therefore we can't verify if it's fresh" : String).data, ?_⟩
  simp [missingVerifierMsg, String.data_append]

/-- C7 witness: a three-unit plan whose middle unit lacks a verifier stops
there; only the first unit is verified and the error names the middle
target. -/
theorem c7_verify_missing_verifier_witness :
    verifyRun (fun _ => true)
        ([⟨"x", "g", some "v"⟩] ++ (⟨"y", "g", none⟩ : CodegenUnit) :: [⟨"z", "g", some "v"⟩]) =
      ([(⟨"x", "g", some "v"⟩ : CodegenUnit)].map (fun v => v.target),
        some (missingVerifierMsg "y")) ∧
    ContainsStr (missingVerifierMsg "y") ("`" ++ "y" ++ "`") :=
  c7_verify_missing_verifier (fun _ => true) [⟨"x", "g", some "v"⟩] ⟨"y", "g", none⟩
    [⟨"z", "g", some "v"⟩] rfl (by decide)

/-- C8: if an explicit package scope is requested but some requested name
does not resolve to a workspace member, target determination returns the
empty scope, and with the empty scope the filter retains every codegen
unit. -/
theorem c8_scope_fallback (ws : Workspace) (us : List CodegenUnit)
    (specs : List String) (implicitTarget : Option PkgId)
    (hne : specs ≠ []) (spec : String) (hspec : spec ∈ specs)
    (hmiss : member_by_name ws spec = none) :
    determine_targets specs implicitTarget ws = [] ∧
    filterUnits ws (determine_targets specs implicitTarget ws) us = us := by
  have hdt : determine_targets specs implicitTarget ws = [] := by
    unfold determine_targets
    rw [if_neg (fun hc => hne (List.isEmpty_iff.mp hc))]
    exact resolveSpecs_fail ws specs [] spec hspec hmiss
  refine ⟨hdt, ?_⟩
  rw [hdt]
  unfold filterUnits
  simp

/-- C8 witness: requesting the unknown package `nope` in `wsLin` falls
back to the empty scope and the filter keeps the unit list unchanged. -/
theorem c8_scope_fallback_witness :
    determine_targets ["nope"] none wsLin = [] ∧
    filterUnits wsLin (determine_targets ["nope"] none wsLin) [uLin] = [uLin] :=
  c8_scope_fallback wsLin [uLin] ["nope"] none (by decide) "nope"
    (List.mem_cons_self _ _) (by decide)

/-- C9 (amended): for every augmented dependency graph accepted by graph
construction that has at least one node, the set of nodes with no incoming
edges is non-empty, so the scheduler's assertion that a source node exists
does not fail.  (The frozen claim omitted the non-empty-graph premise; the
counterexample below is the empty workspace, which is accepted, acyclic
and has no source node.) -/
theorem c9_source_exists_amended (ws : Workspace) (us : List CodegenUnit)
    (hnd : (us.map (fun u => u.target)).Nodup) (g : AugmentedPackageGraph)
    (hok : buildAugmentedGraph ws us = some (.ok g)) (hne : g.pkgs ≠ []) :
    g.sourcesAsc ≠ [] := by
  obtain ⟨hbr, hnil⟩ := buildAugmentedGraph_ok ws us g hok
  rcases buildRawGraph_spec ws us hnd g hbr with ⟨hwf, _, _, _, _⟩
  have hacyc := acyclic_of_find_cycles_nil g hwf hnil
  have h0 : 0 < g.numNodes := List.length_pos.mpr hne
  rcases exists_source_reach g hwf hacyc 0 h0 with ⟨s, hs, _⟩
  exact List.ne_nil_of_mem hs

/-- C9 (counterexample to the frozen wording): the empty workspace is
accepted by graph construction, its graph is acyclic, and it has no
source node — the Rust assertion `!sources.is_empty()` would panic. -/
theorem c9_source_counterexample :
    buildAugmentedGraph ⟨[], []⟩ [] = some (.ok ⟨[], []⟩) ∧
    (⟨[], []⟩ : AugmentedPackageGraph).Acyclic ∧
    (⟨[], []⟩ : AugmentedPackageGraph).sourcesAsc = [] := by
  refine ⟨?_, ?_, rfl⟩
  · have hbr : buildRawGraph ⟨[], []⟩ [] = some ⟨[], []⟩ := by
      rw [buildRawGraph_eq]
      simp +decide [buildLoop, gbFold]
    unfold buildAugmentedGraph
    rw [hbr, Option.some_bind]
    rfl
  · rintro a b ⟨e, he, _, _⟩
    exact absurd he (List.not_mem_nil e)

/-- C9 witness: the accepted graph `gLin` has a node and therefore a
source node. -/
theorem c9_source_witness : gLin.sourcesAsc ≠ [] :=
  c9_source_exists_amended wsLin [uLin] (by decide) gLin buildAugmentedGraph_lin
    (by decide)

/-- C10: the binary-resolution loop of `CodegenUnit::new` skips the unit's
own package, so a binary defined only there yields the missing-generator
configuration error, and every successfully constructed unit has a
generator (and, when present, verifier) package distinct from its target
package. -/
theorem c10_self_excluded (cfg : PxConfig) (selfId : PkgId)
    (members : List MemberPackage) :
    ((∀ mp ∈ members, definesBinary mp cfg.generatorName = true → mp.pid = selfId) →
      codegenUnitNew cfg selfId members =
        .error (missingGeneratorMsg cfg.generatorName selfId)) ∧
    (∀ u, codegenUnitNew cfg selfId members = .ok u →
      u.target = selfId ∧ u.generator ≠ selfId ∧
        ∀ v, u.verifier = some v → v ≠ selfId) := by
  constructor
  · intro hall
    unfold codegenUnitNew
    rw [findBinaryPackage_none hall]
  · intro u hok
    unfold codegenUnitNew at hok
    cases hg : findBinaryPackage members selfId cfg.generatorName with
    | none =>
      rw [hg] at hok
      exact Except.noConfusion hok
    | some gpid =>
      rw [hg] at hok
      have hgne := findBinaryPackage_ne_self hg
      cases hv : cfg.verifierName with
      | none =>
        rw [hv] at hok
        have hu := Except.ok.inj hok
        subst hu
        refine ⟨rfl, hgne, ?_⟩
        intro v hv2
        exact absurd hv2 (by simp)
      | some vbin =>
        rw [hv] at hok
        have hok2 : (match findBinaryPackage members selfId vbin with
            | none => Except.error (missingVerifierBinMsg vbin selfId)
            | some vpid =>
              Except.ok (⟨selfId, gpid, some vpid⟩ : CodegenUnit)) = Except.ok u := hok
        cases hvf : findBinaryPackage members selfId vbin with
        | none =>
          rw [hvf] at hok2
          exact Except.noConfusion hok2
        | some vpid =>
          rw [hvf] at hok2
          have hvne := findBinaryPackage_ne_self hvf
          have hu := Except.ok.inj hok2
          subst hu
          refine ⟨rfl, hgne, ?_⟩
          intro v hv2
          have hvv : vpid = v := (Option.some.injEq _ _).mp hv2
          exact hvv ▸ hvne

/-- C10 witness: when the generator binary is defined only in the unit's
own package, construction fails with the missing-generator error. -/
theorem c10_self_excluded_witness :
    codegenUnitNew ⟨"gen", none⟩ "a" [⟨"a", [⟨"gen", true⟩]⟩] =
      .error (missingGeneratorMsg "gen" "a") :=
  (c10_self_excluded ⟨"gen", none⟩ "a" [⟨"a", [⟨"gen", true⟩]⟩]).1 (by decide)

end CargoPx
